import Mathlib

/-!
# temple-square: verification of the stream consumer's pure core

Shallow embedding of `cmd/server/sse.go`: the structured-output extractor
(`extractFirstJSON`), the dedup merger (`mergeUniqueQuotes`,
`mergeUniqueScriptures`, `quoteKey`, `scriptureKey`) and the Presidents
ordering (`sortPresidentsQuotes`, `oaksPriority`, `isOaksSpeaker`).

A Go `string` is an immutable sequence of bytes and `content[i]` is the byte at
index `i`; it is embedded as a list of byte values.
-/

namespace TempleSquare

/-- A Go string: its bytes, in order. -/
abbrev GoString := List Nat

/-- The bytes of an ASCII literal. -/
def B (s : String) : GoString := s.toList.map Char.toNat

/-- Go's slice expression `s[lo:hi]` on a string. -/
def slice (s : GoString) (lo hi : Nat) : GoString := (s.drop lo).take (hi - lo)

/-- Search loop of `strings.Index`: the least index, counted from `i`, at which
`substr` starts. -/
def indexFrom (substr : GoString) : GoString → Nat → Int
  | [], i => if substr = [] then (i : Int) else -1
  | c :: cs, i => if substr <+: c :: cs then (i : Int) else indexFrom substr cs (i + 1)

/-- Go's `strings.Index(s, substr)`: index of the first instance of `substr` in
`s`, or `-1` when there is none. -/
def stringsIndex (s substr : GoString) : Int := indexFrom substr s 0

/-- The `for i := start; i < len(content); i++` loop of `extractFirstJSON`.
`rest` is `content[i:]`; the result is the index `i` at which the loop returns,
or `none` when the loop runs off the end of the string. -/
def scanLoop : GoString → Nat → Int → Bool → Bool → Option Nat
  | [], _, _, _, _ => none
  | c :: rest, i, depth, inString, escaped =>
    if escaped then
      scanLoop rest (i + 1) depth inString false
    else if c = 92 ∧ inString = true then
      scanLoop rest (i + 1) depth inString true
    else if c = 34 then
      scanLoop rest (i + 1) depth (!inString) false
    else if inString then
      scanLoop rest (i + 1) depth inString false
    else if c = 123 then
      scanLoop rest (i + 1) (depth + 1) inString false
    else if c = 125 then
      if depth - 1 = 0 then some i
      else scanLoop rest (i + 1) (depth - 1) inString false
    else
      scanLoop rest (i + 1) depth inString false

/-- The function `extractFirstJSON` of `sse.go`: the first complete JSON object
of `content`, or an error. -/
def extractFirstJSON (content : GoString) : Except String GoString :=
  let start := stringsIndex content [123]
  if start = -1 then
    Except.error "no JSON object found"
  else
    match scanLoop (content.drop start.toNat) start.toNat 0 false false with
    | some i => Except.ok (slice content start.toNat (i + 1))
    | none => Except.error "incomplete JSON object"

/-- Specification side: one byte of string-literal lexing. The state is
(inside a string literal, the next byte is escaped). -/
def specLexStep (st : Bool × Bool) (c : Nat) : Bool × Bool :=
  if st.2 = true then (st.1, false)
  else if st.1 = true ∧ c = 92 then (true, true)
  else if c = 34 then (!st.1, false)
  else (st.1, false)

/-- Specification side: the lexing state after the bytes `w`, read from outside
any string literal. -/
def specLexState (w : GoString) : Bool × Bool := w.foldl specLexStep (false, false)

/-- Specification side: byte `j` of `w` lies outside every string literal. -/
def specOutside (w : GoString) (j : Nat) : Prop := specLexState (w.take j) = (false, false)

instance (w : GoString) (j : Nat) : Decidable (specOutside w j) := by
  unfold specOutside; infer_instance

/-- Specification side: what byte `j` of `w` adds to the brace depth: braces
inside string literals are ignored. -/
def specBraceDelta (w : GoString) (j : Nat) : Int :=
  if specOutside w j then
    (if w[j]? = some 123 then 1 else if w[j]? = some 125 then -1 else 0)
  else 0

/-- Specification side: the brace depth after the first `n` bytes of `w`. -/
def specBraceDepth (w : GoString) (n : Nat) : Int :=
  ((List.range n).map (specBraceDelta w)).sum

/-- Specification side: byte `i` of `w` is a closing brace outside every string
literal at which the depth returns to 0. -/
def specClosesAt (w : GoString) (i : Nat) : Prop :=
  w[i]? = some 125 ∧ specOutside w i ∧ specBraceDepth w (i + 1) = 0

instance (w : GoString) (i : Nat) : Decidable (specClosesAt w i) := by
  unfold specClosesAt; infer_instance

/-- Specification side: `start` is the index of the first opening brace of
`content`. -/
def specFirstBrace (content : GoString) (start : Nat) : Prop :=
  content[start]? = some 123 ∧ ∀ k, k < start → content[k]? ≠ some 123

/-- Specification side: `v` as the body of a JSON string literal: a backslash
becomes two backslashes, a double quote becomes backslash and double quote. -/
def specEsc : GoString → GoString
  | [] => []
  | c :: v =>
    if c = 92 then 92 :: 92 :: specEsc v
    else if c = 34 then 92 :: 34 :: specEsc v
    else c :: specEsc v

/-- Specification side: the object with the one key `k` and the string value
`v`: opening brace, `"k":"`, the escaped `v`, closing quote and brace. -/
def specObjectK (v : GoString) : GoString :=
  B "\x7b\"k\":\"" ++ specEsc v ++ B "\"\x7d"


/-! ## The dedup merger -/

/-- The Go struct `StructuredQuote`. -/
structure StructuredQuote where
  Speaker : GoString
  Title : GoString
  Conference : GoString
  Quote : GoString
  Headshot : GoString
  deriving DecidableEq

/-- The Go struct `RelatedTalkQuote`. -/
structure RelatedTalkQuote where
  Speaker : GoString
  Title : GoString
  Quote : GoString
  deriving DecidableEq

/-- The Go struct `StructuredScripture`; the pointer field `RelatedTalk` is
`none` when nil. -/
structure StructuredScripture where
  Volume : GoString
  Reference : GoString
  Text : GoString
  RelatedTalk : Option RelatedTalkQuote
  deriving DecidableEq

/-- The function `quoteKey`: `fmt.Sprintf("%s|%s|%s|%s", ...)`; byte 124 is the
vertical bar. -/
def quoteKey (q : StructuredQuote) : GoString :=
  q.Speaker ++ [124] ++ q.Title ++ [124] ++ q.Conference ++ [124] ++ q.Quote

/-- The function `scriptureKey`: `fmt.Sprintf("%s|%s|%s", ...)`. -/
def scriptureKey (s : StructuredScripture) : GoString :=
  s.Volume ++ [124] ++ s.Reference ++ [124] ++ s.Text

/-- The function `mergeUniqueQuotes`. The Go map `seen` (a set of keys) is the
list of the keys put into it; `existing = append(existing, q)` appends at the
end. -/
def mergeUniqueQuotes (existing incoming : List StructuredQuote) : List StructuredQuote :=
  let seen : List GoString := existing.foldl (fun seen q => quoteKey q :: seen) []
  (incoming.foldl (fun (st : List GoString × List StructuredQuote) q =>
      let key := quoteKey q
      if key ∈ st.1 then st else (key :: st.1, st.2 ++ [q])) (seen, existing)).2

/-- The function `mergeUniqueScriptures`. -/
def mergeUniqueScriptures (existing incoming : List StructuredScripture) :
    List StructuredScripture :=
  let seen : List GoString := existing.foldl (fun seen s => scriptureKey s :: seen) []
  (incoming.foldl (fun (st : List GoString × List StructuredScripture) s =>
      let key := scriptureKey s
      if key ∈ st.1 then st else (key :: st.1, st.2 ++ [s])) (seen, existing)).2

/-- The loop shared, word for word, by `mergeUniqueQuotes` and
`mergeUniqueScriptures`, with the key function as a parameter. -/
def mergeUniqueBy {α : Type} (key : α → GoString) (existing incoming : List α) : List α :=
  let seen : List GoString := existing.foldl (fun seen q => key q :: seen) []
  (incoming.foldl (fun (st : List GoString × List α) q =>
      let k := key q
      if k ∈ st.1 then st else (k :: st.1, st.2 ++ [q])) (seen, existing)).2

/-- Specification side: record `q`, at position `i` of the incoming list `L`,
has an identity key that no record of `S` and no earlier record of `L` has. -/
def specIsNew {α : Type} (key : α → GoString) (S L : List α) (i : Nat) (q : α) : Bool :=
  decide (key q ∉ S.map key ∧ key q ∉ (L.take i).map key)

/-- Specification side: the sub-list of `L`, in the order of `L`, of the records
whose identity key is neither that of a record of `S` nor that of an earlier
record of `L`. -/
def specNewRecords {α : Type} (key : α → GoString) (S L : List α) : List α :=
  (L.enum.filter (fun p => specIsNew key S L p.1 p.2)).map Prod.snd

/-- The records of `L` that the merge loop appends when it starts with the set
`seen` (recursive form of the loop, used in the proofs). -/
def newRecords {α : Type} (key : α → GoString) : List GoString → List α → List α
  | _, [] => []
  | seen, q :: L =>
    if key q ∈ seen then newRecords key seen L else q :: newRecords key (key q :: seen) L

/-- Specification side: the identity of a scripture record, the triple
(volume, reference, text). -/
def specScriptureIdentity (s : StructuredScripture) : GoString × GoString × GoString :=
  (s.Volume, s.Reference, s.Text)

/-- Specification side: the identity of a quote record, the 4-tuple
(speaker, title, conference, quote). -/
def specQuoteIdentity (q : StructuredQuote) : GoString × GoString × GoString × GoString :=
  (q.Speaker, q.Title, q.Conference, q.Quote)

/-- Specification side: the sub-list of `L`, in the order of `L`, of the records
whose identity `ident` is neither that of a record of `S` nor that of an
earlier record of `L`. -/
def specNewByIdentity {α β : Type} [DecidableEq β] (ident : α → β) (S L : List α) : List α :=
  (L.enum.filter (fun p =>
    decide (ident p.2 ∉ S.map ident ∧ ident p.2 ∉ (L.take p.1).map ident))).map Prod.snd

/-! ## The Presidents ordering -/

/-- The functions of Go's `strings` package whose result depends on the Unicode
tables (`strings.ToLower`, `strings.TrimSpace`): parameters of the embedding. -/
structure StringsPkg where
  ToLower : GoString → GoString
  TrimSpace : GoString → GoString

/-- Lower case of an ASCII byte: `A`..`Z` become `a`..`z`. -/
def asciiLowerByte (c : Nat) : Nat := if 65 ≤ c ∧ c ≤ 90 then c + 32 else c

/-- The value of `strings.ToLower` on ASCII text. -/
def asciiToLower (s : GoString) : GoString := s.map asciiLowerByte

/-- The ASCII white space of `strings.TrimSpace`: tab, LF, VT, FF, CR, space. -/
def asciiSpace (c : Nat) : Bool := c = 9 || c = 10 || c = 11 || c = 12 || c = 13 || c = 32

/-- The value of `strings.TrimSpace` on ASCII text. -/
def asciiTrimSpace (s : GoString) : GoString :=
  ((s.dropWhile asciiSpace).reverse.dropWhile asciiSpace).reverse

/-- The `strings` functions on ASCII text. -/
def asciiStrings : StringsPkg := ⟨asciiToLower, asciiTrimSpace⟩

/-- The UTF-8 encodings of the runes for which `unicode.IsSpace` holds: tab, LF,
VT, FF, CR, space, U+0085, U+00A0, U+1680, U+2000 to U+200A, U+2028, U+2029,
U+202F, U+205F and U+3000. A text starts (ends) with one of these byte
sequences exactly when `utf8.DecodeRuneInString` (`DecodeLastRuneInString`)
returns a white-space rune for it; bytes that are no valid encoding decode to
U+FFFD, which is no white space. -/
def spaceRunes : List GoString :=
  [[9], [10], [11], [12], [13], [32], [0xC2, 0x85], [0xC2, 0xA0], [0xE1, 0x9A, 0x80],
    [0xE2, 0x80, 0x80], [0xE2, 0x80, 0x81], [0xE2, 0x80, 0x82], [0xE2, 0x80, 0x83],
    [0xE2, 0x80, 0x84], [0xE2, 0x80, 0x85], [0xE2, 0x80, 0x86], [0xE2, 0x80, 0x87],
    [0xE2, 0x80, 0x88], [0xE2, 0x80, 0x89], [0xE2, 0x80, 0x8A], [0xE2, 0x80, 0xA8],
    [0xE2, 0x80, 0xA9], [0xE2, 0x80, 0xAF], [0xE2, 0x81, 0x9F], [0xE3, 0x80, 0x80]]

/-- The loop of Go's `strings.TrimLeftFunc(s, unicode.IsSpace)`: the white-space
runes at the start of `s` are passed over one after the other; `n` bounds
their number. -/
def trimLeftLoop : Nat → GoString → GoString
  | 0, s => s
  | n + 1, s =>
    match spaceRunes.find? (fun e => decide (e <+: s)) with
    | some e => trimLeftLoop n (s.drop e.length)
    | none => s

/-- The loop of Go's `strings.TrimRightFunc(s, unicode.IsSpace)`: the
white-space runes at the end of `s` are passed over one after the other; `n`
bounds their number. -/
def trimRightLoop : Nat → GoString → GoString
  | 0, s => s
  | n + 1, s =>
    match spaceRunes.find? (fun e => decide (e <:+ s)) with
    | some e => trimRightLoop n (s.take (s.length - e.length))
    | none => s

/-- Go's `strings.TrimLeftFunc(s, unicode.IsSpace)`. -/
def stringsTrimLeftSpace (s : GoString) : GoString := trimLeftLoop s.length s

/-- Go's `strings.TrimRightFunc(s, unicode.IsSpace)`. -/
def stringsTrimRightSpace (s : GoString) : GoString := trimRightLoop s.length s

/-- Go's `strings.TrimSpace(s)` on any byte string: `s` without the white
space, as Unicode defines it, at its start and at its end (the fast path of
the Go function for ASCII gives the same result). -/
def stringsTrimSpace (s : GoString) : GoString :=
  stringsTrimRightSpace (stringsTrimLeftSpace s)

/-- Go's `strings.Contains(s, substr)`, which is `Index(s, substr) >= 0`. -/
def stringsContains (s substr : GoString) : Bool := decide (0 ≤ stringsIndex s substr)

/-- The function `isOaksSpeaker`. -/
def isOaksSpeaker (lib : StringsPkg) (name : GoString) : Bool :=
  let name := lib.ToLower (lib.TrimSpace name)
  if name = [] then false
  else stringsContains name (B "oaks")

/-- The function `oaksPriority`. -/
def oaksPriority (lib : StringsPkg) (q : StructuredQuote) : Int :=
  if isOaksSpeaker lib q.Speaker then 0 else 1

/-- Inner loop of the insertion sort of Go's `sort` package
(`for j := i; j > a && less(j, j-1); j--` swapping neighbours): the element `x`
moves left past every element it is less than. The sorted part is given last
element first. -/
def insertBack {α : Type} (less : α → α → Bool) (x : α) : List α → List α
  | [] => [x]
  | y :: ys => if less x y then y :: insertBack less x ys else x :: y :: ys

/-- Go's `sort.SliceStable(x, less)`, with `less` on the elements. The library
sorts by insertion (blocks) and stable merging; it is embedded as its stable
insertion sort. -/
def sliceStable {α : Type} (less : α → α → Bool) (xs : List α) : List α :=
  (xs.foldl (fun acc x => insertBack less x acc) []).reverse

/-- The function `sortPresidentsQuotes`; the sorted slice is the result. -/
def sortPresidentsQuotes (lib : StringsPkg) (quotes : List StructuredQuote) :
    List StructuredQuote :=
  sliceStable (fun a b => decide (oaksPriority lib a < oaksPriority lib b)) quotes

/-! ## The session claim store -/

/-- The constant `sessionTTL = 10 * time.Minute`, a `time.Duration`: nanoseconds. -/
def sessionTTL : Int := 10 * (60 * 1000000000)

/-- The map `sessionExpires`, from session ID to expiry instant. An instant
(`time.Time`) is a number of nanoseconds on the one clock of the process. -/
abbrev SessionStore := GoString → Option Int

/-- Go's `m[k] = v`. -/
def mapSet (m : SessionStore) (k : GoString) (v : Int) : SessionStore :=
  fun x => if x = k then some v else m x

/-- Go's `delete(m, k)`. -/
def mapDelete (m : SessionStore) (k : GoString) : SessionStore :=
  fun x => if x = k then none else m x

/-- The function `claimSession`. The store and the value of `time.Now()` are
inputs; the result is the returned boolean and the store afterwards (the body
runs under `sessionMu`). `exp.After(now)` is `now < exp`. -/
def claimSession (store : SessionStore) (now : Int) (sessionID : GoString) :
    Bool × SessionStore :=
  if sessionID = [] then (false, store)
  else
    match store sessionID with
    | some exp =>
      if now < exp then (true, store)
      else (false, mapSet (mapDelete store sessionID) sessionID (now + sessionTTL))
    | none => (false, mapSet store sessionID (now + sessionTTL))

/-- The function `markSessionDone`, with the store and `time.Now()` as inputs. -/
def markSessionDone (store : SessionStore) (now : Int) (sessionID : GoString) : SessionStore :=
  if sessionID = [] then store
  else mapSet store sessionID (now + sessionTTL)

/-- Successive calls `claimSession(sessionID)` at the instants `ts`: the
booleans returned, in order, and the store at the end. -/
def claimSessionSeq (store : SessionStore) (sessionID : GoString) :
    List Int → List Bool × SessionStore
  | [] => ([], store)
  | t :: ts =>
    let r := claimSession store t sessionID
    let rest := claimSessionSeq r.2 sessionID ts
    (r.1 :: rest.1, rest.2)

/-! ## The response sanitizer -/

/-- Search loop of `strings.LastIndex`: the greatest index, counted from `i`, at
which `substr` starts. -/
def lastIndexFrom (substr : GoString) : GoString → Nat → Int
  | [], i => if substr = [] then (i : Int) else -1
  | c :: cs, i =>
    let later := lastIndexFrom substr cs (i + 1)
    if later ≠ -1 then later
    else if substr <+: c :: cs then (i : Int) else -1

/-- Go's `strings.LastIndex(s, substr)`: index of the last instance of `substr`
in `s`, or `-1` when there is none. -/
def stringsLastIndex (s substr : GoString) : Int := lastIndexFrom substr s 0

/-- Go's `strings.HasPrefix(s, prefix)`:
`len(s) >= len(prefix) && s[:len(prefix)] == prefix`. -/
def stringsHasPrefix (s pre : GoString) : Bool :=
  decide (pre.length ≤ s.length) && decide (s.take pre.length = pre)

/-- Go's `strings.HasSuffix(s, suffix)`:
`len(s) >= len(suffix) && s[len(s)-len(suffix):] == suffix`. -/
def stringsHasSuffix (s suf : GoString) : Bool :=
  decide (suf.length ≤ s.length) && decide (s.drop (s.length - suf.length) = suf)

/-- Go's `strings.TrimPrefix(s, prefix)`. -/
def stringsTrimPrefix (s pre : GoString) : GoString :=
  if stringsHasPrefix s pre then s.drop pre.length else s

/-- Go's `strings.TrimSuffix(s, suffix)`. -/
def stringsTrimSuffix (s suf : GoString) : GoString :=
  if stringsHasSuffix s suf then s.take (s.length - suf.length) else s

/-- Go's `strings.Join(elems, sep)`. -/
def stringsJoin : List GoString → GoString → GoString
  | [], _ => []
  | [a], _ => a
  | a :: b :: rest, sep => a ++ sep ++ stringsJoin (b :: rest) sep

/-- Loop of `strings.ReplaceAll` for a non-empty `old`: `skip` is the number of
bytes of a replaced instance still to pass over. -/
def replaceAllFrom (old new : GoString) : GoString → Nat → GoString
  | [], _ => []
  | _ :: cs, skip + 1 => replaceAllFrom old new cs skip
  | c :: cs, 0 =>
    if old <+: c :: cs then new ++ replaceAllFrom old new cs (old.length - 1)
    else c :: replaceAllFrom old new cs 0

/-- Go's `strings.ReplaceAll(s, old, new)` for a non-empty `old`: the
non-overlapping instances of `old`, from the left, become `new`. -/
def stringsReplaceAll (s old new : GoString) : GoString := replaceAllFrom old new s 0

/-- The loop `for i := 0; i < len(rest); i++` of `extractEmbeddedJSONValue`:
the first index `i` with `rest[i] == '"'` and not (`i > 0` and
`rest[i-1] == '\\'`). `tail` is `rest[i:]` and `prev` the byte before it. -/
def closingQuote : GoString → Nat → Nat → Option Nat
  | [], _, _ => none
  | c :: tail, i, prev =>
    if c = 34 then
      if 0 < i ∧ prev = 92 then closingQuote tail (i + 1) c
      else some i
    else closingQuote tail (i + 1) c

/-- The four patterns of `extractEmbeddedJSONValue` for `key`: start text and
the `escaped` flag. -/
def embeddedPatterns (key : GoString) : List (GoString × Bool) :=
  [ (B "\"" ++ key ++ B "\":\"", false),
    (B "\"" ++ key ++ B "\": \"", false),
    (B "\\\\\"" ++ key ++ B "\\\\\":\\\\\"", true),
    (B "\\\\\"" ++ key ++ B "\\\\\": \\\\\"", true) ]

/-- One iteration of the pattern loop of `extractEmbeddedJSONValue`: the value
returned, or `none` when the iteration ends in `continue` or falls through. -/
def tryEmbeddedPattern (lib : StringsPkg) (text : GoString) (pattern : GoString × Bool) :
    Option GoString :=
  let idx := stringsLastIndex text pattern.1
  if idx = -1 then none
  else
    let rest := text.drop (idx.toNat + pattern.1.length)
    if pattern.2 then
      let stop := stringsIndex rest (B "\\\\\"")
      if stop = -1 then none
      else
        let val := rest.take stop.toNat
        let val := stringsReplaceAll val (B "\\\\n") (B "\n")
        let val := stringsReplaceAll val (B "\\\\\"") (B "\"")
        some (lib.TrimSpace val)
    else
      match closingQuote rest 0 0 with
      | some i => some (lib.TrimSpace (rest.take i))
      | none => none

/-- The function `extractEmbeddedJSONValue`. -/
def extractEmbeddedJSONValue (lib : StringsPkg) (text key : GoString) : GoString × Bool :=
  match (embeddedPatterns key).findSome? (tryEmbeddedPattern lib text) with
  | some val => (val, true)
  | none => ([], false)

/-- The five patterns of `trimAtJSONKey` for `key`. -/
def trimPatterns (key : GoString) : List GoString :=
  [ B "\", \"" ++ key ++ B "\"",
    B "\", \"" ++ key ++ B "\":",
    B "\"" ++ key ++ B "\":",
    B "\", \\\"" ++ key ++ B "\\\"",
    B "\", \\\"" ++ key ++ B "\\\":" ]

/-- The inner loop of `trimAtJSONKey`: cut at the first pattern found, then
`break`. -/
def trimAtFirstPattern (cleaned : GoString) : List GoString → GoString
  | [] => cleaned
  | pattern :: rest =>
    let idx := stringsIndex cleaned pattern
    if idx ≠ -1 then cleaned.take idx.toNat
    else trimAtFirstPattern cleaned rest

/-- The function `trimAtJSONKey`. -/
def trimAtJSONKey (lib : StringsPkg) (text : GoString) (keys : List GoString) : GoString :=
  let cleaned := lib.TrimSpace text
  let cleaned := keys.foldl (fun cleaned key => trimAtFirstPattern cleaned (trimPatterns key))
    cleaned
  let cleaned := stringsTrimSuffix cleaned (B "\"")
  lib.TrimSpace cleaned

/-- The function `sanitizeQuoteText`. -/
def sanitizeQuoteText (lib : StringsPkg) (text : GoString) : GoString :=
  let cleaned := lib.TrimSpace text
  let found := extractEmbeddedJSONValue lib cleaned (B "quote")
  if found.2 then found.1
  else
    let idx := stringsLastIndex cleaned (B "Quote:")
    let cleaned := if idx ≠ -1 then cleaned.drop (idx.toNat + (B "Quote:").length) else cleaned
    let idx := stringsIndex cleaned (B "Headshot:")
    let cleaned := if idx ≠ -1 then cleaned.take idx.toNat else cleaned
    lib.TrimSpace cleaned

/-- The function `sanitizeLabelPrefix`. -/
def sanitizeLabelPrefix (lib : StringsPkg) (text label : GoString) : GoString :=
  let cleaned := lib.TrimSpace text
  if stringsHasPrefix cleaned label then
    lib.TrimSpace (stringsTrimPrefix cleaned label)
  else cleaned

/-- The function `sanitizeBetweenLabels`; `stops` is the variadic argument. -/
def sanitizeBetweenLabels (lib : StringsPkg) (text primary : GoString)
    (stops : List GoString) : GoString :=
  let cleaned := lib.TrimSpace text
  let idx := stringsLastIndex cleaned primary
  let cleaned := if idx ≠ -1 then cleaned.drop (idx.toNat + primary.length) else cleaned
  let cleaned := stops.foldl (fun cleaned stop =>
    let idx := stringsIndex cleaned stop
    if idx ≠ -1 then cleaned.take idx.toNat else cleaned) cleaned
  lib.TrimSpace cleaned

/-- The function `sanitizeStructuredQuote`. -/
def sanitizeStructuredQuote (lib : StringsPkg) (q : StructuredQuote) : StructuredQuote :=
  let raw := stringsJoin [q.Speaker, q.Title, q.Conference, q.Quote, q.Headshot] (B " ")
  let found := extractEmbeddedJSONValue lib raw (B "speaker")
  let q : StructuredQuote := if found.2 then { q with Speaker := found.1 } else q
  let found := extractEmbeddedJSONValue lib raw (B "title")
  let q : StructuredQuote := if found.2 then { q with Title := found.1 } else q
  let found := extractEmbeddedJSONValue lib raw (B "conference")
  let q : StructuredQuote := if found.2 then { q with Conference := found.1 } else q
  let found := extractEmbeddedJSONValue lib raw (B "quote")
  let q : StructuredQuote := if found.2 then { q with Quote := found.1 } else q
  let found := extractEmbeddedJSONValue lib raw (B "headshot")
  let q : StructuredQuote := if found.2 then { q with Headshot := found.1 } else q
  let q : StructuredQuote :=
    { q with Title := trimAtJSONKey lib q.Title [B "conference", B "quote", B "headshot"] }
  let q : StructuredQuote :=
    { q with Conference := trimAtJSONKey lib q.Conference [B "quote", B "headshot", B "title"] }
  let q : StructuredQuote :=
    { q with Headshot := trimAtJSONKey lib q.Headshot [B "conference", B "quote", B "title"] }
  let q : StructuredQuote := { q with Speaker := sanitizeLabelPrefix lib q.Speaker (B "Speaker:") }
  let q : StructuredQuote :=
    { q with Title := (sanitizeBetweenLabels lib q.Title (B "Title:")
        [B "Conference:", B "Quote:", B "Headshot:"]) }
  let q : StructuredQuote :=
    { q with Conference := (sanitizeBetweenLabels lib q.Conference (B "Conference:")
        [B "Quote:", B "Headshot:"]) }
  let q : StructuredQuote := { q with Quote := sanitizeQuoteText lib q.Quote }
  let q : StructuredQuote := { q with Headshot := sanitizeLabelPrefix lib q.Headshot (B "Headshot:") }
  q

/-- Specification side: byte `k` of `rest` is a double quote that no backslash
precedes. -/
def specQuoteEnds (rest : GoString) (k : Nat) : Prop :=
  rest[k]? = some 34 ∧ ¬ (0 < k ∧ rest[k - 1]? = some 92)

instance (rest : GoString) (k : Nat) : Decidable (specQuoteEnds rest k) := by
  unfold specQuoteEnds; infer_instance

/-- Specification side: `v` is the text between the last occurrence of `pat`
in `text` and the next double quote that no backslash precedes. -/
def specEmbedded (text pat v : GoString) : Prop :=
  ∃ a rest, text = a ++ pat ++ rest ∧
    (∀ j, a.length < j → j ≤ text.length → ¬ pat <+: text.drop j) ∧
    specQuoteEnds rest v.length ∧ (∀ j, j < v.length → ¬ specQuoteEnds rest j) ∧
    v = rest.take v.length

/-- Specification side: `v` is the embedded value of `key` in `text`: the one
after the pattern `"key":"` or, when that pattern yields none, the one after
`"key": "`. -/
def specPreferred (text key v : GoString) : Prop :=
  specEmbedded text (B "\"" ++ key ++ B "\":\"") v ∨
  ((¬ ∃ v', specEmbedded text (B "\"" ++ key ++ B "\":\"") v') ∧
    specEmbedded text (B "\"" ++ key ++ B "\": \"") v)

/-- The text `raw` of `sanitizeStructuredQuote`: the five fields joined by a
space. -/
def rawOf (q : StructuredQuote) : GoString :=
  stringsJoin [q.Speaker, q.Title, q.Conference, q.Quote, q.Headshot] (B " ")

/-- Specification side: `part` is what lies in `c` after the last occurrence
of `primary`, or all of `c` when `primary` does not occur. -/
def specAfterLast (c primary part : GoString) : Prop :=
  (¬ primary <:+: c ∧ part = c) ∨
  (∃ a, c = a ++ primary ++ part ∧
    ∀ j, a.length < j → j ≤ c.length → ¬ primary <+: c.drop j)

/-- Specification side: `cut` is what lies in `part` before the earliest
occurrence of any of the labels `stops`: a prefix of `part` in which no label
starts, and which is all of `part` or ends where a label starts. -/
def specBeforeEarliest (part : GoString) (stops : List GoString) (cut : GoString) : Prop :=
  cut <+: part ∧
  (∀ j, j < cut.length → ∀ st ∈ stops, ¬ st <+: part.drop j) ∧
  (cut = part ∨ ∃ st ∈ stops, st <+: part.drop cut.length)

/-- The body of the loop over `stops` in `sanitizeBetweenLabels`. -/
def cutAtStop (cleaned stop : GoString) : GoString :=
  let idx := stringsIndex cleaned stop
  if idx ≠ -1 then cleaned.take idx.toNat else cleaned

/-- Specification side: `pat` occurs in `text` and, somewhere after that
occurrence, there is a double quote that no backslash precedes. -/
def specFollowedByQuote (text pat : GoString) : Prop :=
  ∃ a rest k, text = a ++ pat ++ rest ∧ specQuoteEnds rest k

/-- Specification side: `v` holds no double quote and none of the labels
`Speaker:`, `Title:`, `Conference:`, `Quote:`, `Headshot:`. -/
def specPlainValue (v : GoString) : Prop :=
  34 ∉ v ∧
  ∀ label ∈ [B "Speaker:", B "Title:", B "Conference:", B "Quote:", B "Headshot:"],
    ¬ label <:+: v

instance (v : GoString) : Decidable (specPlainValue v) := by
  unfold specPlainValue; infer_instance

/-! ## The stream consumer: accumulation and conversion for display -/

/-- The `presidents_agent` and `leaders_agent` cases of the loop of
`handleSSEStream`: the quotes parsed from a result are merged, as parsed, into
the accumulated list (`presidentsQuotes = mergeUniqueQuotes(presidentsQuotes, quotes)`). -/
def accumulateQuotes (accumulated parsed : List StructuredQuote) : List StructuredQuote :=
  mergeUniqueQuotes accumulated parsed

/-- The Go struct `components.SpeakerQuote`, as `convertQuotesToSpeakers` fills it. -/
structure SpeakerQuote where
  Name : GoString
  TalkTitle : GoString
  Conference : GoString
  Quotes : List GoString
  Headshot : GoString
  deriving DecidableEq

/-- The Go struct `components.TalkPullQuote`. -/
structure TalkPullQuote where
  Speaker : GoString
  Title : GoString
  Quote : GoString
  deriving DecidableEq

/-- The Go struct `components.ScriptureWithTalk`, with its embedded
`ScriptureRef`, as `convertStructuredScriptures` fills it. -/
structure ScriptureWithTalk where
  Volume : GoString
  Reference : GoString
  Text : GoString
  RelatedTalk : Option TalkPullQuote
  deriving DecidableEq

/-- Go's `strings.ContainsAny(s, chars)` for ASCII `chars`. -/
def stringsContainsAny (s chars : GoString) : Bool := s.any (fun c => decide (c ∈ chars))

/-- The function `isValidHeadshotURL`. -/
def isValidHeadshotURL (url allowedPrefix : GoString) : Bool :=
  if url = [] then false
  else if !stringsHasPrefix url allowedPrefix then false
  else if !stringsHasSuffix url (B ".webp") then false
  else if stringsContainsAny url (B " \t\r\n\"'<>") then false
  else true

/-- The function `convertQuotesToSpeakers`. The variable `assetsBaseURL` and
the function `lookupSpeakerHeadshot` of `main.go` (which ranges over a Go map,
in no fixed order) are parameters. -/
def convertQuotesToSpeakers (lib : StringsPkg) (assetsBaseURL : GoString)
    (lookupSpeakerHeadshot : GoString → GoString) (quotes : List StructuredQuote) :
    List SpeakerQuote :=
  let allowedPrefix := assetsBaseURL ++ B "/headshots/"
  quotes.map (fun q =>
    let q := sanitizeStructuredQuote lib q
    let headshot := lookupSpeakerHeadshot q.Speaker
    let headshot :=
      if headshot = [] ∧ isValidHeadshotURL q.Headshot allowedPrefix = true then q.Headshot
      else headshot
    { Name := q.Speaker, TalkTitle := q.Title, Conference := q.Conference,
      Quotes := [q.Quote], Headshot := headshot })

/-- The function `convertStructuredScriptures`. -/
def convertStructuredScriptures (scriptures : List StructuredScripture) :
    List ScriptureWithTalk :=
  scriptures.map (fun s =>
    { Volume := s.Volume, Reference := s.Reference, Text := s.Text,
      RelatedTalk := s.RelatedTalk.map (fun t =>
        { Speaker := t.Speaker, Title := t.Title, Quote := t.Quote }) })

/-! ## The task-graph orchestrator (`internal/agent/agent.go`) -/

/-- A Go `error` value, by its message; `nil` is `none : Option GoError`. -/
abbrev GoError := GoString

/-- The Go struct `AgentResult`. -/
structure AgentResult where
  AgentName : GoString
  Content : GoString
  Error : Option GoError
  deriving DecidableEq

/-- The Go struct `PresidentsOrchestratorResponse`. -/
structure PresidentsOrchestratorResponse where
  Safe : Bool
  Reason : GoString
  PresidentsOaks : GoString
  PresidentsGeneral : GoString
  deriving DecidableEq

/-- The Go struct `LeadersOrchestratorResponse`. -/
structure LeadersOrchestratorResponse where
  LeadersFirstPres : GoString
  LeadersQ12 : GoString
  LeadersOther : GoString
  deriving DecidableEq

/-- The Go struct `ScripturesOrchestratorResponse`. -/
structure ScripturesOrchestratorResponse where
  ScripturesBible : GoString
  ScripturesBoM : GoString
  ScripturesOther : GoString
  deriving DecidableEq

/-- What one call of `a.client.GenerateContent` for a formatting request gives
`runSearchAgent`: an error, or the text (`ExtractText`) and the finish reason
(`GetFinishReason`) of the response. -/
inductive GenerateOutcome where
  | failed (err : GoError)
  | response (text finishReason : GoString)
  deriving DecidableEq

/-- What `runSearchAgent` returns, with the number of formatting calls
(`GenerateContent`) it has made. -/
structure SearchOutcome where
  content : GoString
  err : Option GoError
  formatCalls : Nat
  deriving DecidableEq

/-- The loop `for attempt := 1; attempt <= maxAttempts; attempt++` of
`runSearchAgent` and the two returns after it. `remaining` is
`maxAttempts + 1 - attempt`; `generate k` is the outcome of the `k`-th
formatting call. -/
def formatAttempts (lib : StringsPkg) (name : GoString) (generate : Nat → GenerateOutcome) :
    Nat → Nat → Option GoError → SearchOutcome
  | 0, attempt, lastErr =>
    match lastErr with
    | some err => ⟨[], some (B "format failed: " ++ err), attempt - 1⟩
    | none => ⟨[], some (B "format failed: unknown error"), attempt - 1⟩
  | remaining + 1, attempt, _ =>
    match generate attempt with
    | GenerateOutcome.failed err =>
      formatAttempts lib name generate remaining (attempt + 1) (some err)
    | GenerateOutcome.response text finishReason =>
      if name = B "presidents_general" ∧
          (finishReason = B "RECITATION" ∨ (lib.TrimSpace text).length = 0) then
        formatAttempts lib name generate remaining (attempt + 1)
          (some (B "empty or recitation output"))
      else ⟨text, none, attempt⟩

/-- The function `runSearchAgent`. Inputs: whether `a.allTools` has the tool,
what `tool.Invoke` and `json.Marshal` return (an error, if any), and the
outcomes of the successive formatting calls. -/
def runSearchAgent (lib : StringsPkg) (name toolName : GoString) (toolFound : Bool)
    (invokeErr marshalErr : Option GoError) (generate : Nat → GenerateOutcome) :
    SearchOutcome :=
  if !toolFound then ⟨[], some (B "tool not found: " ++ toolName), 0⟩
  else
    match invokeErr with
    | some err => ⟨[], some (B "tool " ++ toolName ++ B " failed: " ++ err), 0⟩
    | none =>
      match marshalErr with
      | some err => ⟨[], some (B "failed to marshal result: " ++ err), 0⟩
      | none =>
        let maxAttempts := if name = B "presidents_general" then 3 else 1
        formatAttempts lib name generate maxAttempts 1 none

/-- Specification side: after this outcome of a formatting call the task
`presidents_general` makes a further attempt: the call failed, or returned the
finish reason `RECITATION`, or returned empty (white space only) text. -/
def specRetry (lib : StringsPkg) : GenerateOutcome → Prop
  | GenerateOutcome.failed _ => True
  | GenerateOutcome.response text finishReason =>
    finishReason = B "RECITATION" ∨ lib.TrimSpace text = []

/-- The calls that `Run` makes outside its own code. -/
inductive RunCall where
  | ensureInitialized
  | orchestratorPresidents
  | orchestratorLeaders
  | orchestratorScriptures
  | searchAgent (name : GoString)
  deriving DecidableEq

/-- What the calls of one run return: `ensureInitialized`, the three
`runOrchestrator...` functions (a pointer and an error) and `runSearchAgent`
for each task name (content and error). -/
structure RunEnv where
  initErr : Option GoError
  presidents : Except GoError PresidentsOrchestratorResponse
  leaders : Option LeadersOrchestratorResponse × Option GoError
  scriptures : Option ScripturesOrchestratorResponse × Option GoError
  search : GoString → GoString × Option GoError

/-- What a run does: the results sent on the channel `results`, the calls
made, and whether the channel is closed at the end. The sends of the concurrent
tasks of one stage are listed in the order of the source text; their order on
the channel depends on the scheduling. -/
structure RunTrace where
  results : List AgentResult
  calls : List RunCall
  closed : Bool
  deriving DecidableEq

/-- The result that a task goroutine of `Run` sends:
`AgentResult{AgentName: agent, Content: content, Error: err}` with the return
values of `runSearchAgent` for the task `name`. -/
def taskResult (env : RunEnv) (agent name : GoString) : AgentResult :=
  ⟨agent, (env.search name).1, (env.search name).2⟩

/-- The body that `startLeaders` runs under `leadersOnce`: the results it sends
and the tasks it runs. -/
def leadersStage (env : RunEnv) : List AgentResult × List RunCall :=
  match env.leaders with
  | (_, some err) => ([⟨[], [], some (B "leaders orchestrator failed: " ++ err)⟩], [])
  | (none, none) => ([⟨[], [], some (B "leaders orchestrator returned no data")⟩], [])
  | (some _, none) =>
    ([B "leaders_eyring", B "leaders_christofferson", B "leaders_q12_a", B "leaders_q12_b",
        B "leaders_other_a", B "leaders_other_b"].map (taskResult env (B "leaders_agent")),
      [B "leaders_eyring", B "leaders_christofferson", B "leaders_q12_a", B "leaders_q12_b",
        B "leaders_other_a", B "leaders_other_b"].map RunCall.searchAgent)

/-- Step 3 of `Run`, after `<-leadersDone`: the results sent and the tasks run. -/
def scripturesStage (env : RunEnv) : List AgentResult × List RunCall :=
  match env.scriptures with
  | (_, some err) => ([⟨[], [], some (B "scriptures orchestrator failed: " ++ err)⟩], [])
  | (none, none) => ([⟨[], [], some (B "scriptures orchestrator returned no data")⟩], [])
  | (some _, none) =>
    ([taskResult env (B "scriptures_bible") (B "scriptures_bible"),
        taskResult env (B "scriptures_bom") (B "scriptures_bom"),
        taskResult env (B "scriptures_other") (B "scriptures_other")],
      [RunCall.searchAgent (B "scriptures_bible"), RunCall.searchAgent (B "scriptures_bom"),
        RunCall.searchAgent (B "scriptures_other")])

/-- The method `ProphetAgent.Run`: the goroutine it starts, up to the deferred
`close(results)`. -/
def Run (env : RunEnv) : RunTrace :=
  match env.initErr with
  | some err => ⟨[⟨[], [], some err⟩], [RunCall.ensureInitialized], true⟩
  | none =>
    match env.presidents with
    | Except.error err =>
      ⟨[⟨[], [], some (B "presidents orchestrator failed: " ++ err)⟩],
        [RunCall.ensureInitialized, RunCall.orchestratorPresidents], true⟩
    | Except.ok presOrch =>
      if !presOrch.Safe then
        ⟨[⟨B "orchestrator", [], some (B "blocked: " ++ presOrch.Reason)⟩],
          [RunCall.ensureInitialized, RunCall.orchestratorPresidents], true⟩
      else
        let presidents := [B "presidents_oaks", B "presidents_nelson", B "presidents_general"]
        let leaders := leadersStage env
        let scriptures := scripturesStage env
        ⟨presidents.map (taskResult env (B "presidents_agent")) ++ leaders.1 ++ scriptures.1,
          [RunCall.ensureInitialized, RunCall.orchestratorPresidents,
            RunCall.orchestratorLeaders, RunCall.orchestratorScriptures]
            ++ presidents.map RunCall.searchAgent ++ leaders.2 ++ scriptures.2,
          true⟩

/-! ## The summary input -/

/-- The function `limitQuotes` (and, with the same body, `limitScriptures`),
for any element type. `none` is the run-time panic of `in[:n]` for a negative
`n`. -/
def limitQuotes {α : Type} (inp : List α) (n : Int) : Option (List α) :=
  if (inp.length : Int) ≤ n then some inp
  else if n < 0 then none
  else some (inp.take n.toNat)

/-- The function `limitScriptures`. -/
def limitScriptures (inp : List StructuredScripture) (n : Int) :
    Option (List StructuredScripture) :=
  if (inp.length : Int) ≤ n then some inp
  else if n < 0 then none
  else some (inp.take n.toNat)

/-- The three capped lists that `GenerateSummary` puts into its payload under
the keys `presidents`, `leaders` and `scriptures`. -/
def summaryPayload (presidents leaders : List StructuredQuote)
    (scriptures : List StructuredScripture) :
    Option (List StructuredQuote) × Option (List StructuredQuote) ×
      Option (List StructuredScripture) :=
  (limitQuotes presidents 3, limitQuotes leaders 3, limitScriptures scriptures 6)

/-- The capacity of the channel `results` of `Run`: `make(chan AgentResult, 32)`. -/
def resultsCapacity : Nat := 32

/-- Specification side: the headshot displayed for a sanitized quote: the
table lookup for its speaker when that is not empty, else the headshot of the
quote when it is a valid URL under `allowedPrefix`, else the empty string. -/
def specHeadshot (lookup : GoString → GoString) (allowedPrefix : GoString)
    (q : StructuredQuote) : GoString :=
  if lookup q.Speaker ≠ [] then lookup q.Speaker
  else if isValidHeadshotURL q.Headshot allowedPrefix = true then q.Headshot
  else []

/-! ## `flushingResponseWriter` (`main.go`) -/

/-- The state of the wrapped writer, made explicit: the header map (key and
value pairs), the status, whether the header has been written, the body and
the number of flushes. -/
structure WriterState where
  header : List (GoString × GoString)
  status : Int
  wroteHeader : Bool
  body : GoString
  flushes : Nat
  deriving DecidableEq

/-- The wrapped `http.ResponseWriter`, an interface value: its methods as
functions of the state. `Header()` returns the writer's own map, so
`Header().Set(k, v)` and `Header().Get(k)` are operations on the state. -/
structure ResponseWriter where
  HeaderSet : WriterState → GoString → GoString → WriterState
  HeaderGet : WriterState → GoString → GoString
  Write : WriterState → GoString → (Int × Option GoError) × WriterState
  WriteHeader : WriterState → Int → WriterState

/-- An `http.Flusher`: its method `Flush`. -/
abbrev Flusher := WriterState → WriterState

/-- The Go struct `flushingResponseWriter`; a nil `flusher` is `none`. -/
structure flushingResponseWriter where
  w : ResponseWriter
  flusher : Option Flusher

/-- The method `Header`, followed by `Set(k, v)` on the map returned:
`frw.Header()` is `frw.w.Header()`. -/
def flushingResponseWriter.HeaderSet (frw : flushingResponseWriter) (st : WriterState)
    (k v : GoString) : WriterState :=
  frw.w.HeaderSet st k v

/-- The method `Header`, followed by `Get(k)` on the map returned. -/
def flushingResponseWriter.HeaderGet (frw : flushingResponseWriter) (st : WriterState)
    (k : GoString) : GoString :=
  frw.w.HeaderGet st k

/-- The method `Write` of `flushingResponseWriter`. -/
def flushingResponseWriter.Write (frw : flushingResponseWriter) (st : WriterState)
    (b : GoString) : (Int × Option GoError) × WriterState :=
  let r := frw.w.Write st b
  match frw.flusher with
  | some flush => (r.1, flush r.2)
  | none => (r.1, r.2)

/-- The method `WriteHeader` of `flushingResponseWriter`. -/
def flushingResponseWriter.WriteHeader (frw : flushingResponseWriter) (st : WriterState)
    (statusCode : Int) : WriterState :=
  frw.w.WriteHeader st statusCode

/-- The method `Flush` of `flushingResponseWriter`. -/
def flushingResponseWriter.Flush (frw : flushingResponseWriter) (st : WriterState) :
    WriterState :=
  match frw.flusher with
  | some flush => flush st
  | none => st

/-- A recording writer, as `httptest.ResponseRecorder` records: `Write` writes
the header with status 200 when it is not yet written, appends to the body and
returns the number of bytes and no error; `WriteHeader` sets the status once. -/
def recorder : ResponseWriter where
  HeaderSet := fun st k v => { st with header := (k, v) :: st.header.filter (fun p => p.1 ≠ k) }
  HeaderGet := fun st k => ((st.header.find? (fun p => p.1 = k)).map Prod.snd).getD []
  Write := fun st b =>
    (((b.length : Int), none),
      { st with status := (if st.wroteHeader then st.status else 200), wroteHeader := true,
                body := st.body ++ b })
  WriteHeader := fun st code =>
    if st.wroteHeader then st else { st with status := code, wroteHeader := true }

/-- The `Flush` of the recording writer: the header is written with status 200
when it is not yet, and the flush is counted. -/
def recorderFlush : Flusher := fun st =>
  { st with status := (if st.wroteHeader then st.status else 200), wroteHeader := true,
            flushes := st.flushes + 1 }

/-- The state of `httptest.NewRecorder()`. -/
def newRecorder : WriterState := ⟨[], 200, false, [], 0⟩

/-! ## The cascade gate of `Run` -/

/-- The state of the gate of one run: whether `leadersOnce` has fired, how
often its body has been dispatched (`go func() ...`), whether `leadersReady` is
closed, and how many dispatched bodies have passed `<-leadersReady`. -/
structure GateState where
  once : Bool
  dispatched : Nat
  ready : Bool
  started : Nat
  deriving DecidableEq

/-- What can happen at the gate: a goroutine invokes `startLeaders`; the
Leaders orchestration ends (`close(leadersReady)`); a dispatched body passes
`<-leadersReady`. -/
inductive GateEvent where
  | startLeaders
  | leadersReady
  | proceed
  deriving DecidableEq

/-- One event at the gate. `leadersOnce.Do(f)` runs `f` for the first
invocation only, and `f` only starts a goroutine; a body that is not ready to
proceed stays where it is. -/
def gateStep (st : GateState) : GateEvent → GateState
  | GateEvent.startLeaders =>
    if st.once then st else { st with once := true, dispatched := st.dispatched + 1 }
  | GateEvent.leadersReady => { st with ready := true }
  | GateEvent.proceed =>
    if st.ready = true ∧ st.started < st.dispatched then { st with started := st.started + 1 }
    else st

/-- The gate after a sequence of events, from the state at the start of a run. -/
def gateRun (events : List GateEvent) : GateState :=
  events.foldl gateStep ⟨false, 0, false, 0⟩

/-! ## Content safety (`safety.go`) -/

/-- The regular expressions of `safety.go` as trees: the part of the RE2
language that the two pattern tables use. Every pattern starts with `(?i)`, so
a literal matches either ASCII case. -/
inductive Regex where
  /-- A literal byte. -/
  | lit (c : Nat)
  /-- The dot: any byte but the line feed. -/
  | any
  /-- The class `\s`. -/
  | space
  /-- A bracket class, by its members. -/
  | cls (cs : List Nat)
  /-- The assertion `\b`. -/
  | wordBoundary
  /-- One expression after the other. -/
  | cat (a b : Regex)
  /-- The alternation `a|b`. -/
  | alt (a b : Regex)
  /-- The postfix `?`. -/
  | opt (a : Regex)
  /-- The postfix `*`. -/
  | star (a : Regex)
  /-- The postfix `+`. -/
  | plus (a : Regex)
  /-- The empty expression. -/
  | eps

/-- A position in the input: the byte before it, if any, and the bytes from it. -/
abbrev RegexPos := Option Nat × GoString

/-- The word bytes of `\b`: `[0-9A-Za-z_]`. -/
def isWordByte (c : Nat) : Bool :=
  (48 ≤ c && c ≤ 57) || (65 ≤ c && c ≤ 90) || (97 ≤ c && c ≤ 122) || c = 95

/-- Whether `\b` holds at a position: a word byte on exactly one side. -/
def atWordBoundary (p : RegexPos) : Bool :=
  (match p.1 with
    | some c => isWordByte c
    | none => false) !=
  (match p.2 with
    | c :: _ => isWordByte c
    | [] => false)

/-- The bytes of `\s`: tab, LF, FF, CR, space. -/
def isRegexSpace (c : Nat) : Bool := c = 9 || c = 10 || c = 12 || c = 13 || c = 32

/-- The positions reached by repeating `f` zero or more times, each repetition
consuming input; `n` bounds the number of repetitions. -/
def regexIter (f : RegexPos → List RegexPos) : Nat → RegexPos → List RegexPos
  | 0, p => [p]
  | n + 1, p => p :: ((f p).filter (fun q => q.2.length < p.2.length)).flatMap (regexIter f n)

/-- The positions at which a match of the expression that starts at `p` can end. -/
def Regex.run : Regex → RegexPos → List RegexPos
  | Regex.lit c, p =>
    match p.2 with
    | b :: rest => if asciiLowerByte b = asciiLowerByte c then [(some b, rest)] else []
    | [] => []
  | Regex.any, p =>
    match p.2 with
    | b :: rest => if b ≠ 10 then [(some b, rest)] else []
    | [] => []
  | Regex.space, p =>
    match p.2 with
    | b :: rest => if isRegexSpace b then [(some b, rest)] else []
    | [] => []
  | Regex.cls cs, p =>
    match p.2 with
    | b :: rest => if b ∈ cs then [(some b, rest)] else []
    | [] => []
  | Regex.wordBoundary, p => if atWordBoundary p then [p] else []
  | Regex.cat a b, p => (Regex.run a p).flatMap (fun q => Regex.run b q)
  | Regex.alt a b, p => Regex.run a p ++ Regex.run b p
  | Regex.opt a, p => Regex.run a p ++ [p]
  | Regex.star a, p => regexIter (fun q => Regex.run a q) p.2.length p
  | Regex.plus a, p =>
    (Regex.run a p).flatMap (fun q => regexIter (fun r => Regex.run a r) q.2.length q)
  | Regex.eps, p => [p]

/-- Whether the expression matches at the position after `prev` or at a later one. -/
def matchFrom (re : Regex) : Option Nat → GoString → Bool
  | prev, [] => !(Regex.run re (prev, [])).isEmpty
  | prev, c :: rest => !(Regex.run re (prev, c :: rest)).isEmpty || matchFrom re (some c) rest

/-- The method `MatchString` of a compiled expression: a match anywhere in `s`. -/
def MatchString (re : Regex) (s : GoString) : Bool := matchFrom re none s

/-- The expression of a literal text. -/
def Regex.str : GoString → Regex
  | [] => Regex.eps
  | [c] => Regex.lit c
  | c :: d :: cs => Regex.cat (Regex.lit c) (Regex.str (d :: cs))

/-- The expression of a literal text given as a string. -/
def L (s : String) : Regex := Regex.str (B s)

/-- The concatenation of a list of expressions. -/
def cats : List Regex → Regex
  | [] => Regex.eps
  | [a] => a
  | a :: b :: rest => Regex.cat a (cats (b :: rest))

/-- The alternation of a list of expressions. -/
def alts : List Regex → Regex
  | [] => Regex.cls []
  | [a] => a
  | a :: b :: rest => Regex.alt a (alts (b :: rest))

/-- The expression `.?`. -/
def dotOpt : Regex := Regex.opt Regex.any

/-- The expression `.*`. -/
def dotStar : Regex := Regex.star Regex.any

/-- The expression `\s+`. -/
def spaces : Regex := Regex.plus Regex.space

/-- The expression `\b`. -/
def wb : Regex := Regex.wordBoundary

/-- The pattern of the LGBTQ+ topics:
`(?i)gay.?marriage|same.?sex|homosexual|lgbtq|transgender`. -/
def lgbtqRegex : Regex :=
  alts [cats [L "gay", dotOpt, L "marriage"], cats [L "same", dotOpt, L "sex"],
    L "homosexual", L "lgbtq", L "transgender"]

/-- The table `controversialRegexes`: `controversialPatterns`, compiled. -/
def controversialRegexes : List Regex := [
  -- (?i)polygamy|plural.?marriage|multiple.?wives
  alts [L "polygamy", cats [L "plural", dotOpt, L "marriage"],
    cats [L "multiple", dotOpt, L "wives"]],
  -- (?i)mountain.?meadows
  cats [L "mountain", dotOpt, L "meadows"],
  -- (?i)book.?of.?abraham.*papyrus|papyri
  alts [cats [L "book", dotOpt, L "of", dotOpt, L "abraham", dotStar, L "papyrus"], L "papyri"],
  -- (?i)seer.?stone|hat.*translation
  alts [cats [L "seer", dotOpt, L "stone"], cats [L "hat", dotStar, L "translation"]],
  -- (?i)first.?vision.*versions?
  cats [L "first", dotOpt, L "vision", dotStar, L "version", Regex.opt (L "s")],
  -- (?i)blacks?.*priesthood|priesthood.*ban
  alts [cats [L "black", Regex.opt (L "s"), dotStar, L "priesthood"],
    cats [L "priesthood", dotStar, L "ban"]],
  -- (?i)masonic|freemasonry
  alts [L "masonic", L "freemasonry"],
  -- (?i)democrat|republican|trump|biden|politic
  alts [L "democrat", L "republican", L "trump", L "biden", L "politic"],
  -- (?i)abortion|pro.?life|pro.?choice
  alts [L "abortion", cats [L "pro", dotOpt, L "life"], cats [L "pro", dotOpt, L "choice"]],
  -- (?i)gun.?control|second.?amendment
  alts [cats [L "gun", dotOpt, L "control"], cats [L "second", dotOpt, L "amendment"]],
  -- (?i)immigration.?policy|border.?wall
  alts [cats [L "immigration", dotOpt, L "policy"], cats [L "border", dotOpt, L "wall"]],
  -- (?i)climate.?change.?hoax|global.?warming.?fake
  alts [cats [L "climate", dotOpt, L "change", dotOpt, L "hoax"],
    cats [L "global", dotOpt, L "warming", dotOpt, L "fake"]],
  -- LGBTQ+ topics (redirect to missionaries, not appropriate for kiosk)
  lgbtqRegex,
  -- (?i)cult|brainwash|false.?prophet
  alts [L "cult", L "brainwash", cats [L "false", dotOpt, L "prophet"]],
  -- (?i)cesletter|ces.?letter|mormonthink
  alts [L "cesletter", cats [L "ces", dotOpt, L "letter"], L "mormonthink"],
  -- (?i)exmormon|ex.?mormon|left.?the.?church
  alts [L "exmormon", cats [L "ex", dotOpt, L "mormon"],
    cats [L "left", dotOpt, L "the", dotOpt, L "church"]],
  -- (?i)church.?wealth|100.?billion|tithing.?fraud
  alts [cats [L "church", dotOpt, L "wealth"], cats [L "100", dotOpt, L "billion"],
    cats [L "tithing", dotOpt, L "fraud"]]]

/-- The table `inappropriateRegexes`: `inappropriatePatterns`, compiled. -/
def inappropriateRegexes : List Regex := [
  -- (?i)fuck|shit|damn|ass|bitch|bastard
  alts [L "fuck", L "shit", L "damn", L "ass", L "bitch", L "bastard"],
  -- (?i)porn|xxx|nude|naked|sex
  alts [L "porn", L "xxx", L "nude", L "naked", L "sex"],
  -- (?i)kill|murder|violence|attack
  alts [L "kill", L "murder", L "violence", L "attack"],
  -- (?i)hack|exploit|jailbreak|bypass
  alts [L "hack", L "exploit", L "jailbreak", L "bypass"],
  -- (?i)drug|cocaine|heroin|meth
  alts [L "drug", L "cocaine", L "heroin", L "meth"],
  -- (?i)\b(harm|hurt|injure|wound|maim)\b
  cats [wb, alts [L "harm", L "hurt", L "injure", L "wound", L "maim"], wb],
  -- (?i)\b(how\s+to|ways?\s+to)\s+(harm|hurt|kill|attack|injure)
  cats [wb, alts [cats [L "how", spaces, L "to"],
      cats [L "way", Regex.opt (L "s"), spaces, L "to"]],
    spaces, alts [L "harm", L "hurt", L "kill", L "attack", L "injure"]],
  -- (?i)\b(weapon|bomb|gun|knife|poison)\b
  cats [wb, alts [L "weapon", L "bomb", L "gun", L "knife", L "poison"], wb],
  -- (?i)\b(suicide|self[- ]?harm|cut\s+myself|end\s+my\s+life)\b
  cats [wb, alts [L "suicide", cats [L "self", Regex.opt (Regex.cls [45, 32]), L "harm"],
      cats [L "cut", spaces, L "myself"],
      cats [L "end", spaces, L "my", spaces, L "life"]], wb],
  -- (?i)\b(how\s+to\s+(steal|hack|break\s+into|get\s+drugs))\b
  cats [wb, cats [L "how", spaces, L "to", spaces,
      alts [L "steal", L "hack", cats [L "break", spaces, L "into"],
        cats [L "get", spaces, L "drugs"]]], wb]]

/-- The Go type `ContentClassification`, a string type. -/
abbrev ContentClassification := GoString

/-- The constant `ContentSafe`. -/
def ContentSafe : ContentClassification := B "safe"

/-- The constant `ContentControversial`. -/
def ContentControversial : ContentClassification := B "controversial"

/-- The constant `ContentInappropriate`. -/
def ContentInappropriate : ContentClassification := B "inappropriate"

/-- The first loop shape of `ClassifyContent`: whether some expression of the
table matches the input. -/
def anyMatch : List Regex → GoString → Bool
  | [], _ => false
  | re :: rest, input => if MatchString re input then true else anyMatch rest input

/-- The function `ClassifyContent`. -/
def ClassifyContent (input : GoString) : ContentClassification :=
  if anyMatch inappropriateRegexes input then ContentInappropriate
  else if anyMatch controversialRegexes input then ContentControversial
  else ContentSafe

/-- The Go struct `RedirectResponse`. -/
structure RedirectResponse where
  Message : GoString
  SuggestedQuestions : List GoString
  deriving DecidableEq

/-- The message of `GetRedirectResponse` that refers to the missionaries. -/
def missionariesMessage : GoString :=
  B ("That's an interesting question that deserves a thoughtful conversation. " ++
    "The missionaries here at the conference center would love to explore it with you in greater depth. " ++
    "Please reach out to them to discuss this topic further.")

/-- The message of `GetRedirectResponse` for inappropriate content. -/
def inappropriateMessage : GoString :=
  B ("I'd love to help you with questions about the gospel and teachings of Jesus Christ. " ++
    "Let me suggest some meaningful topics we could explore together.")

/-- The function `GetRedirectResponse`. -/
def GetRedirectResponse (classification : ContentClassification) : RedirectResponse :=
  let baseMessage := missionariesMessage
  let baseMessage := if classification = ContentInappropriate then inappropriateMessage
    else baseMessage
  { Message := baseMessage
    SuggestedQuestions := [
      B "Does God really exist?",
      B "What is the purpose of life?",
      B "Where can I find peace and joy?",
      B "Why do bad things happen to good people?",
      B "What happens after I die?",
      B "How can families be together forever?",
      B "Who is Jesus Christ?",
      B "What is faith?"] }

/-! # Lemmas and theorems -/

theorem specBraceDepth_succ (w : GoString) (n : Nat) :
    specBraceDepth w (n + 1) = specBraceDepth w n + specBraceDelta w n := by
  simp [specBraceDepth, List.range_succ]

theorem specLexState_snoc (pre : GoString) (c : Nat) :
    specLexState (pre ++ [c]) = specLexStep (specLexState pre) c := by
  simp [specLexState]

theorem specOutside_at (pre rest : GoString) :
    specOutside (pre ++ rest) pre.length ↔ specLexState pre = (false, false) := by
  simp [specOutside]

/-- One iteration of the loop, in terms of the lexing step. -/
theorem scanLoop_cons (c : Nat) (rest : GoString) (i : Nat) (d : Int) (inS esc : Bool) :
    scanLoop (c :: rest) i d inS esc =
      if (inS, esc) = (false, false) ∧ c = 125 ∧ d - 1 = 0 then some i
      else scanLoop rest (i + 1)
        (d + if (inS, esc) = (false, false) then
              (if c = 123 then 1 else if c = 125 then -1 else 0) else 0)
        (specLexStep (inS, esc) c).1 (specLexStep (inS, esc) c).2 := by
  cases inS <;> cases esc <;> simp [scanLoop, specLexStep]
  · by_cases h1 : c = 34
    · simp [h1]
    · by_cases h2 : c = 123
      · simp [h2]
      · by_cases h3 : c = 125
        · simp [h3]; split <;> simp_all [sub_eq_add_neg]
        · simp [h1, h2, h3]
  · by_cases h0 : c = 92
    · simp [h0]
    · by_cases h1 : c = 34 <;> simp [h0, h1]


theorem specBraceDelta_at (pre rest : GoString) (c : Nat) :
    specBraceDelta (pre ++ c :: rest) pre.length =
      if specLexState pre = (false, false) then
        (if c = 123 then 1 else if c = 125 then -1 else 0) else 0 := by
  have hget : (pre ++ c :: rest)[pre.length]? = some c := by
    rw [List.getElem?_append_right (le_refl _)]; simp
  simp [specBraceDelta, specOutside_at, hget]

theorem scanLoop_spec (rest : GoString) : ∀ (pre : GoString) (o : Nat),
    match scanLoop rest (o + pre.length) (specBraceDepth (pre ++ rest) pre.length)
        (specLexState pre).1 (specLexState pre).2 with
    | some k => ∃ i, k = o + i ∧ pre.length ≤ i ∧ specClosesAt (pre ++ rest) i ∧
        ∀ j, pre.length ≤ j → j < i → ¬ specClosesAt (pre ++ rest) j
    | none => ∀ j, pre.length ≤ j → ¬ specClosesAt (pre ++ rest) j := by
  induction rest with
  | nil =>
    intro pre o
    simp only [scanLoop]
    intro j hj hc
    have := hc.1
    rw [List.getElem?_eq_none (by simpa using hj)] at this
    cases this
  | cons c rest ih =>
    intro pre o
    rw [scanLoop_cons]
    have hget : (pre ++ c :: rest)[pre.length]? = some c := by
      rw [List.getElem?_append_right (le_refl _)]; simp
    by_cases hret : ((specLexState pre).1, (specLexState pre).2) = (false, false) ∧ c = 125 ∧
        specBraceDepth (pre ++ c :: rest) pre.length - 1 = 0
    · rw [if_pos hret]
      obtain ⟨h1, h2, h3⟩ := hret
      subst h2
      have h1 : specLexState pre = (false, false) := h1
      refine ⟨pre.length, rfl, le_refl _, ⟨hget, (specOutside_at _ _).2 h1, ?_⟩, ?_⟩
      · rw [specBraceDepth_succ, specBraceDelta_at, if_pos h1]
        simp only [if_neg (by decide : ¬ (125 : Nat) = 123), if_true]
        omega
      · intro j h1 h2; omega
    · rw [if_neg hret]
      have hnot : ¬ specClosesAt (pre ++ c :: rest) pre.length := by
        intro hc
        apply hret
        obtain ⟨h1, h2, h3⟩ := hc
        rw [hget] at h1
        have hc125 : c = 125 := by simpa using h1
        subst hc125
        have hout : specLexState pre = (false, false) := (specOutside_at _ _).1 h2
        refine ⟨hout, rfl, ?_⟩
        rw [specBraceDepth_succ, specBraceDelta_at, if_pos hout] at h3
        simp only [if_neg (by decide : ¬ (125 : Nat) = 123), if_true] at h3
        omega
      have key := ih (pre ++ [c]) o
      have hw : pre ++ [c] ++ rest = pre ++ c :: rest := by simp
      have hlen : (pre ++ [c]).length = pre.length + 1 := by simp
      rw [hw, hlen, specBraceDepth_succ, specBraceDelta_at, specLexState_snoc] at key
      have hst : ((specLexState pre).1, (specLexState pre).2) = specLexState pre := rfl
      rw [hst]
      rw [show o + pre.length + 1 = o + (pre.length + 1) from rfl]
      revert key
      cases scanLoop rest (o + (pre.length + 1)) _ _ _ with
      | none =>
        intro key j hj
        rcases Nat.eq_or_lt_of_le hj with h | h
        · rw [← h]; exact hnot
        · exact key j h
      | some k =>
        rintro ⟨i, hk, hi, hcl, hmin⟩
        refine ⟨i, hk, by omega, hcl, ?_⟩
        intro j hj hji
        rcases Nat.eq_or_lt_of_le hj with h | h
        · rw [← h]; exact hnot
        · exact hmin j h hji


/-! ## Go's `strings.Index` for the one-byte pattern -/

theorem indexFrom_not_mem (c : Nat) (s : GoString) (i : Nat) (h : c ∉ s) :
    indexFrom [c] s i = -1 := by
  induction s generalizing i with
  | nil => simp [indexFrom]
  | cons a s ih =>
    have ha : c ≠ a := fun e => h (by simp [e])
    have hs : c ∉ s := fun e => h (by simp [e])
    simp [indexFrom, ha, ih _ hs]

theorem indexFrom_first (c : Nat) (p t : GoString) (i : Nat) (h : c ∉ p) :
    indexFrom [c] (p ++ c :: t) i = ((i + p.length : Nat) : Int) := by
  induction p generalizing i with
  | nil => simp [indexFrom]
  | cons a p ih =>
    have ha : c ≠ a := fun e => h (by simp [e])
    have hs : c ∉ p := fun e => h (by simp [e])
    have hpre : ¬ ([c] <+: a :: (p ++ c :: t)) := by
      simp [List.cons_prefix_cons, ha]
    show indexFrom [c] (a :: (p ++ c :: t)) i = _
    rw [indexFrom, if_neg hpre, ih _ hs, List.length_cons]
    congr 1; omega

theorem exists_first_split (c : Nat) (s : GoString) (h : c ∈ s) :
    ∃ p t, s = p ++ c :: t ∧ c ∉ p := by
  induction s with
  | nil => cases h
  | cons a s ih =>
    by_cases ha : c = a
    · exact ⟨[], s, by simp [ha], by simp⟩
    · have hs : c ∈ s := by
        rcases List.mem_cons.1 h with e | e
        · exact absurd e ha
        · exact e
      obtain ⟨p, t, hs, hp⟩ := ih hs
      refine ⟨a :: p, t, by simp [hs], ?_⟩
      intro hm
      rcases List.mem_cons.1 hm with e | e
      · exact ha e
      · exact hp e

/-! ## `extractFirstJSON` -/

theorem extractFirstJSON_no_brace (content : GoString) (h : 123 ∉ content) :
    extractFirstJSON content = Except.error "no JSON object found" := by
  simp [extractFirstJSON, stringsIndex, indexFrom_not_mem 123 content 0 h]

theorem extractFirstJSON_split (p t : GoString) (h : 123 ∉ p) :
    extractFirstJSON (p ++ 123 :: t) =
      match scanLoop (123 :: t) p.length 0 false false with
      | some i => Except.ok (slice (p ++ 123 :: t) p.length (i + 1))
      | none => Except.error "incomplete JSON object" := by
  have hidx : stringsIndex (p ++ 123 :: t) [123] = (p.length : Int) := by
    simp [stringsIndex, indexFrom_first 123 p t 0 h]
  have hne : ¬ ((p.length : Int) = -1) := by omega
  simp only [extractFirstJSON, hidx, hne, if_false, Int.toNat_ofNat, List.drop_left]


theorem specFirstBrace_split (p t : GoString) (h : 123 ∉ p) :
    specFirstBrace (p ++ 123 :: t) p.length := by
  refine ⟨?_, ?_⟩
  · rw [List.getElem?_append_right (le_refl _)]; simp
  · intro k hk hget
    rw [List.getElem?_append_left hk] at hget
    exact h (List.getElem?_mem hget)

theorem specFirstBrace_unique (content : GoString) (a b : Nat)
    (ha : specFirstBrace content a) (hb : specFirstBrace content b) : a = b := by
  rcases Nat.lt_trichotomy a b with h | h | h
  · exact absurd ha.1 (hb.2 a h)
  · exact h
  · exact absurd hb.1 (ha.2 b h)

/-- The loop started at the first opening brace: it returns the first closing
position of the specification, and runs off the end exactly when there is none. -/
theorem scanLoop_top (t : GoString) (o : Nat) :
    match scanLoop (123 :: t) o 0 false false with
    | some k => ∃ i, k = o + i ∧ specClosesAt (123 :: t) i ∧
        ∀ j, j < i → ¬ specClosesAt (123 :: t) j
    | none => ∀ j, ¬ specClosesAt (123 :: t) j := by
  have key := scanLoop_spec (123 :: t) [] o
  have h0 : specBraceDepth ([] ++ 123 :: t) ([] : GoString).length = 0 := by
    simp [specBraceDepth]
  have h1 : specLexState [] = (false, false) := rfl
  rw [h0, h1] at key
  simp only [List.length_nil, Nat.add_zero, List.nil_append] at key
  revert key
  cases scanLoop (123 :: t) o 0 false false with
  | none => intro key j; exact key j (Nat.zero_le _)
  | some k =>
    rintro ⟨i, hk, _, hcl, hmin⟩
    exact ⟨i, hk, hcl, fun j hj => hmin j (Nat.zero_le _) hj⟩

/-- The index at which the loop returns is an index of the string. -/
theorem scanLoop_bounds (rest : GoString) : ∀ (o : Nat) (d : Int) (inS esc : Bool) (k : Nat),
    scanLoop rest o d inS esc = some k → o ≤ k ∧ k < o + rest.length := by
  induction rest with
  | nil => intro o d inS esc k h; simp [scanLoop] at h
  | cons c rest ih =>
    intro o d inS esc k h
    rw [scanLoop_cons] at h
    split at h
    · have : o = k := by simpa using h
      subst this
      simp
    · have := ih _ _ _ _ k h
      rw [List.length_cons]
      omega

/-- C1. Whenever `extractFirstJSON` succeeds, its result is the contiguous
substring `content[start : e+1]` where `start` is the index of the first opening
brace of the input and `e` is the first index whose byte is a closing brace
outside every string literal at which the brace depth, counted from `start` and
ignoring braces inside string literals, is back at 0. On the input
`noise {"a":{"b":1}} trailing {"c":2}` the result is `{"a":{"b":1}}`. -/
theorem extractFirstJSON_returns_first_balanced_object :
    (∀ content r : GoString, extractFirstJSON content = Except.ok r →
      ∃ start e : Nat, specFirstBrace content start ∧ start ≤ e ∧
        specClosesAt (content.drop start) (e - start) ∧
        (∀ j, j < e - start → ¬ specClosesAt (content.drop start) j) ∧
        r = slice content start (e + 1)) ∧
    extractFirstJSON (B "noise \x7b\"a\":\x7b\"b\":1\x7d\x7d trailing \x7b\"c\":2\x7d")
      = Except.ok (B "\x7b\"a\":\x7b\"b\":1\x7d\x7d") := by
  refine ⟨?_, rfl⟩
  intro content r h
  by_cases hb : 123 ∈ content
  · obtain ⟨p, t, rfl, hp⟩ := exists_first_split 123 content hb
    rw [extractFirstJSON_split p t hp] at h
    have key := scanLoop_top t p.length
    revert key h
    cases scanLoop (123 :: t) p.length 0 false false with
    | none => intro h; cases h
    | some k =>
      intro h ⟨i, hk, hcl, hmin⟩
      have hr : slice (p ++ 123 :: t) p.length (k + 1) = r := by
        simpa using h
      refine ⟨p.length, k, specFirstBrace_split p t hp, by omega, ?_, ?_, hr.symm⟩
      · rw [List.drop_left, hk, Nat.add_sub_cancel_left]; exact hcl
      · rw [List.drop_left, hk, Nat.add_sub_cancel_left]; exact hmin
  · rw [extractFirstJSON_no_brace content hb] at h
    cases h

/-- Witness of C1 on the text `x{"a":"}"}y`, whose first closing brace is
inside a string literal. -/
theorem extractFirstJSON_returns_first_balanced_object_witness :
    ∃ start e : Nat, specFirstBrace (B "x\x7b\"a\":\"\x7d\"\x7dy") start ∧ start ≤ e ∧
      specClosesAt ((B "x\x7b\"a\":\"\x7d\"\x7dy").drop start) (e - start) ∧
      (∀ j, j < e - start → ¬ specClosesAt ((B "x\x7b\"a\":\"\x7d\"\x7dy").drop start) j) ∧
      B "\x7b\"a\":\"\x7d\"\x7d" = slice (B "x\x7b\"a\":\"\x7d\"\x7dy") start (e + 1) :=
  extractFirstJSON_returns_first_balanced_object.1 (B "x\x7b\"a\":\"\x7d\"\x7dy")
    (B "\x7b\"a\":\"\x7d\"\x7d") rfl

/-- C2. `extractFirstJSON` returns an error exactly when the text has no opening
brace or, from the first opening brace on, no closing brace outside a string
literal brings the depth back to 0; `not json at all` yields an error; every
input yields either an error or a success (the function is total), and when the
loop returns at index `i` the bounds of `content[start : i+1]` are in range
(`start <= i+1 <= len(content)`); a success never carries the empty string. -/
theorem extractFirstJSON_error_iff :
    (∀ content : GoString, (∃ msg, extractFirstJSON content = Except.error msg) ↔
      (123 ∉ content ∨ ∃ start, specFirstBrace content start ∧
        ∀ i, ¬ specClosesAt (content.drop start) i)) ∧
    (∃ msg, extractFirstJSON (B "not json at all") = Except.error msg) ∧
    (∀ content : GoString, (∃ msg, extractFirstJSON content = Except.error msg) ∨
      ∃ r, extractFirstJSON content = Except.ok r) ∧
    (∀ (content : GoString) (i : Nat), stringsIndex content [123] ≠ -1 →
      scanLoop (content.drop (stringsIndex content [123]).toNat)
        (stringsIndex content [123]).toNat 0 false false = some i →
      (stringsIndex content [123]).toNat ≤ i + 1 ∧ i + 1 ≤ content.length) ∧
    (∀ content r : GoString, extractFirstJSON content = Except.ok r → r ≠ []) := by
  refine ⟨?_, ⟨_, rfl⟩, ?_, ?_, ?_⟩
  · intro content
    by_cases hb : 123 ∈ content
    · obtain ⟨p, t, rfl, hp⟩ := exists_first_split 123 content hb
      rw [extractFirstJSON_split p t hp]
      have key := scanLoop_top t p.length
      revert key
      cases scanLoop (123 :: t) p.length 0 false false with
      | none =>
        intro key
        refine ⟨fun _ => Or.inr ⟨p.length, specFirstBrace_split p t hp, ?_⟩, fun _ => ⟨_, rfl⟩⟩
        rw [List.drop_left]; exact key
      | some k =>
        rintro ⟨i, hk, hcl, hmin⟩
        constructor
        · rintro ⟨msg, h⟩; cases h
        · rintro (h | ⟨start, hs, hno⟩)
          · exact absurd hb h
          · have : start = p.length :=
              specFirstBrace_unique _ _ _ hs (specFirstBrace_split p t hp)
            subst this
            rw [List.drop_left] at hno
            exact absurd hcl (hno i)
    · rw [extractFirstJSON_no_brace content hb]
      exact ⟨fun _ => Or.inl hb, fun _ => ⟨_, rfl⟩⟩
  · intro content
    cases h : extractFirstJSON content with
    | error msg => exact Or.inl ⟨msg, rfl⟩
    | ok r => exact Or.inr ⟨r, rfl⟩
  · intro content i hidx hscan
    by_cases hb : 123 ∈ content
    · obtain ⟨p, t, rfl, hp⟩ := exists_first_split 123 content hb
      have hstart : stringsIndex (p ++ 123 :: t) [123] = (p.length : Int) := by
        simp [stringsIndex, indexFrom_first 123 p t 0 hp]
      rw [hstart, Int.toNat_ofNat, List.drop_left] at hscan
      have := scanLoop_bounds _ _ _ _ _ _ hscan
      rw [hstart, Int.toNat_ofNat, List.length_append]
      omega
    · exact absurd (indexFrom_not_mem 123 content 0 hb) hidx
  · intro content r h
    by_cases hb : 123 ∈ content
    · obtain ⟨p, t, rfl, hp⟩ := exists_first_split 123 content hb
      rw [extractFirstJSON_split p t hp] at h
      have key := scanLoop_top t p.length
      revert key h
      cases scanLoop (123 :: t) p.length 0 false false with
      | none => intro h; cases h
      | some k =>
        intro h ⟨i, hk, hcl, hmin⟩
        have hr : slice (p ++ 123 :: t) p.length (k + 1) = r := by
          simpa using h
        rw [← hr, slice, List.drop_left, hk]
        rw [show p.length + i + 1 - p.length = i + 1 by omega]
        simp
    · rw [extractFirstJSON_no_brace content hb] at h
      cases h

/-- Witness of C2: the success on `a{}b` carries the non-empty text `{}`. -/
theorem extractFirstJSON_error_iff_witness :
    extractFirstJSON (B "a\x7b\x7db") = Except.ok (B "\x7b\x7d") ∧ B "\x7b\x7d" ≠ [] :=
  ⟨rfl, extractFirstJSON_error_iff.2.2.2.2 (B "a\x7b\x7db") (B "\x7b\x7d") rfl⟩


/-- Inside a string literal the loop runs over an escaped text without leaving
the literal and without touching the depth. -/
theorem scanLoop_specEsc (v rest : GoString) : ∀ (i : Nat) (d : Int),
    scanLoop (specEsc v ++ rest) i d true false
      = scanLoop rest (i + (specEsc v).length) d true false := by
  induction v with
  | nil => intro i d; simp [specEsc]
  | cons c v ih =>
    intro i d
    by_cases h92 : c = 92
    · subst h92
      simp only [specEsc, if_true, List.cons_append, List.length_cons]
      rw [scanLoop]; simp only [Bool.false_eq_true, if_false, and_self, if_true]
      rw [scanLoop]; simp only [if_true]
      rw [ih]; congr 1; omega
    · by_cases h34 : c = 34
      · subst h34
        simp only [specEsc, if_neg h92, if_true, List.cons_append, List.length_cons]
        rw [scanLoop]; simp only [Bool.false_eq_true, if_false, and_self, if_true]
        rw [scanLoop]; simp only [if_true]
        rw [ih]; congr 1; omega
      · simp only [specEsc, if_neg h92, if_neg h34, List.cons_append, List.length_cons]
        rw [scanLoop]
        simp only [Bool.false_eq_true, if_false, h92, false_and, h34, if_true]
        rw [ih]; congr 1; omega

/-- C3. For every value `v`, every text `p` without an opening brace and every
text `s`, `extractFirstJSON` applied to `p`, then the object whose one string
value is `v` escaped, then `s`, succeeds and returns exactly that object,
whatever braces, quotes and backslashes `v` holds. -/
theorem extractFirstJSON_string_literal_braces (v p s : GoString) (hp : 123 ∉ p) :
    extractFirstJSON (p ++ specObjectK v ++ s) = Except.ok (specObjectK v) := by
  have hobj : specObjectK v = 123 :: ([34, 107, 34, 58, 34] ++ specEsc v ++ [34, 125]) := by
    simp [specObjectK, B]
  have hshape : p ++ specObjectK v ++ s
      = p ++ 123 :: ([34, 107, 34, 58, 34] ++ (specEsc v ++ (34 :: 125 :: s))) := by
    rw [hobj]; simp
  have hscan : scanLoop (123 :: ([34, 107, 34, 58, 34] ++ (specEsc v ++ (34 :: 125 :: s))))
      p.length 0 false false = some (p.length + 6 + (specEsc v).length + 1) := by
    simp [scanLoop, scanLoop_specEsc]
  rw [hshape, extractFirstJSON_split p _ hp, hscan]
  simp only [slice, List.drop_left]
  rw [hobj]
  congr 1
  rw [show p.length + 6 + (specEsc v).length + 1 + 1 - p.length = (specEsc v).length + 8 by omega]
  have hlen : (123 :: ([34, 107, 34, 58, 34] ++ specEsc v ++ [34, 125])).length
      = (specEsc v).length + 8 := by simp
  have hre : 123 :: ([34, 107, 34, 58, 34] ++ (specEsc v ++ (34 :: 125 :: s)))
      = (123 :: ([34, 107, 34, 58, 34] ++ specEsc v ++ [34, 125])) ++ s := by simp
  rw [hre, ← hlen, List.take_left]

/-- Witness of C3: the value `a"}{\`, after the preamble `x ` and before a
second object. -/
theorem extractFirstJSON_string_literal_braces_witness :
    123 ∉ B "x " ∧
    extractFirstJSON (B "x " ++ specObjectK (B "a\"\x7d\x7b\\") ++ B "\x7b\"c\":2\x7d")
      = Except.ok (specObjectK (B "a\"\x7d\x7b\\")) :=
  ⟨by decide, extractFirstJSON_string_literal_braces (B "a\"\x7d\x7b\\") (B "x ")
    (B "\x7b\"c\":2\x7d") (by decide)⟩


/-! ## The dedup merger -/

theorem mergeUniqueQuotes_eq : mergeUniqueQuotes = mergeUniqueBy quoteKey := rfl

theorem mergeUniqueScriptures_eq : mergeUniqueScriptures = mergeUniqueBy scriptureKey := rfl

section Merge
variable {α : Type} (key : α → GoString)

theorem seen_init (S : List α) (init : List GoString) :
    S.foldl (fun seen q => key q :: seen) init = (S.map key).reverse ++ init := by
  induction S generalizing init with
  | nil => rfl
  | cons q S ih => simp [ih]

theorem mergeLoop_eq (L : List α) : ∀ (seen : List GoString) (acc : List α),
    (L.foldl (fun (st : List GoString × List α) q =>
      let k := key q
      if k ∈ st.1 then st else (k :: st.1, st.2 ++ [q])) (seen, acc)).2
      = acc ++ newRecords key seen L := by
  induction L with
  | nil => intro seen acc; simp [newRecords]
  | cons q L ih =>
    intro seen acc
    simp only [List.foldl_cons, newRecords]
    by_cases h : key q ∈ seen
    · simp only [h, if_true]; exact ih seen acc
    · simp only [h, if_false]; rw [ih]; simp

theorem newRecords_congr (L : List α) : ∀ (K₁ K₂ : List GoString),
    (∀ k, k ∈ K₁ ↔ k ∈ K₂) → newRecords key K₁ L = newRecords key K₂ L := by
  induction L with
  | nil => intro K₁ K₂ _; rfl
  | cons q L ih =>
    intro K₁ K₂ h
    simp only [newRecords]
    by_cases hq : key q ∈ K₁
    · rw [if_pos hq, if_pos ((h _).1 hq)]; exact ih _ _ h
    · rw [if_neg hq, if_neg (fun e => hq ((h _).2 e))]
      congr 1
      apply ih
      intro k
      simp [h k]

/-- The merge appends to `existing`, in order, the records the loop finds new. -/
theorem mergeUniqueBy_eq (S L : List α) :
    mergeUniqueBy key S L = S ++ newRecords key (S.map key) L := by
  unfold mergeUniqueBy
  simp only []
  rw [mergeLoop_eq, seen_init]
  congr 1
  apply newRecords_congr
  intro k
  simp

theorem newRecords_eq_spec (S : List α) (R : List α) : ∀ (P : List α) (K : List GoString),
    (∀ k, k ∈ K ↔ k ∈ S.map key ∨ k ∈ P.map key) →
    newRecords key K R
      = ((List.enumFrom P.length R).filter
          (fun p => specIsNew key S (P ++ R) p.1 p.2)).map Prod.snd := by
  induction R with
  | nil => intro P K _; simp [newRecords]
  | cons q R ih =>
    intro P K hK
    have hnew : specIsNew key S (P ++ q :: R) P.length q = decide (key q ∉ K) := by
      simp only [specIsNew, List.take_left, hK, not_or]
    have hPR : P ++ q :: R = (P ++ [q]) ++ R := by simp
    simp only [newRecords, List.enumFrom_cons, List.filter_cons, hnew]
    by_cases hq : key q ∈ K
    · simp only [hq, if_true, not_true_eq_false, decide_False, Bool.false_eq_true, if_false]
      have := ih (P ++ [q]) K (by
        intro k
        rw [hK k]
        simp only [List.map_append, List.mem_append, List.map_cons, List.map_nil,
          List.mem_singleton]
        constructor
        · rintro (h | h)
          · exact Or.inl h
          · exact Or.inr (Or.inl h)
        · rintro (h | h | h)
          · exact Or.inl h
          · exact Or.inr h
          · rw [h]; exact (hK _).1 hq)
      rw [this, hPR]; simp
    · simp only [hq, if_false, not_false_eq_true, decide_True, if_true, List.map_cons]
      have := ih (P ++ [q]) (key q :: K) (by
        intro k
        rw [List.mem_cons, hK k]
        simp only [List.map_append, List.mem_append, List.map_cons, List.map_nil,
          List.mem_singleton]
        tauto)
      rw [this, hPR]; simp

theorem newRecords_spec (S L : List α) :
    newRecords key (S.map key) L = specNewRecords key S L := by
  have := newRecords_eq_spec key S L [] (S.map key) (by intro k; simp)
  simpa [specNewRecords, List.enum] using this


theorem newRecords_mem_keys (L : List α) : ∀ (K : List GoString) (k : GoString),
    k ∈ (newRecords key K L).map key ↔ k ∈ L.map key ∧ k ∉ K := by
  induction L with
  | nil => intro K k; simp [newRecords]
  | cons q L ih =>
    intro K k
    simp only [newRecords]
    by_cases hq : key q ∈ K
    · rw [if_pos hq, ih, List.map_cons, List.mem_cons]
      constructor
      · rintro ⟨h1, h2⟩; exact ⟨Or.inr h1, h2⟩
      · rintro ⟨h1 | h1, h2⟩
        · rw [h1] at h2; exact absurd hq h2
        · exact ⟨h1, h2⟩
    · rw [if_neg hq, List.map_cons, List.mem_cons, ih, List.map_cons, List.mem_cons,
        List.mem_cons]
      by_cases hk : k = key q
      · subst hk; simp [hq]
      · simp [hk]

theorem newRecords_eq_nil (L : List α) (K : List GoString) (h : ∀ q ∈ L, key q ∈ K) :
    newRecords key K L = [] := by
  induction L with
  | nil => rfl
  | cons q L ih =>
    have hq : key q ∈ K := h q (List.mem_cons_self _ _)
    simp only [newRecords, if_pos hq]
    exact ih (fun x hx => h x (List.mem_cons_of_mem _ hx))

theorem newRecords_find (L : List α) : ∀ (K : List GoString) (k : GoString), k ∉ K →
    (newRecords key K L).find? (fun q => decide (key q = k))
      = L.find? (fun q => decide (key q = k)) := by
  induction L with
  | nil => intro K k _; rfl
  | cons q L ih =>
    intro K k hk
    simp only [newRecords]
    by_cases hq : key q ∈ K
    · have hne : ¬ key q = k := fun e => hk (e ▸ hq)
      rw [if_pos hq, ih K k hk, List.find?_cons_of_neg _ (by simpa using hne)]
    · rw [if_neg hq]
      by_cases hqk : key q = k
      · rw [List.find?_cons_of_pos _ (by simpa using hqk),
          List.find?_cons_of_pos _ (by simpa using hqk)]
      · rw [List.find?_cons_of_neg _ (by simpa using hqk),
          List.find?_cons_of_neg _ (by simpa using hqk)]
        apply ih
        intro hm
        rcases List.mem_cons.1 hm with e | e
        · exact hqk e.symm
        · exact hk e

theorem newRecords_keys_nodup (L : List α) : ∀ (K : List GoString),
    ((newRecords key K L).map key).Nodup := by
  induction L with
  | nil => intro K; simp [newRecords]
  | cons q L ih =>
    intro K
    simp only [newRecords]
    by_cases hq : key q ∈ K
    · rw [if_pos hq]; exact ih K
    · rw [if_neg hq, List.map_cons, List.nodup_cons]
      refine ⟨?_, ih _⟩
      rw [newRecords_mem_keys]
      simp

/-- The first record with a given key is the same before and after the merge. -/
theorem mergeUniqueBy_find (S L : List α) (k : GoString) :
    (mergeUniqueBy key S L).find? (fun q => decide (key q = k))
      = (S ++ L).find? (fun q => decide (key q = k)) := by
  rw [mergeUniqueBy_eq, List.find?_append, List.find?_append]
  cases hS : S.find? (fun q => decide (key q = k)) with
  | some x => rfl
  | none =>
    simp only [Option.none_or]
    apply newRecords_find
    intro hm
    obtain ⟨x, hx, hxk⟩ := List.mem_map.1 hm
    have := List.find?_eq_none.1 hS x hx
    simp [hxk] at this

/-- The keys of the merge are those of `S` and of `L`. -/
theorem mergeUniqueBy_keys (S L : List α) (k : GoString) :
    k ∈ (mergeUniqueBy key S L).map key ↔ k ∈ (S ++ L).map key := by
  rw [mergeUniqueBy_eq, List.map_append, List.mem_append, newRecords_mem_keys,
    List.map_append, List.mem_append]
  tauto

theorem mergeUniqueBy_idem (S L : List α) :
    mergeUniqueBy key (mergeUniqueBy key S L) L = mergeUniqueBy key S L := by
  rw [mergeUniqueBy_eq key (mergeUniqueBy key S L) L, newRecords_eq_nil, List.append_nil]
  intro q hq
  rw [mergeUniqueBy_keys]
  exact List.mem_map_of_mem _ (List.mem_append_right _ hq)

theorem mergeUniqueBy_isPrefix (S L : List α) : S <+: mergeUniqueBy key S L := by
  rw [mergeUniqueBy_eq]; exact List.prefix_append _ _

/-- Merging a list that starts with `q` is merging the rest into the section
with `q` appended, unless the key of `q` is already there. -/
theorem mergeUniqueBy_cons (S : List α) (q : α) (L : List α) :
    mergeUniqueBy key S (q :: L)
      = if key q ∈ S.map key then mergeUniqueBy key S L
        else mergeUniqueBy key (S ++ [q]) L := by
  rw [mergeUniqueBy_eq]
  simp only [newRecords]
  by_cases hq : key q ∈ S.map key
  · rw [if_pos hq, if_pos hq, mergeUniqueBy_eq]
  · rw [if_neg hq, if_neg hq, mergeUniqueBy_eq]
    simp only [List.append_assoc, List.singleton_append]
    congr 2
    apply newRecords_congr
    intro k
    simp only [List.mem_cons, List.map_append, List.map_cons, List.map_nil, List.mem_append,
      List.mem_singleton]
    tauto

/-- An identity that the key respects stays duplicate-free under the merge. -/
theorem mergeUniqueBy_nodup {β : Type} (f : α → β)
    (hf : ∀ a b, f a = f b → key a = key b) (L : List α) :
    ∀ S : List α, (S.map f).Nodup → ((mergeUniqueBy key S L).map f).Nodup := by
  induction L with
  | nil =>
    intro S hS
    rw [mergeUniqueBy_eq]; simpa [newRecords] using hS
  | cons q L ih =>
    intro S hS
    rw [mergeUniqueBy_cons]
    by_cases hq : key q ∈ S.map key
    · rw [if_pos hq]; exact ih S hS
    · rw [if_neg hq]
      apply ih
      rw [List.map_append, List.map_cons, List.map_nil]
      refine List.Nodup.append hS (List.nodup_singleton _) ?_
      rw [List.disjoint_singleton]
      intro hm
      obtain ⟨x, hx, hxq⟩ := List.mem_map.1 hm
      exact hq (List.mem_map.2 ⟨x, hx, hf _ _ hxq⟩)

theorem newRecords_length (L : List α) (K : List GoString) :
    (newRecords key K L).length = ((L.map key).toFinset \ K.toFinset).card := by
  rw [← List.length_map (newRecords key K L) key,
    ← List.toFinset_card_of_nodup (newRecords_keys_nodup key L K)]
  congr 1
  ext k
  simp only [List.mem_toFinset, Finset.mem_sdiff, newRecords_mem_keys]

/-- The length after two merges does not depend on their order. -/
theorem mergeUniqueBy_length_comm (S A B : List α) :
    (mergeUniqueBy key (mergeUniqueBy key S A) B).length
      = (mergeUniqueBy key (mergeUniqueBy key S B) A).length := by
  have hlen : ∀ X Y : List α, (mergeUniqueBy key (mergeUniqueBy key S X) Y).length
      = S.length + (((X ++ Y).map key).toFinset \ (S.map key).toFinset).card := by
    intro X Y
    rw [mergeUniqueBy_eq key (mergeUniqueBy key S X) Y, List.length_append,
      mergeUniqueBy_eq key S X, List.length_append, newRecords_length, newRecords_length,
      Nat.add_assoc]
    congr 1
    rw [← Finset.card_union_of_disjoint]
    · congr 1
      ext k
      simp only [Finset.mem_union, Finset.mem_sdiff, List.mem_toFinset, List.map_append,
        List.mem_append, newRecords_mem_keys]
      tauto
    · rw [Finset.disjoint_left]
      intro k h1 h2
      simp only [Finset.mem_sdiff, List.mem_toFinset, List.map_append, List.mem_append,
        newRecords_mem_keys] at h1 h2
      tauto
  rw [hlen A B, hlen B A]
  congr 2
  ext k
  simp only [Finset.mem_sdiff, List.mem_toFinset, List.map_append, List.mem_append]
  tauto

theorem mergeUniqueBy_keys_comm (S A B : List α) (k : GoString) :
    k ∈ (mergeUniqueBy key (mergeUniqueBy key S A) B).map key
      ↔ k ∈ (mergeUniqueBy key (mergeUniqueBy key S B) A).map key := by
  simp only [mergeUniqueBy_keys, List.map_append, List.mem_append]
  tauto

theorem newRecords_subset (L : List α) : ∀ (K : List GoString), ∀ x ∈ newRecords key K L, x ∈ L := by
  induction L with
  | nil => intro K x hx; simp [newRecords] at hx
  | cons q L ih =>
    intro K x hx
    simp only [newRecords] at hx
    by_cases hq : key q ∈ K
    · rw [if_pos hq] at hx
      exact List.mem_cons_of_mem _ (ih K x hx)
    · rw [if_neg hq] at hx
      rcases List.mem_cons.1 hx with h | h
      · rw [h]; exact List.mem_cons_self _ _
      · exact List.mem_cons_of_mem _ (ih _ x h)

/-- The merge keeps records of `S` and of `L` only. -/
theorem mergeUniqueBy_subset (S L : List α) : ∀ x ∈ mergeUniqueBy key S L, x ∈ S ++ L := by
  intro x hx
  rw [mergeUniqueBy_eq, List.mem_append] at hx
  rw [List.mem_append]
  rcases hx with h | h
  · exact Or.inl h
  · exact Or.inr (newRecords_subset key L _ x h)

/-- Among records on which equal keys mean equal identities, a list holds an
identity exactly when it holds its key. -/
theorem identity_mem_iff_key_mem {β : Type} (ident : α → β)
    (hki : ∀ a b, ident a = ident b → key a = key b) (U M : List α)
    (hM : ∀ x ∈ M, x ∈ U)
    (hinj : ∀ x ∈ U, ∀ y ∈ U, key x = key y → ident x = ident y) (x : α) (hx : x ∈ U) :
    ident x ∈ M.map ident ↔ key x ∈ M.map key := by
  constructor
  · intro h
    obtain ⟨y, hy, hxy⟩ := List.mem_map.1 h
    exact List.mem_map.2 ⟨y, hy, hki _ _ hxy⟩
  · intro h
    obtain ⟨y, hy, hxy⟩ := List.mem_map.1 h
    exact List.mem_map.2 ⟨y, hy, hinj y (hM y hy) x hx hxy⟩

/-- Without two records of equal key and different identity, the new records
by identity are the new records by key. -/
theorem specNewByIdentity_eq {β : Type} [DecidableEq β] (ident : α → β)
    (hki : ∀ a b, ident a = ident b → key a = key b) (S L : List α)
    (hinj : ∀ x ∈ S ++ L, ∀ y ∈ S ++ L, key x = key y → ident x = ident y) :
    specNewByIdentity ident S L = specNewRecords key S L := by
  unfold specNewByIdentity specNewRecords
  congr 1
  apply List.filter_congr
  intro p hp
  have hpL : p.2 ∈ L := List.snd_mem_of_mem_enum hp
  have hpU : p.2 ∈ S ++ L := List.mem_append_right _ hpL
  unfold specIsNew
  rw [decide_eq_decide,
    identity_mem_iff_key_mem key ident hki (S ++ L) S (fun x hx => List.mem_append_left _ hx)
      hinj p.2 hpU,
    identity_mem_iff_key_mem key ident hki (S ++ L) (L.take p.1)
      (fun x hx => List.mem_append_right _ (List.mem_of_mem_take hx)) hinj p.2 hpU]

/-- Without two records of equal key and different identity, the identities of
the merge are those of `S` and of `L`. -/
theorem mergeUniqueBy_identities {β : Type} (ident : α → β)
    (hki : ∀ a b, ident a = ident b → key a = key b) (S L : List α)
    (hinj : ∀ x ∈ S ++ L, ∀ y ∈ S ++ L, key x = key y → ident x = ident y) (i : β) :
    i ∈ (mergeUniqueBy key S L).map ident ↔ i ∈ (S ++ L).map ident := by
  constructor
  · intro h
    obtain ⟨x, hx, hxi⟩ := List.mem_map.1 h
    exact List.mem_map.2 ⟨x, mergeUniqueBy_subset key S L x hx, hxi⟩
  · intro h
    obtain ⟨x, hx, hxi⟩ := List.mem_map.1 h
    rw [← hxi, identity_mem_iff_key_mem key ident hki (S ++ L) _
      (mergeUniqueBy_subset key S L) hinj x hx, mergeUniqueBy_keys]
    exact List.mem_map_of_mem _ hx

/-- Without two records of equal key and different identity, the identities
after two merges do not depend on their order. -/
theorem mergeUniqueBy_identities_comm {β : Type} (ident : α → β)
    (hki : ∀ a b, ident a = ident b → key a = key b) (S A B : List α)
    (hinj : ∀ x ∈ S ++ A ++ B, ∀ y ∈ S ++ A ++ B, key x = key y → ident x = ident y) (i : β) :
    i ∈ (mergeUniqueBy key (mergeUniqueBy key S A) B).map ident
      ↔ i ∈ (mergeUniqueBy key (mergeUniqueBy key S B) A).map ident := by
  have hsub : ∀ X Y : List α, (∀ x ∈ X ++ Y, x ∈ S ++ A ++ B) →
      ∀ x ∈ mergeUniqueBy key (mergeUniqueBy key S X) Y, x ∈ S ++ A ++ B := by
    intro X Y hXY x hx
    have h1 := mergeUniqueBy_subset key _ Y x hx
    rcases List.mem_append.1 h1 with h | h
    · rcases List.mem_append.1 (mergeUniqueBy_subset key S X x h) with h | h
      · simp [h]
      · exact hXY x (List.mem_append_left _ h)
    · exact hXY x (List.mem_append_right _ h)
  have hAB := hsub A B (fun x hx => by simp only [List.mem_append] at hx ⊢; tauto)
  have hBA := hsub B A (fun x hx => by simp only [List.mem_append] at hx ⊢; tauto)
  constructor
  · intro h
    obtain ⟨x, hx, hxi⟩ := List.mem_map.1 h
    rw [← hxi, identity_mem_iff_key_mem key ident hki (S ++ A ++ B) _ hBA hinj x (hAB x hx),
      ← mergeUniqueBy_keys_comm]
    exact List.mem_map_of_mem _ hx
  · intro h
    obtain ⟨x, hx, hxi⟩ := List.mem_map.1 h
    rw [← hxi, identity_mem_iff_key_mem key ident hki (S ++ A ++ B) _ hAB hinj x (hBA x hx),
      mergeUniqueBy_keys_comm]
    exact List.mem_map_of_mem _ hx

end Merge


/-- Equal 4-tuples give equal keys; the headshot is not part of the key. -/
theorem quoteKey_of_identity (a b : StructuredQuote)
    (h : specQuoteIdentity a = specQuoteIdentity b) : quoteKey a = quoteKey b := by
  simp only [specQuoteIdentity, Prod.mk.injEq] at h
  simp [quoteKey, h.1, h.2.1, h.2.2.1, h.2.2.2]

/-- C4 (the code departs from the claim). With the section holding the quote of
title `T|U`, conference `C`, and the incoming list the quote of title `T`,
conference `U|C`, the incoming record has an identity (its 4-tuple) that no
record of the section has, so it is the list `N` of the claim; yet
`mergeUniqueQuotes` returns the section alone, and the identity of the incoming
record does not occur in the result. What holds for every `S` and `L` is the
equation with the key of `quoteKey` in the place of the identity; and the
claim itself holds for every `S` and `L` in which no two records of different
identity have the same key. -/
theorem mergeUniqueQuotes_union_by_key_not_identity :
    (specNewByIdentity specQuoteIdentity
        [(⟨B "A", B "T|U", B "C", B "q", []⟩ : StructuredQuote)]
        [(⟨B "A", B "T", B "U|C", B "q", []⟩ : StructuredQuote)]
        = [⟨B "A", B "T", B "U|C", B "q", []⟩] ∧
      mergeUniqueQuotes [⟨B "A", B "T|U", B "C", B "q", []⟩]
        [⟨B "A", B "T", B "U|C", B "q", []⟩]
        = [⟨B "A", B "T|U", B "C", B "q", []⟩] ∧
      mergeUniqueQuotes [⟨B "A", B "T|U", B "C", B "q", []⟩]
        [⟨B "A", B "T", B "U|C", B "q", []⟩]
        ≠ [(⟨B "A", B "T|U", B "C", B "q", []⟩ : StructuredQuote)]
          ++ specNewByIdentity specQuoteIdentity
            [(⟨B "A", B "T|U", B "C", B "q", []⟩ : StructuredQuote)]
            [(⟨B "A", B "T", B "U|C", B "q", []⟩ : StructuredQuote)] ∧
      specQuoteIdentity ⟨B "A", B "T", B "U|C", B "q", []⟩
        ∉ (mergeUniqueQuotes [⟨B "A", B "T|U", B "C", B "q", []⟩]
            [⟨B "A", B "T", B "U|C", B "q", []⟩]).map specQuoteIdentity) ∧
    (∀ S L : List StructuredQuote,
      mergeUniqueQuotes S L = S ++ specNewRecords quoteKey S L ∧
      (∀ k : GoString, (mergeUniqueQuotes S L).find? (fun q => decide (quoteKey q = k))
          = (S ++ L).find? (fun q => decide (quoteKey q = k))) ∧
      (∀ k : GoString,
        k ∈ (mergeUniqueQuotes S L).map quoteKey ↔ k ∈ (S ++ L).map quoteKey)) ∧
    (∀ S L : List StructuredQuote,
      (∀ x ∈ S ++ L, ∀ y ∈ S ++ L, quoteKey x = quoteKey y →
        specQuoteIdentity x = specQuoteIdentity y) →
      mergeUniqueQuotes S L = S ++ specNewByIdentity specQuoteIdentity S L ∧
      (∀ i, i ∈ (mergeUniqueQuotes S L).map specQuoteIdentity
          ↔ i ∈ (S ++ L).map specQuoteIdentity)) := by
  refine ⟨⟨by decide, by decide, by decide, by decide⟩, fun S L => ⟨?_, ?_, ?_⟩,
    fun S L hinj => ⟨?_, ?_⟩⟩
  · rw [mergeUniqueQuotes_eq, mergeUniqueBy_eq, newRecords_spec]
  · intro k; rw [mergeUniqueQuotes_eq]; exact mergeUniqueBy_find quoteKey S L k
  · intro k; rw [mergeUniqueQuotes_eq]; exact mergeUniqueBy_keys quoteKey S L k
  · rw [mergeUniqueQuotes_eq, mergeUniqueBy_eq, newRecords_spec,
      specNewByIdentity_eq quoteKey specQuoteIdentity quoteKey_of_identity S L hinj]
  · intro i
    rw [mergeUniqueQuotes_eq]
    exact mergeUniqueBy_identities quoteKey specQuoteIdentity quoteKey_of_identity S L hinj i

/-- C5. Merging the same incoming list a second time changes nothing, for
quotes and for scriptures, whatever the section and the list. -/
theorem mergeUnique_idempotent :
    (∀ S L : List StructuredQuote,
      mergeUniqueQuotes (mergeUniqueQuotes S L) L = mergeUniqueQuotes S L) ∧
    (∀ S L : List StructuredScripture,
      mergeUniqueScriptures (mergeUniqueScriptures S L) L = mergeUniqueScriptures S L) := by
  refine ⟨fun S L => ?_, fun S L => ?_⟩
  · rw [mergeUniqueQuotes_eq]; exact mergeUniqueBy_idem quoteKey S L
  · rw [mergeUniqueScriptures_eq]; exact mergeUniqueBy_idem scriptureKey S L

/-- C6. A section never shrinks and keeps its order: `S` is a prefix of
`mergeUniqueQuotes(S, L1)`, which is a prefix of the merge of `L2` into it; the
lengths do not decrease, and every position of the section holds the same
record after the merges. -/
theorem mergeUniqueQuotes_monotone (S L1 L2 : List StructuredQuote) :
    S <+: mergeUniqueQuotes S L1 ∧
    mergeUniqueQuotes S L1 <+: mergeUniqueQuotes (mergeUniqueQuotes S L1) L2 ∧
    S.length ≤ (mergeUniqueQuotes S L1).length ∧
    (mergeUniqueQuotes S L1).length ≤ (mergeUniqueQuotes (mergeUniqueQuotes S L1) L2).length ∧
    (∀ i, i < S.length →
      (mergeUniqueQuotes (mergeUniqueQuotes S L1) L2)[i]? = S[i]?) := by
  have h1 : S <+: mergeUniqueQuotes S L1 := by
    rw [mergeUniqueQuotes_eq]; exact mergeUniqueBy_isPrefix quoteKey S L1
  have h2 : mergeUniqueQuotes S L1 <+: mergeUniqueQuotes (mergeUniqueQuotes S L1) L2 := by
    rw [mergeUniqueQuotes_eq]; exact mergeUniqueBy_isPrefix quoteKey _ L2
  refine ⟨h1, h2, h1.length_le, h2.length_le, ?_⟩
  intro i hi
  obtain ⟨t, ht⟩ := h1.trans h2
  rw [← ht, List.getElem?_append_left hi]

/-- Witness of C6 with overlapping lists. -/
theorem mergeUniqueQuotes_monotone_witness :
    (mergeUniqueQuotes (mergeUniqueQuotes
        [⟨B "a", [], [], [], []⟩, ⟨B "b", [], [], [], []⟩]
        [⟨B "b", [], [], [], []⟩, ⟨B "c", [], [], [], []⟩])
        [⟨B "c", [], [], [], []⟩, ⟨B "a", [], [], [], []⟩, ⟨B "d", [], [], [], []⟩])[1]?
      = ([⟨B "a", [], [], [], []⟩, ⟨B "b", [], [], [], []⟩] : List StructuredQuote)[1]? :=
  (mergeUniqueQuotes_monotone [⟨B "a", [], [], [], []⟩, ⟨B "b", [], [], [], []⟩]
    [⟨B "b", [], [], [], []⟩, ⟨B "c", [], [], [], []⟩]
    [⟨B "c", [], [], [], []⟩, ⟨B "a", [], [], [], []⟩, ⟨B "d", [], [], [], []⟩]).2.2.2.2 1
    (by decide)

theorem scriptureKey_of_identity (a b : StructuredScripture)
    (h : specScriptureIdentity a = specScriptureIdentity b) : scriptureKey a = scriptureKey b := by
  simp only [specScriptureIdentity, Prod.mk.injEq] at h
  simp [scriptureKey, h.1, h.2.1, h.2.2]

/-- C7. If no two records of `existing` have the same (volume, reference,
text), then no two records of `mergeUniqueScriptures(existing, incoming)` have,
whatever `incoming` is; the related-talk field has no part in the key, so a
record that differs from one of the section in that field only is dropped; and
every section reached from the empty one by a sequence of merges is
duplicate-free. -/
theorem mergeUniqueScriptures_duplicate_free :
    (∀ existing incoming : List StructuredScripture,
      (existing.map specScriptureIdentity).Nodup →
      ((mergeUniqueScriptures existing incoming).map specScriptureIdentity).Nodup) ∧
    (∀ (s : StructuredScripture) (r : Option RelatedTalkQuote),
      scriptureKey ⟨s.Volume, s.Reference, s.Text, r⟩ = scriptureKey s) ∧
    (∀ (existing : List StructuredScripture) (s : StructuredScripture)
      (r : Option RelatedTalkQuote), s ∈ existing →
      mergeUniqueScriptures existing [⟨s.Volume, s.Reference, s.Text, r⟩] = existing) ∧
    (∀ batches : List (List StructuredScripture),
      ((batches.foldl mergeUniqueScriptures []).map specScriptureIdentity).Nodup) := by
  have hstep : ∀ existing incoming : List StructuredScripture,
      (existing.map specScriptureIdentity).Nodup →
      ((mergeUniqueScriptures existing incoming).map specScriptureIdentity).Nodup := by
    intro existing incoming h
    rw [mergeUniqueScriptures_eq]
    exact mergeUniqueBy_nodup scriptureKey specScriptureIdentity scriptureKey_of_identity
      incoming existing h
  refine ⟨hstep, fun s r => rfl, ?_, ?_⟩
  · intro existing s r hs
    rw [mergeUniqueScriptures_eq, mergeUniqueBy_eq, newRecords_eq_nil, List.append_nil]
    intro q hq
    rw [List.mem_singleton] at hq
    subst hq
    exact List.mem_map.2 ⟨s, hs, rfl⟩
  · intro batches
    have hgen : ∀ (bs : List (List StructuredScripture)) (S : List StructuredScripture),
        (S.map specScriptureIdentity).Nodup →
        ((bs.foldl mergeUniqueScriptures S).map specScriptureIdentity).Nodup := by
      intro bs
      induction bs with
      | nil => intro S hS; exact hS
      | cons b bs ih => intro S hS; exact ih _ (hstep S b hS)
    exact hgen batches [] List.nodup_nil

/-- Witness of C7: an incoming list that repeats a record and a record of the
section. -/
theorem mergeUniqueScriptures_duplicate_free_witness :
    ((mergeUniqueScriptures [⟨B "Bible", B "John 3:16", B "t", none⟩]
        [⟨B "Bible", B "John 3:17", B "u", none⟩, ⟨B "Bible", B "John 3:17", B "u", none⟩,
          ⟨B "Bible", B "John 3:16", B "t", some ⟨B "s", B "t", B "q"⟩⟩]).map
      specScriptureIdentity).Nodup :=
  mergeUniqueScriptures_duplicate_free.1 [⟨B "Bible", B "John 3:16", B "t", none⟩]
    [⟨B "Bible", B "John 3:17", B "u", none⟩, ⟨B "Bible", B "John 3:17", B "u", none⟩,
      ⟨B "Bible", B "John 3:16", B "t", some ⟨B "s", B "t", B "q"⟩⟩] (by decide)

/-- C8 (the code departs from the claim). The quotes with title `T|U`,
conference `C` and with title `T`, conference `U|C` differ in their 4-tuple,
yet `quoteKey` gives both the key `A|T|U|C|q`, and `mergeUniqueQuotes` drops the
second when the first is in the section. -/
theorem quoteKey_separator_collision :
    specQuoteIdentity ⟨B "A", B "T|U", B "C", B "q", []⟩
      ≠ specQuoteIdentity ⟨B "A", B "T", B "U|C", B "q", []⟩ ∧
    quoteKey ⟨B "A", B "T|U", B "C", B "q", []⟩ = B "A|T|U|C|q" ∧
    quoteKey ⟨B "A", B "T", B "U|C", B "q", []⟩ = B "A|T|U|C|q" ∧
    mergeUniqueQuotes [⟨B "A", B "T|U", B "C", B "q", []⟩]
        [⟨B "A", B "T", B "U|C", B "q", []⟩]
      = [⟨B "A", B "T|U", B "C", B "q", []⟩] := by
  refine ⟨by decide, by decide, by decide, by decide⟩

/-- C9 (the code departs from the claim). Into the empty section, the quote of
title `T|U`, conference `C` and the quote of title `T`, conference `U|C`
arrive: in one order the first is what the section holds, in the other order
the second, so the two results hold different identities; likewise the
scriptures of volume `A|B`, reference `C` and of volume `A`, reference `B|C`.
What holds for every section and lists is that the two orders give the same
length and the same set of keys; and they give the same set of identities
whenever no two records of different identity have the same key. -/
theorem mergeUnique_arrival_order_by_key_not_identity :
    (mergeUniqueQuotes (mergeUniqueQuotes [] [⟨B "A", B "T|U", B "C", B "q", []⟩])
        [⟨B "A", B "T", B "U|C", B "q", []⟩] = [⟨B "A", B "T|U", B "C", B "q", []⟩] ∧
      mergeUniqueQuotes (mergeUniqueQuotes [] [⟨B "A", B "T", B "U|C", B "q", []⟩])
        [⟨B "A", B "T|U", B "C", B "q", []⟩] = [⟨B "A", B "T", B "U|C", B "q", []⟩] ∧
      specQuoteIdentity ⟨B "A", B "T|U", B "C", B "q", []⟩
        ∈ (mergeUniqueQuotes (mergeUniqueQuotes [] [⟨B "A", B "T|U", B "C", B "q", []⟩])
            [⟨B "A", B "T", B "U|C", B "q", []⟩]).map specQuoteIdentity ∧
      specQuoteIdentity ⟨B "A", B "T|U", B "C", B "q", []⟩
        ∉ (mergeUniqueQuotes (mergeUniqueQuotes [] [⟨B "A", B "T", B "U|C", B "q", []⟩])
            [⟨B "A", B "T|U", B "C", B "q", []⟩]).map specQuoteIdentity) ∧
    (mergeUniqueScriptures (mergeUniqueScriptures [] [⟨B "A|B", B "C", B "t", none⟩])
        [⟨B "A", B "B|C", B "t", none⟩] = [⟨B "A|B", B "C", B "t", none⟩] ∧
      mergeUniqueScriptures (mergeUniqueScriptures [] [⟨B "A", B "B|C", B "t", none⟩])
        [⟨B "A|B", B "C", B "t", none⟩] = [⟨B "A", B "B|C", B "t", none⟩] ∧
      specScriptureIdentity ⟨B "A|B", B "C", B "t", none⟩
        ∈ (mergeUniqueScriptures (mergeUniqueScriptures [] [⟨B "A|B", B "C", B "t", none⟩])
            [⟨B "A", B "B|C", B "t", none⟩]).map specScriptureIdentity ∧
      specScriptureIdentity ⟨B "A|B", B "C", B "t", none⟩
        ∉ (mergeUniqueScriptures (mergeUniqueScriptures [] [⟨B "A", B "B|C", B "t", none⟩])
            [⟨B "A|B", B "C", B "t", none⟩]).map specScriptureIdentity) ∧
    (∀ S A B : List StructuredQuote,
      (mergeUniqueQuotes (mergeUniqueQuotes S A) B).length
          = (mergeUniqueQuotes (mergeUniqueQuotes S B) A).length ∧
      ∀ k : GoString, k ∈ (mergeUniqueQuotes (mergeUniqueQuotes S A) B).map quoteKey
          ↔ k ∈ (mergeUniqueQuotes (mergeUniqueQuotes S B) A).map quoteKey) ∧
    (∀ S A B : List StructuredScripture,
      (mergeUniqueScriptures (mergeUniqueScriptures S A) B).length
          = (mergeUniqueScriptures (mergeUniqueScriptures S B) A).length ∧
      ∀ k : GoString,
        k ∈ (mergeUniqueScriptures (mergeUniqueScriptures S A) B).map scriptureKey
          ↔ k ∈ (mergeUniqueScriptures (mergeUniqueScriptures S B) A).map scriptureKey) ∧
    (∀ S A B : List StructuredQuote,
      (∀ x ∈ S ++ A ++ B, ∀ y ∈ S ++ A ++ B, quoteKey x = quoteKey y →
        specQuoteIdentity x = specQuoteIdentity y) →
      ∀ i, i ∈ (mergeUniqueQuotes (mergeUniqueQuotes S A) B).map specQuoteIdentity
          ↔ i ∈ (mergeUniqueQuotes (mergeUniqueQuotes S B) A).map specQuoteIdentity) ∧
    (∀ S A B : List StructuredScripture,
      (∀ x ∈ S ++ A ++ B, ∀ y ∈ S ++ A ++ B, scriptureKey x = scriptureKey y →
        specScriptureIdentity x = specScriptureIdentity y) →
      ∀ i, i ∈ (mergeUniqueScriptures (mergeUniqueScriptures S A) B).map specScriptureIdentity
          ↔ i ∈ (mergeUniqueScriptures (mergeUniqueScriptures S B) A).map
            specScriptureIdentity) := by
  refine ⟨⟨by decide, by decide, by decide, by decide⟩,
    ⟨by decide, by decide, by decide, by decide⟩, fun S A B => ?_, fun S A B => ?_,
    fun S A B hinj i => ?_, fun S A B hinj i => ?_⟩
  · rw [mergeUniqueQuotes_eq]
    exact ⟨mergeUniqueBy_length_comm quoteKey S A B, mergeUniqueBy_keys_comm quoteKey S A B⟩
  · rw [mergeUniqueScriptures_eq]
    exact ⟨mergeUniqueBy_length_comm scriptureKey S A B,
      mergeUniqueBy_keys_comm scriptureKey S A B⟩
  · rw [mergeUniqueQuotes_eq]
    exact mergeUniqueBy_identities_comm quoteKey specQuoteIdentity quoteKey_of_identity
      S A B hinj i
  · rw [mergeUniqueScriptures_eq]
    exact mergeUniqueBy_identities_comm scriptureKey specScriptureIdentity
      scriptureKey_of_identity S A B hinj i

/-! ## The Presidents ordering -/

theorem insertBack_first {α : Type} (p : α → Bool) (x : α) (hx : p x = true) (O : List α)
    (hO : ∀ y ∈ O, p y = true) : ∀ N : List α, (∀ y ∈ N, p y = false) →
    insertBack (fun a b => p a && !p b) x (N ++ O) = N ++ x :: O := by
  intro N
  induction N with
  | nil =>
    intro _
    cases O with
    | nil => rfl
    | cons y O => simp [insertBack, hx, hO y (List.mem_cons_self _ _)]
  | cons n N ih =>
    intro hN
    have hn : p n = false := hN n (List.mem_cons_self _ _)
    have hrec := ih (fun y hy => hN y (List.mem_cons_of_mem _ hy))
    show insertBack (fun a b => p a && !p b) x (n :: (N ++ O)) = n :: (N ++ x :: O)
    rw [insertBack, hrec]
    simp [hx, hn]

theorem insertBack_second {α : Type} (p : α → Bool) (x : α) (hx : p x = false) (l : List α) :
    insertBack (fun a b => p a && !p b) x l = x :: l := by
  cases l with
  | nil => rfl
  | cons y l => simp [insertBack, hx]

theorem sliceStable_loop {α : Type} (p : α → Bool) (xs : List α) : ∀ pre : List α,
    xs.foldl (fun acc x => insertBack (fun a b => p a && !p b) x acc)
        ((pre.filter (fun x => !p x)).reverse ++ (pre.filter p).reverse)
      = (((pre ++ xs).filter (fun x => !p x)).reverse ++ ((pre ++ xs).filter p).reverse) := by
  induction xs with
  | nil => intro pre; simp
  | cons x xs ih =>
    intro pre
    have hpre : pre ++ x :: xs = (pre ++ [x]) ++ xs := by simp
    rw [List.foldl_cons, hpre, ← ih (pre ++ [x])]
    congr 1
    cases hx : p x with
    | true =>
      rw [insertBack_first p x hx _ (by
        intro y hy
        have := List.mem_reverse.1 hy
        exact (List.mem_filter.1 this).2) _ (by
        intro y hy
        have := (List.mem_filter.1 (List.mem_reverse.1 hy)).2
        simpa using this)]
      simp [List.filter_append, hx]
    | false =>
      rw [insertBack_second p x hx]
      simp [List.filter_append, hx]

/-- With a two-class `less` the stable sort puts the first class in front, each
class in its original order. -/
theorem sliceStable_two_classes {α : Type} (p : α → Bool) (xs : List α) :
    sliceStable (fun a b => p a && !p b) xs = xs.filter p ++ xs.filter (fun x => !p x) := by
  have := sliceStable_loop p xs []
  simp only [List.filter_nil, List.reverse_nil, List.append_nil, List.nil_append] at this
  rw [sliceStable, this]
  simp

theorem oaksPriority_lt (lib : StringsPkg) (a b : StructuredQuote) :
    decide (oaksPriority lib a < oaksPriority lib b)
      = (isOaksSpeaker lib a.Speaker && !isOaksSpeaker lib b.Speaker) := by
  unfold oaksPriority
  cases isOaksSpeaker lib a.Speaker <;> cases isOaksSpeaker lib b.Speaker <;> simp

theorem indexFrom_nonneg_iff (sub s : GoString) (i : Nat) :
    0 ≤ indexFrom sub s i ↔ sub <:+: s := by
  induction s generalizing i with
  | nil =>
    by_cases h : sub = []
    · simp [indexFrom, h]
    · simp [indexFrom, h]
  | cons c cs ih =>
    rw [indexFrom, List.infix_cons_iff]
    by_cases h : sub <+: c :: cs
    · simp [h]
    · simp [h, ih]

theorem B_oaks : B "oaks" = [111, 97, 107, 115] := by decide

theorem isOaksSpeaker_iff (lib : StringsPkg) (name : GoString) :
    isOaksSpeaker lib name = true ↔ B "oaks" <:+: lib.ToLower (lib.TrimSpace name) := by
  unfold isOaksSpeaker
  simp only []
  by_cases h : lib.ToLower (lib.TrimSpace name) = []
  · rw [if_pos h, h, B_oaks]; simp
  · rw [if_neg h, stringsContains, decide_eq_true_iff, stringsIndex, indexFrom_nonneg_iff]


theorem infix_dropWhile_asciiSpace (c : Nat) (u : GoString) (hc : asciiSpace c = false) :
    ∀ l : GoString, c :: u <:+: l → c :: u <:+: l.dropWhile asciiSpace := by
  intro l
  induction l with
  | nil => intro h; exact h
  | cons w l ih =>
    intro h
    cases hw : asciiSpace w with
    | false => rw [List.dropWhile_cons_of_neg (by simp [hw])]; exact h
    | true =>
      rw [List.dropWhile_cons_of_pos hw]
      rcases List.infix_cons_iff.1 h with hp | hi
      · have : c = w := (List.cons_prefix_cons.1 hp).1
        rw [this, hw] at hc
        cases hc
      · exact ih hi

/-- Trimming white space neither adds nor removes an occurrence of a text that
starts and ends with a byte that is no white space. -/
theorem infix_asciiTrimSpace (o a k s : Nat) (ho : asciiSpace o = false)
    (hs : asciiSpace s = false) (name : GoString) :
    [o, a, k, s] <:+: asciiTrimSpace name ↔ [o, a, k, s] <:+: name := by
  unfold asciiTrimSpace
  constructor
  · intro h
    have h1 := List.reverse_infix.2 h
    rw [List.reverse_reverse] at h1
    have h2 := h1.trans (List.dropWhile_suffix asciiSpace).isInfix
    have h3 := List.reverse_infix.1 h2
    exact h3.trans (List.dropWhile_suffix asciiSpace).isInfix
  · intro h
    have h1 := infix_dropWhile_asciiSpace o [a, k, s] ho name h
    have h2 : [s, k, a, o] <:+: (name.dropWhile asciiSpace).reverse := by
      have := List.reverse_infix.2 h1
      simpa using this
    have h3 := infix_dropWhile_asciiSpace s [k, a, o] hs _ h2
    have h4 := List.reverse_infix.2 h3
    simpa using h4

theorem lowerByte_eq (c t u : Nat) (ht : 97 ≤ t) (ht2 : t ≤ 122) (hu : u + 32 = t) :
    asciiLowerByte c = t ↔ (c = t ∨ c = u) := by
  unfold asciiLowerByte
  split <;> omega

theorem infix_asciiToLower_oaks (t : GoString) :
    [111, 97, 107, 115] <:+: asciiToLower t ↔
      ∃ o a k s, [o, a, k, s] <:+: t ∧ (o = 111 ∨ o = 79) ∧ (a = 97 ∨ a = 65) ∧
        (k = 107 ∨ k = 75) ∧ (s = 115 ∨ s = 83) := by
  unfold asciiToLower
  constructor
  · rintro ⟨x, y, h⟩
    obtain ⟨l₁, y', hl, h1, _⟩ := List.map_eq_append_iff.1 h.symm
    obtain ⟨x', m, hl₁, _, hm⟩ := List.map_eq_append_iff.1 h1
    obtain ⟨o, m1, rfl, ho, hm1⟩ := List.map_eq_cons_iff.1 hm
    obtain ⟨a, m2, rfl, ha, hm2⟩ := List.map_eq_cons_iff.1 hm1
    obtain ⟨k, m3, rfl, hk, hm3⟩ := List.map_eq_cons_iff.1 hm2
    obtain ⟨s, m4, rfl, hs, hm4⟩ := List.map_eq_cons_iff.1 hm3
    have hnil : m4 = [] := List.map_eq_nil_iff.1 hm4
    subst hnil
    refine ⟨o, a, k, s, ⟨x', y', by rw [hl, hl₁]⟩, ?_, ?_, ?_, ?_⟩
    · exact (lowerByte_eq o 111 79 (by decide) (by decide) rfl).1 ho
    · exact (lowerByte_eq a 97 65 (by decide) (by decide) rfl).1 ha
    · exact (lowerByte_eq k 107 75 (by decide) (by decide) rfl).1 hk
    · exact (lowerByte_eq s 115 83 (by decide) (by decide) rfl).1 hs
  · rintro ⟨o, a, k, s, ⟨x, y, h⟩, ho, ha, hk, hs⟩
    refine ⟨x.map asciiLowerByte, y.map asciiLowerByte, ?_⟩
    rw [← h]
    simp only [List.map_append, List.map_cons, List.map_nil, List.append_assoc,
      (lowerByte_eq o 111 79 (by decide) (by decide) rfl).2 ho,
      (lowerByte_eq a 97 65 (by decide) (by decide) rfl).2 ha,
      (lowerByte_eq k 107 75 (by decide) (by decide) rfl).2 hk,
      (lowerByte_eq s 115 83 (by decide) (by decide) rfl).2 hs]

/-- On ASCII text `isOaksSpeaker` holds exactly of the names in which `oaks`
occurs, each letter in either case. -/
theorem isOaksSpeaker_ascii_iff (name : GoString) :
    isOaksSpeaker asciiStrings name = true ↔
      ∃ o a k s, [o, a, k, s] <:+: name ∧ (o = 111 ∨ o = 79) ∧ (a = 97 ∨ a = 65) ∧
        (k = 107 ∨ k = 75) ∧ (s = 115 ∨ s = 83) := by
  rw [isOaksSpeaker_iff, B_oaks]
  show [111, 97, 107, 115] <:+: asciiToLower (asciiTrimSpace name) ↔ _
  rw [infix_asciiToLower_oaks]
  constructor
  · rintro ⟨o, a, k, s, h, ho, ha, hk, hs⟩
    refine ⟨o, a, k, s, ?_, ho, ha, hk, hs⟩
    refine (infix_asciiTrimSpace o a k s ?_ ?_ name).1 h
    · rcases ho with e | e <;> subst e <;> decide
    · rcases hs with e | e <;> subst e <;> decide
  · rintro ⟨o, a, k, s, h, ho, ha, hk, hs⟩
    refine ⟨o, a, k, s, ?_, ho, ha, hk, hs⟩
    refine (infix_asciiTrimSpace o a k s ?_ ?_ name).2 h
    · rcases ho with e | e <;> subst e <;> decide
    · rcases hs with e | e <;> subst e <;> decide

/-- C10. `sortPresidentsQuotes` returns the records whose speaker passes
`isOaksSpeaker` (`oaks` occurs in the lower-cased, trimmed name), in their
original order, followed by all the other records in their original order; the
result is a permutation of the input; on ASCII names the first class is the
names in which `oaks` occurs whatever the case of its letters; and the
speakers Nelson, Oaks, Holland come out as Oaks, Nelson, Holland. -/
theorem sortPresidentsQuotes_stable_partition :
    (∀ (lib : StringsPkg) (quotes : List StructuredQuote),
      sortPresidentsQuotes lib quotes
        = quotes.filter (fun q => isOaksSpeaker lib q.Speaker)
          ++ quotes.filter (fun q => !isOaksSpeaker lib q.Speaker)) ∧
    (∀ (lib : StringsPkg) (quotes : List StructuredQuote),
      (sortPresidentsQuotes lib quotes).Perm quotes) ∧
    (∀ (lib : StringsPkg) (name : GoString),
      isOaksSpeaker lib name = true ↔ B "oaks" <:+: lib.ToLower (lib.TrimSpace name)) ∧
    (∀ name : GoString, isOaksSpeaker asciiStrings name = true ↔
      ∃ o a k s, [o, a, k, s] <:+: name ∧ (o = 111 ∨ o = 79) ∧ (a = 97 ∨ a = 65) ∧
        (k = 107 ∨ k = 75) ∧ (s = 115 ∨ s = 83)) ∧
    sortPresidentsQuotes asciiStrings
        [⟨B "Russell M. Nelson", B "t1", B "c1", B "q1", []⟩,
          ⟨B "Dallin H. Oaks", B "t2", B "c2", B "q2", []⟩,
          ⟨B "Jeffrey R. Holland", B "t3", B "c3", B "q3", []⟩]
      = [⟨B "Dallin H. Oaks", B "t2", B "c2", B "q2", []⟩,
          ⟨B "Russell M. Nelson", B "t1", B "c1", B "q1", []⟩,
          ⟨B "Jeffrey R. Holland", B "t3", B "c3", B "q3", []⟩] := by
  have hsort : ∀ (lib : StringsPkg) (quotes : List StructuredQuote),
      sortPresidentsQuotes lib quotes
        = quotes.filter (fun q => isOaksSpeaker lib q.Speaker)
          ++ quotes.filter (fun q => !isOaksSpeaker lib q.Speaker) := by
    intro lib quotes
    unfold sortPresidentsQuotes
    simp only [oaksPriority_lt]
    exact sliceStable_two_classes (fun q => isOaksSpeaker lib q.Speaker) quotes
  refine ⟨hsort, ?_, isOaksSpeaker_iff, isOaksSpeaker_ascii_iff, by decide⟩
  intro lib quotes
  rw [hsort]
  exact List.filter_append_perm _ _


/-! ## The session claim store -/

theorem claimSession_fresh (store : SessionStore) (now : Int) (s : GoString) (hs : s ≠ [])
    (h : ∀ exp, store s = some exp → exp ≤ now) :
    (claimSession store now s).1 = false ∧
      (claimSession store now s).2 s = some (now + sessionTTL) := by
  unfold claimSession
  rw [if_neg hs]
  cases hst : store s with
  | none => simp [mapSet]
  | some exp =>
    have := h exp hst
    have hlt : ¬ now < exp := by omega
    simp [hlt, mapSet]

theorem claimSession_duplicate (store : SessionStore) (now exp : Int) (s : GoString)
    (hs : s ≠ []) (hst : store s = some exp) (h : now < exp) :
    claimSession store now s = (true, store) := by
  unfold claimSession
  rw [if_neg hs, hst]
  simp [h]

theorem claimSession_true_iff (store : SessionStore) (now : Int) (s : GoString) (hs : s ≠ []) :
    (claimSession store now s).1 = true ↔ ∃ exp, store s = some exp ∧ now < exp := by
  unfold claimSession
  rw [if_neg hs]
  cases hst : store s with
  | none => simp
  | some exp =>
    by_cases h : now < exp
    · simp [h]
    · simp [h]

theorem claimSessionSeq_window (store : SessionStore) (exp : Int) (s : GoString) (hs : s ≠ [])
    (hst : store s = some exp) (ts : List Int) (h : ∀ t ∈ ts, t < exp) :
    claimSessionSeq store s ts = (List.replicate ts.length true, store) := by
  induction ts with
  | nil => rfl
  | cons t ts ih =>
    have ht : t < exp := h t (List.mem_cons_self _ _)
    simp only [claimSessionSeq, claimSession_duplicate store t exp s hs hst ht,
      ih (fun x hx => h x (List.mem_cons_of_mem _ hx)), List.length_cons, List.replicate_succ]

/-- C11. For a non-empty session ID without entry, `claimSession` at `t0`
returns false and records the expiry `t0 + sessionTTL` (10 minutes); all
further claims at instants in `[t0, t0 + sessionTTL)` return true and leave the
store as it is; the next claim at an instant `t >= t0 + sessionTTL` returns
false and records the expiry `t + sessionTTL`; and a claim returns true exactly
when the store holds an expiry for the ID that is strictly after now. -/
theorem claimSession_window :
    sessionTTL = 600000000000 ∧
    (∀ (store : SessionStore) (s : GoString) (t0 : Int), s ≠ [] → store s = none →
      (claimSession store t0 s).1 = false ∧
      (claimSession store t0 s).2 s = some (t0 + sessionTTL) ∧
      (∀ ts : List Int, (∀ t ∈ ts, t0 ≤ t ∧ t < t0 + sessionTTL) →
        claimSessionSeq (claimSession store t0 s).2 s ts
          = (List.replicate ts.length true, (claimSession store t0 s).2) ∧
        ∀ t : Int, t0 + sessionTTL ≤ t →
          (claimSession (claimSessionSeq (claimSession store t0 s).2 s ts).2 t s).1 = false ∧
          (claimSession (claimSessionSeq (claimSession store t0 s).2 s ts).2 t s).2 s
            = some (t + sessionTTL))) ∧
    (∀ (store : SessionStore) (s : GoString) (now : Int), s ≠ [] →
      ((claimSession store now s).1 = true ↔ ∃ exp, store s = some exp ∧ now < exp)) := by
  refine ⟨by decide, ?_, fun store s now hs => claimSession_true_iff store now s hs⟩
  intro store s t0 hs hnone
  have h0 := claimSession_fresh store t0 s hs (by intro exp h; rw [hnone] at h; cases h)
  refine ⟨h0.1, h0.2, ?_⟩
  intro ts hts
  have hseq := claimSessionSeq_window (claimSession store t0 s).2 (t0 + sessionTTL) s hs h0.2 ts
    (fun t ht => (hts t ht).2)
  refine ⟨hseq, ?_⟩
  intro t ht
  rw [hseq]
  exact claimSession_fresh _ t s hs (by
    intro exp h
    rw [h0.2] at h
    have : t0 + sessionTTL = exp := by simpa using h
    omega)

/-- Witness of C11: session `abc`, first claimed at instant 5, claimed again at
instants 5, 7 and 600000000004, then at 600000000005. -/
theorem claimSession_window_witness :
    (claimSession (fun _ => none) 5 (B "abc")).1 = false ∧
    (claimSessionSeq (claimSession (fun _ => none) 5 (B "abc")).2 (B "abc")
        [5, 7, 600000000004]).1 = [true, true, true] ∧
    (claimSession (claimSessionSeq (claimSession (fun _ => none) 5 (B "abc")).2 (B "abc")
        [5, 7, 600000000004]).2 600000000005 (B "abc")).1 = false :=
  have h := claimSession_window.2.1 (fun _ => none) (B "abc") 5 (by decide) rfl
  have h2 := h.2.2 [5, 7, 600000000004] (by decide)
  ⟨h.1, by rw [h2.1]; rfl, (h2.2 600000000005 (by decide)).1⟩

/-- C12. After a successful claim of a non-empty session ID at `t0`, a release
by `markSessionDone` at `t1 >= t0` keeps the entry, sets its expiry to
`t1 + sessionTTL`, which is not before the expiry it had, and every claim at an
instant in `[t1, t1 + sessionTTL)` returns true. -/
theorem markSessionDone_extends (store : SessionStore) (s : GoString) (t0 t1 : Int)
    (hs : s ≠ []) (hclaim : (claimSession store t0 s).1 = false) (h01 : t0 ≤ t1) :
    markSessionDone (claimSession store t0 s).2 t1 s s = some (t1 + sessionTTL) ∧
    (∃ before, (claimSession store t0 s).2 s = some before ∧ before ≤ t1 + sessionTTL) ∧
    (∀ t : Int, t1 ≤ t → t < t1 + sessionTTL →
      (claimSession (markSessionDone (claimSession store t0 s).2 t1 s) t s).1 = true) := by
  have hafter : markSessionDone (claimSession store t0 s).2 t1 s s = some (t1 + sessionTTL) := by
    simp [markSessionDone, hs, mapSet]
  have hbefore : (claimSession store t0 s).2 s = some (t0 + sessionTTL) := by
    refine (claimSession_fresh store t0 s hs ?_).2
    intro exp hexp
    by_contra hlt
    have := (claimSession_true_iff store t0 s hs).2 ⟨exp, hexp, by omega⟩
    rw [hclaim] at this
    cases this
  refine ⟨hafter, ⟨t0 + sessionTTL, hbefore, by omega⟩, ?_⟩
  intro t _ ht
  exact (claimSession_true_iff _ t s hs).2 ⟨t1 + sessionTTL, hafter, ht⟩

/-- Witness of C12: claim at instant 0, release at instant 9, claim at 10. -/
theorem markSessionDone_extends_witness :
    markSessionDone (claimSession (fun _ => none) 0 (B "abc")).2 9 (B "abc") (B "abc")
      = some (9 + sessionTTL) ∧
    (claimSession (markSessionDone (claimSession (fun _ => none) 0 (B "abc")).2 9 (B "abc"))
      10 (B "abc")).1 = true :=
  have h := markSessionDone_extends (fun _ => none) (B "abc") 0 9 (by decide) rfl (by decide)
  ⟨h.1, h.2.2 10 (by decide) (by decide)⟩

/-- C13. For every store and every instant, `claimSession("")` returns false
and leaves the store as it is, however often it is called: no entry is made
for the empty ID. -/
theorem claimSession_empty_id (store : SessionStore) :
    (∀ now : Int, claimSession store now [] = (false, store)) ∧
    (∀ ts : List Int,
      claimSessionSeq store [] ts = (List.replicate ts.length false, store)) := by
  refine ⟨fun now => rfl, ?_⟩
  intro ts
  induction ts with
  | nil => rfl
  | cons t ts ih =>
    show ((claimSession store t []).1 :: (claimSessionSeq (claimSession store t []).2 [] ts).1,
      (claimSessionSeq (claimSession store t []).2 [] ts).2) = _
    have h : claimSession store t [] = (false, store) := rfl
    rw [h, ih]
    rfl


/-! ## Go's `strings` functions -/

theorem infix_iff_prefix_drop (sub s : GoString) :
    sub <:+: s ↔ ∃ k, sub <+: s.drop k := by
  constructor
  · rintro ⟨a, b, h⟩
    refine ⟨a.length, b, ?_⟩
    rw [← h, List.append_assoc, List.drop_left]
  · rintro ⟨k, b, h⟩
    refine ⟨s.take k, b, ?_⟩
    rw [List.append_assoc, h, List.take_append_drop]

/-- What `strings.Index` returns: `-1` when there is no instance, and otherwise
the least index at which one starts. -/
theorem indexFrom_spec (sub : GoString) (s : GoString) : ∀ i : Nat,
    (indexFrom sub s i = -1 ∧ ¬ sub <:+: s) ∨
    (∃ k : Nat, indexFrom sub s i = ((i + k : Nat) : Int) ∧ sub <+: s.drop k ∧
      ∀ j, j < k → ¬ sub <+: s.drop j) := by
  induction s with
  | nil =>
    intro i
    by_cases h : sub = []
    · right
      exact ⟨0, by simp [indexFrom, h], by simp [h], fun j hj => absurd hj (Nat.not_lt_zero _)⟩
    · left
      exact ⟨by simp [indexFrom, h], by simpa using h⟩
  | cons c cs ih =>
    intro i
    rw [indexFrom]
    by_cases h : sub <+: c :: cs
    · right
      exact ⟨0, by simp [h], by simpa using h, fun j hj => absurd hj (Nat.not_lt_zero _)⟩
    · rw [if_neg h]
      rcases ih (i + 1) with ⟨h1, h2⟩ | ⟨k, h1, h2, h3⟩
      · left
        refine ⟨h1, ?_⟩
        rw [List.infix_cons_iff]
        rintro (hp | hi)
        · exact h hp
        · exact h2 hi
      · right
        refine ⟨k + 1, ?_, by simpa using h2, ?_⟩
        · rw [h1]; congr 1; omega
        · intro j hj
          cases j with
          | zero => simpa using h
          | succ j => simpa using h3 j (by omega)

/-- What `strings.LastIndex` returns: `-1` when there is no instance, and
otherwise the greatest index at which one starts. -/
theorem lastIndexFrom_spec (sub : GoString) (s : GoString) : ∀ i : Nat,
    (lastIndexFrom sub s i = -1 ∧ ¬ sub <:+: s) ∨
    (∃ k : Nat, lastIndexFrom sub s i = ((i + k : Nat) : Int) ∧ k ≤ s.length ∧
      sub <+: s.drop k ∧ ∀ j, k < j → j ≤ s.length → ¬ sub <+: s.drop j) := by
  induction s with
  | nil =>
    intro i
    by_cases h : sub = []
    · right
      refine ⟨0, by simp [lastIndexFrom, h], le_refl _, by simp [h], ?_⟩
      intro j hj hj2
      simp at hj2
      omega
    · left
      exact ⟨by simp [lastIndexFrom, h], by simpa using h⟩
  | cons c cs ih =>
    intro i
    rw [lastIndexFrom]
    rcases ih (i + 1) with ⟨h1, h2⟩ | ⟨k, h1, hk, h2, h3⟩
    · simp only [h1, ne_eq, not_true_eq_false, if_false]
      by_cases h : sub <+: c :: cs
      · right
        refine ⟨0, by simp [h], Nat.zero_le _, by simpa using h, ?_⟩
        intro j hj _ hp
        cases j with
        | zero => omega
        | succ j =>
          apply h2
          exact (infix_iff_prefix_drop sub cs).2 ⟨j, by simpa using hp⟩
      · left
        refine ⟨by simp [h], ?_⟩
        rw [List.infix_cons_iff]
        rintro (hp | hi)
        · exact h hp
        · exact h2 hi
    · right
      have hne : ¬ ((((i + 1 + k : Nat) : Int)) = -1) := by omega
      refine ⟨k + 1, ?_, by simp; omega, by simpa using h2, ?_⟩
      · simp only [h1, ne_eq, hne, not_false_eq_true, if_true]
        congr 1; omega
      · intro j hj hj2
        cases j with
        | zero => omega
        | succ j =>
          have := h3 j (by omega) (by simpa using hj2)
          simpa using this

theorem stringsIndex_eq_neg_one (s sub : GoString) (h : ¬ sub <:+: s) :
    stringsIndex s sub = -1 := by
  rcases indexFrom_spec sub s 0 with ⟨h1, _⟩ | ⟨k, _, h2, _⟩
  · exact h1
  · exact absurd ((infix_iff_prefix_drop sub s).2 ⟨k, h2⟩) h

theorem stringsLastIndex_eq_neg_one (s sub : GoString) (h : ¬ sub <:+: s) :
    stringsLastIndex s sub = -1 := by
  rcases lastIndexFrom_spec sub s 0 with ⟨h1, _⟩ | ⟨k, _, _, h2, _⟩
  · exact h1
  · exact absurd ((infix_iff_prefix_drop sub s).2 ⟨k, h2⟩) h

theorem stringsHasPrefix_iff (s pre : GoString) :
    stringsHasPrefix s pre = true ↔ pre <+: s := by
  unfold stringsHasPrefix
  rw [Bool.and_eq_true, decide_eq_true_iff, decide_eq_true_iff]
  constructor
  · rintro ⟨_, h⟩
    exact List.prefix_iff_eq_take.2 h.symm
  · intro h
    exact ⟨h.length_le, (List.prefix_iff_eq_take.1 h).symm⟩

/-- For any `strings.TrimSpace`: when the trimmed text starts
with the label, the result is the trimmed remainder after the label;
otherwise it is the trimmed text. -/
theorem sanitizeLabelPrefix_eq (lib : StringsPkg) (text label : GoString) :
    (label <+: lib.TrimSpace text →
      ∃ r, lib.TrimSpace text = label ++ r ∧
        sanitizeLabelPrefix lib text label = lib.TrimSpace r) ∧
    (¬ label <+: lib.TrimSpace text →
      sanitizeLabelPrefix lib text label = lib.TrimSpace text) := by
  constructor
  · rintro ⟨r, hr⟩
    refine ⟨r, hr.symm, ?_⟩
    have hp : stringsHasPrefix (lib.TrimSpace text) label = true :=
      (stringsHasPrefix_iff _ _).2 ⟨r, hr⟩
    simp only [sanitizeLabelPrefix, stringsTrimPrefix, hp, if_true]
    rw [← hr, List.drop_left]
  · intro h
    have hp : stringsHasPrefix (lib.TrimSpace text) label = false := by
      rw [← Bool.not_eq_true, stringsHasPrefix_iff]; exact h
    simp [sanitizeLabelPrefix, hp]


/-! ## Trimming of ASCII white space -/

theorem dropWhile_append_cons {p : Nat → Bool} (c : Nat) (hc : p c = false) (b : GoString) :
    ∀ a : GoString, (a ++ c :: b).dropWhile p = a.dropWhile p ++ c :: b := by
  intro a
  induction a with
  | nil => simp [List.dropWhile_cons, hc]
  | cons x a ih =>
    cases hx : p x with
    | true => simp [List.dropWhile_cons, hx, ih]
    | false => simp [List.dropWhile_cons, hx]

/-- Trimming on the right stops at a byte that is no white space. -/
theorem rtrim_append_cons (w : GoString) (c : Nat) (hc : asciiSpace c = false) (m : GoString) :
    ((w ++ c :: m).reverse.dropWhile asciiSpace).reverse
      = w ++ c :: (m.reverse.dropWhile asciiSpace).reverse := by
  have h : (w ++ c :: m).reverse = m.reverse ++ c :: w.reverse := by simp
  rw [h, dropWhile_append_cons c hc]
  simp

theorem asciiTrimSpace_eq (s : GoString) :
    asciiTrimSpace s = ((s.dropWhile asciiSpace).reverse.dropWhile asciiSpace).reverse := rfl

theorem asciiTrimSpace_cons (c : Nat) (hc : asciiSpace c = false) (m : GoString) :
    asciiTrimSpace (c :: m) = c :: (m.reverse.dropWhile asciiSpace).reverse := by
  rw [asciiTrimSpace_eq, List.dropWhile_cons_of_neg (by simp [hc])]
  exact rtrim_append_cons [] c hc m

theorem asciiTrimSpace_rtrim (n : GoString) :
    asciiTrimSpace (n.reverse.dropWhile asciiSpace).reverse = asciiTrimSpace n := by
  have hsplit := List.takeWhile_append_dropWhile asciiSpace n
  cases hr : n.dropWhile asciiSpace with
  | nil =>
    have hall : ∀ x ∈ n, asciiSpace x = true := by
      simpa using List.dropWhile_eq_nil_iff.1 hr
    have hrev : n.reverse.dropWhile asciiSpace = [] :=
      List.dropWhile_eq_nil_iff.2 (fun x hx => hall x (List.mem_reverse.1 hx))
    rw [hrev, asciiTrimSpace_eq n, hr]
    rfl
  | cons c m =>
    have hc : asciiSpace c = false := by
      have := List.head_dropWhile_not asciiSpace n (by rw [hr]; simp)
      simpa [hr] using this
    rw [hr] at hsplit
    have hn : (n.reverse.dropWhile asciiSpace).reverse
        = n.takeWhile asciiSpace ++ c :: (m.reverse.dropWhile asciiSpace).reverse := by
      conv_lhs => rw [← hsplit]
      exact rtrim_append_cons _ c hc m
    rw [hn, asciiTrimSpace_eq n, hr, asciiTrimSpace_eq,
      List.dropWhile_append_of_pos (fun a ha => (List.mem_takeWhile_imp ha)),
      List.dropWhile_cons_of_neg (by simp [hc])]
    have h1 := rtrim_append_cons [] c hc (m.reverse.dropWhile asciiSpace).reverse
    have h2 := rtrim_append_cons [] c hc m
    simp only [List.nil_append] at h1 h2
    rw [h1, h2]
    simp only [List.reverse_reverse, List.dropWhile_idempotent]

/-- On ASCII text: a label that starts and ends with a byte that is no white
space is stripped, and what is left is the trimmed name. -/
theorem sanitizeLabelPrefix_ascii (c d : Nat) (m name : GoString)
    (hc : asciiSpace c = false) (hd : asciiSpace d = false) :
    sanitizeLabelPrefix asciiStrings (c :: (m ++ d :: name)) (c :: (m ++ [d]))
      = asciiTrimSpace name := by
  have htrim : asciiStrings.TrimSpace (c :: (m ++ d :: name))
      = (c :: (m ++ [d])) ++ (name.reverse.dropWhile asciiSpace).reverse := by
    show asciiTrimSpace (c :: (m ++ d :: name)) = _
    rw [asciiTrimSpace_cons c hc, rtrim_append_cons m d hd]
    simp
  obtain ⟨r, hr, hres⟩ := (sanitizeLabelPrefix_eq asciiStrings (c :: (m ++ d :: name))
    (c :: (m ++ [d]))).1 (by rw [htrim]; exact List.prefix_append _ _)
  rw [hres]
  rw [htrim] at hr
  have : r = (name.reverse.dropWhile asciiSpace).reverse := (List.append_cancel_left hr).symm
  rw [this]
  exact asciiTrimSpace_rtrim name


set_option maxRecDepth 100000

/-! ## Go's `strings.TrimSpace` -/

theorem spaceRunes_prefix_free :
    ∀ e ∈ spaceRunes, ∀ f ∈ spaceRunes, e <+: f → e = f := by decide

theorem spaceRunes_suffix_free :
    ∀ e ∈ spaceRunes, ∀ f ∈ spaceRunes, e <:+ f → e = f := by decide

theorem spaceRunes_no_overlap :
    ∀ e ∈ spaceRunes, ∀ f ∈ spaceRunes, ∀ k, k < f.length → 0 < k → ¬ f.take k <:+ e := by
  decide

theorem spaceRunes_ne_nil : ∀ e ∈ spaceRunes, e ≠ [] := by decide

theorem spaceRunes_plain : ∀ e ∈ spaceRunes, 83 ∉ e ∧ 58 ∉ e := by decide

theorem spaceRunes_length_pos (e : GoString) (he : e ∈ spaceRunes) : 0 < e.length :=
  List.length_pos.2 (spaceRunes_ne_nil e he)

theorem findLeft_some (e s : GoString) (he : e ∈ spaceRunes) (h : e <+: s) :
    spaceRunes.find? (fun e => decide (e <+: s)) = some e := by
  cases hf : spaceRunes.find? (fun e => decide (e <+: s)) with
  | none =>
    have := List.find?_eq_none.1 hf e he
    simp [h] at this
  | some f =>
    have hf1 : f ∈ spaceRunes := List.mem_of_find?_eq_some hf
    have hf2 : f <+: s := by simpa using List.find?_some hf
    rcases List.prefix_or_prefix_of_prefix h hf2 with h3 | h3
    · rw [spaceRunes_prefix_free e he f hf1 h3]
    · rw [spaceRunes_prefix_free f hf1 e he h3]

theorem findRight_some (e s : GoString) (he : e ∈ spaceRunes) (h : e <:+ s) :
    spaceRunes.find? (fun e => decide (e <:+ s)) = some e := by
  cases hf : spaceRunes.find? (fun e => decide (e <:+ s)) with
  | none =>
    have := List.find?_eq_none.1 hf e he
    simp [h] at this
  | some f =>
    have hf1 : f ∈ spaceRunes := List.mem_of_find?_eq_some hf
    have hf2 : f <:+ s := by simpa using List.find?_some hf
    rcases List.suffix_or_suffix_of_suffix h hf2 with h3 | h3
    · rw [spaceRunes_suffix_free e he f hf1 h3]
    · rw [spaceRunes_suffix_free f hf1 e he h3]

theorem findLeft_none (s : GoString) (h : ∀ e ∈ spaceRunes, ¬ e <+: s) :
    spaceRunes.find? (fun e => decide (e <+: s)) = none :=
  List.find?_eq_none.2 (fun e he => by simpa using h e he)

theorem findRight_none (s : GoString) (h : ∀ e ∈ spaceRunes, ¬ e <:+ s) :
    spaceRunes.find? (fun e => decide (e <:+ s)) = none :=
  List.find?_eq_none.2 (fun e he => by simpa using h e he)

theorem trimLeftLoop_none (n : Nat) (s : GoString) (h : ∀ e ∈ spaceRunes, ¬ e <+: s) :
    trimLeftLoop n s = s := by
  cases n with
  | zero => rfl
  | succ n => simp only [trimLeftLoop, findLeft_none s h]

theorem trimRightLoop_none (n : Nat) (s : GoString) (h : ∀ e ∈ spaceRunes, ¬ e <:+ s) :
    trimRightLoop n s = s := by
  cases n with
  | zero => rfl
  | succ n => simp only [trimRightLoop, findRight_none s h]

theorem no_spaceRune_nil_left : ∀ e ∈ spaceRunes, ¬ e <+: ([] : GoString) :=
  fun e he h => spaceRunes_ne_nil e he (List.prefix_nil.1 h)

theorem no_spaceRune_nil_right : ∀ e ∈ spaceRunes, ¬ e <:+ ([] : GoString) :=
  fun e he h => spaceRunes_ne_nil e he (List.suffix_nil.1 h)

theorem trimLeftLoop_fuel : ∀ (n m : Nat) (s : GoString), s.length ≤ n → s.length ≤ m →
    trimLeftLoop n s = trimLeftLoop m s := by
  intro n
  induction n with
  | zero =>
    intro m s hn hm
    have : s = [] := List.length_eq_zero.1 (by omega)
    subst this
    rw [trimLeftLoop_none _ _ no_spaceRune_nil_left, trimLeftLoop_none _ _ no_spaceRune_nil_left]
  | succ n ih =>
    intro m s hn hm
    cases m with
    | zero =>
      have : s = [] := List.length_eq_zero.1 (by omega)
      subst this
      rw [trimLeftLoop_none _ _ no_spaceRune_nil_left,
        trimLeftLoop_none _ _ no_spaceRune_nil_left]
    | succ m =>
      simp only [trimLeftLoop]
      cases hf : spaceRunes.find? (fun e => decide (e <+: s)) with
      | none => rfl
      | some e =>
        have he := spaceRunes_length_pos e (List.mem_of_find?_eq_some hf)
        have hp : e <+: s := by simpa using List.find?_some hf
        have hl := hp.length_le
        simp only []
        apply ih <;> rw [List.length_drop] <;> omega

theorem trimRightLoop_fuel : ∀ (n m : Nat) (s : GoString), s.length ≤ n → s.length ≤ m →
    trimRightLoop n s = trimRightLoop m s := by
  intro n
  induction n with
  | zero =>
    intro m s hn hm
    have : s = [] := List.length_eq_zero.1 (by omega)
    subst this
    rw [trimRightLoop_none _ _ no_spaceRune_nil_right,
      trimRightLoop_none _ _ no_spaceRune_nil_right]
  | succ n ih =>
    intro m s hn hm
    cases m with
    | zero =>
      have : s = [] := List.length_eq_zero.1 (by omega)
      subst this
      rw [trimRightLoop_none _ _ no_spaceRune_nil_right,
        trimRightLoop_none _ _ no_spaceRune_nil_right]
    | succ m =>
      simp only [trimRightLoop]
      cases hf : spaceRunes.find? (fun e => decide (e <:+ s)) with
      | none => rfl
      | some e =>
        have he := spaceRunes_length_pos e (List.mem_of_find?_eq_some hf)
        have hp : e <:+ s := by simpa using List.find?_some hf
        have hl := hp.length_le
        simp only []
        apply ih <;> rw [List.length_take] <;> omega

/-- Without white-space rune at its start a text is left as it is. -/
theorem trimLeft_none (s : GoString) (h : ∀ e ∈ spaceRunes, ¬ e <+: s) :
    stringsTrimLeftSpace s = s := trimLeftLoop_none _ s h

/-- A white-space rune at the start is removed, and the rest trimmed. -/
theorem trimLeft_append (e t : GoString) (he : e ∈ spaceRunes) :
    stringsTrimLeftSpace (e ++ t) = stringsTrimLeftSpace t := by
  have hpos := spaceRunes_length_pos e he
  unfold stringsTrimLeftSpace
  have hlen : (e ++ t).length = (e.length + t.length - 1) + 1 := by
    rw [List.length_append]; omega
  rw [hlen]
  simp only [trimLeftLoop, findLeft_some e (e ++ t) he (List.prefix_append _ _),
    List.drop_left]
  exact trimLeftLoop_fuel _ _ _ (by omega) (le_refl _)

theorem trimRight_none (s : GoString) (h : ∀ e ∈ spaceRunes, ¬ e <:+ s) :
    stringsTrimRightSpace s = s := trimRightLoop_none _ s h

/-- A white-space rune at the end is removed, and the rest trimmed. -/
theorem trimRight_append (t e : GoString) (he : e ∈ spaceRunes) :
    stringsTrimRightSpace (t ++ e) = stringsTrimRightSpace t := by
  have hpos := spaceRunes_length_pos e he
  unfold stringsTrimRightSpace
  have hlen : (t ++ e).length = (t.length + e.length - 1) + 1 := by
    rw [List.length_append]; omega
  have htake : (t ++ e).take ((t ++ e).length - e.length) = t := by
    rw [List.length_append, Nat.add_sub_cancel, List.take_left]
  rw [hlen]
  simp only [trimRightLoop, findRight_some e (t ++ e) he (List.suffix_append _ _)]
  rw [htake]
  exact trimRightLoop_fuel _ _ _ (by omega) (le_refl _)

theorem trimLeft_nil : stringsTrimLeftSpace [] = [] := rfl

theorem trimRight_nil : stringsTrimRightSpace [] = [] := rfl

/-- A text starts with a white-space rune or it does not. -/
theorem left_cases (s : GoString) :
    (∀ e ∈ spaceRunes, ¬ e <+: s) ∨ ∃ e ∈ spaceRunes, ∃ t, s = e ++ t := by
  by_cases h : ∀ e ∈ spaceRunes, ¬ e <+: s
  · exact Or.inl h
  · right
    push_neg at h
    obtain ⟨e, he, t, ht⟩ := h
    exact ⟨e, he, t, ht.symm⟩

theorem right_cases (s : GoString) :
    (∀ e ∈ spaceRunes, ¬ e <:+ s) ∨ ∃ e ∈ spaceRunes, ∃ t, s = t ++ e := by
  by_cases h : ∀ e ∈ spaceRunes, ¬ e <:+ s
  · exact Or.inl h
  · right
    push_neg at h
    obtain ⟨e, he, t, ht⟩ := h
    exact ⟨e, he, t, ht.symm⟩

/-- What trimming on the left returns is an end piece of the text. -/
theorem trimLeft_suffix : ∀ (n : Nat) (s : GoString), s.length = n →
    stringsTrimLeftSpace s <:+ s := by
  intro n
  induction n using Nat.strong_induction_on with
  | _ n ih =>
    intro s hs
    rcases left_cases s with h | ⟨e, he, t, ht⟩
    · rw [trimLeft_none s h]
    · have hpos := spaceRunes_length_pos e he
      subst ht
      rw [trimLeft_append e t he]
      rw [List.length_append] at hs
      exact (ih t.length (by omega) t rfl).trans (List.suffix_append _ _)

/-- What trimming on the right returns is a start piece of the text. -/
theorem trimRight_isPrefix : ∀ (n : Nat) (s : GoString), s.length = n →
    stringsTrimRightSpace s <+: s := by
  intro n
  induction n using Nat.strong_induction_on with
  | _ n ih =>
    intro s hs
    rcases right_cases s with h | ⟨e, he, t, ht⟩
    · rw [trimRight_none s h]
    · have hpos := spaceRunes_length_pos e he
      subst ht
      rw [trimRight_append t e he]
      rw [List.length_append] at hs
      exact (ih t.length (by omega) t rfl).trans (List.prefix_append _ _)

/-- After trimming on the right no white-space rune ends the text. -/
theorem trimRight_no_space : ∀ (n : Nat) (s : GoString), s.length = n →
    ∀ e ∈ spaceRunes, ¬ e <:+ stringsTrimRightSpace s := by
  intro n
  induction n using Nat.strong_induction_on with
  | _ n ih =>
    intro s hs
    rcases right_cases s with h | ⟨e, he, t, ht⟩
    · rw [trimRight_none s h]; exact h
    · have hpos := spaceRunes_length_pos e he
      subst ht
      rw [trimRight_append t e he]
      rw [List.length_append] at hs
      exact ih t.length (by omega) t rfl

theorem trimRight_idem (s : GoString) :
    stringsTrimRightSpace (stringsTrimRightSpace s) = stringsTrimRightSpace s :=
  trimRight_none _ (trimRight_no_space _ s rfl)

/-- Trimming on the left and trimming on the right can be done in either order. -/
theorem trimLeft_trimRight_comm : ∀ (n : Nat) (s : GoString), s.length = n →
    stringsTrimLeftSpace (stringsTrimRightSpace s)
      = stringsTrimRightSpace (stringsTrimLeftSpace s) := by
  intro n
  induction n using Nat.strong_induction_on with
  | _ n ih =>
    intro s hs
    rcases left_cases s with hl | ⟨e, he, t, ht⟩
    · rw [trimLeft_none s hl]
      exact trimLeft_none _ (fun f hf hp => hl f hf (hp.trans (trimRight_isPrefix _ s rfl)))
    · have hepos := spaceRunes_length_pos e he
      rcases right_cases s with hr | ⟨f, hf, u, hu⟩
      · rw [trimRight_none s hr, ht, trimLeft_append e t he]
        symm
        apply trimRight_none
        intro g hg hs2
        apply hr g hg
        rw [ht]
        exact (hs2.trans (trimLeft_suffix _ t rfl)).trans (List.suffix_append _ _)
      · have hfpos := spaceRunes_length_pos f hf
        by_cases hlen : f.length ≤ t.length
        · -- the rune at the end lies within `t`
          have hft : f <:+ t := by
            have h1 : f <:+ e ++ t := by rw [← ht, hu]; exact List.suffix_append _ _
            exact List.suffix_of_suffix_length_le h1 (List.suffix_append _ _) hlen
          obtain ⟨v, hv⟩ := hft
          have hu2 : u = e ++ v := by
            have : u ++ f = (e ++ v) ++ f := by
              rw [← hu, ht, ← hv, List.append_assoc]
            exact List.append_cancel_right this
          have hslen : s.length = e.length + (v.length + f.length) := by
            rw [ht, ← hv]; simp
          have ih1 := ih (e ++ v).length (by rw [List.length_append]; omega) (e ++ v) rfl
          have ih2 := ih (v ++ f).length (by rw [List.length_append]; omega) (v ++ f) rfl
          have ih3 := ih v.length (by omega) v rfl
          rw [trimLeft_append e v he] at ih1
          rw [trimRight_append v f hf] at ih2
          rw [hu, trimRight_append u f hf, hu2, ih1, ← ih3, ih2]
          have : e ++ v ++ f = e ++ (v ++ f) := List.append_assoc _ _ _
          rw [this, trimLeft_append e (v ++ f) he]
        · -- the rune at the end reaches into `e`
          have hlen2 : t.length < f.length := Nat.lt_of_not_le hlen
          have h1 : f <:+ e ++ t := by rw [← ht, hu]; exact List.suffix_append _ _
          have htf : t <:+ f :=
            List.suffix_of_suffix_length_le (List.suffix_append _ _) h1 (Nat.le_of_lt hlen2)
          obtain ⟨g, hg⟩ := htf
          have hge : g <:+ e := by
            obtain ⟨w, hw⟩ := h1
            have : w ++ g ++ t = e ++ t := by rw [List.append_assoc, hg, hw]
            exact ⟨w, List.append_cancel_right this⟩
          have hglen : g.length + t.length = f.length := by
            rw [← hg, List.length_append]
          cases t with
          | nil =>
            have hgf : g = f := by simpa using hg
            rw [hgf] at hge
            have hfe : f = e := spaceRunes_suffix_free f hf e he hge
            have hse : s = e := by rw [ht]; simp
            have h2 := trimRight_append [] e he
            have h3 := trimLeft_append e [] he
            simp only [List.nil_append, List.append_nil] at h2 h3
            rw [hse, h2, h3]
            rfl
          | cons c t =>
            exfalso
            have hk : f.take g.length = g := by rw [← hg, List.take_left]
            apply spaceRunes_no_overlap e he f hf g.length
            · simp only [List.length_cons] at hglen; omega
            · simp only [List.length_cons] at hglen hlen2; omega
            · rw [hk]; exact hge

/-- Trimming what is left after trimming on the right is trimming. -/
theorem stringsTrimSpace_trimRight (s : GoString) :
    stringsTrimSpace (stringsTrimRightSpace s) = stringsTrimSpace s := by
  unfold stringsTrimSpace
  rw [trimLeft_trimRight_comm _ s rfl, trimRight_idem]

/-- Trimming on the right stops at a byte that is part of no white-space rune. -/
theorem trimRight_plain (w : GoString) (d : Nat) (hd : ∀ e ∈ spaceRunes, d ∉ e) :
    ∀ (n : Nat) (x : GoString), x.length = n →
    stringsTrimRightSpace (w ++ d :: x) = w ++ d :: stringsTrimRightSpace x := by
  intro n
  induction n using Nat.strong_induction_on with
  | _ n ih =>
    intro x hx
    rcases right_cases x with h | ⟨e, he, t, ht⟩
    · rw [trimRight_none x h]
      apply trimRight_none
      intro f hf hs
      by_cases hlen : f.length ≤ x.length
      · have hx2 : x <:+ w ++ d :: x := ⟨w ++ [d], by simp⟩
        exact h f hf (List.suffix_of_suffix_length_le hs hx2 hlen)
      · have hdx : d :: x <:+ w ++ d :: x := List.suffix_append _ _
        have : d :: x <:+ f :=
          List.suffix_of_suffix_length_le hdx hs (by simp only [List.length_cons]; omega)
        exact hd f hf (this.subset (List.mem_cons_self _ _))
    · have hpos := spaceRunes_length_pos e he
      subst ht
      rw [trimRight_append t e he]
      have : w ++ d :: (t ++ e) = (w ++ d :: t) ++ e := by simp
      rw [this, trimRight_append _ e he]
      rw [List.length_append] at hx
      exact ih t.length (by omega) t rfl

/-- The label `Speaker:` in front of a name: only the end of the name is
trimmed. -/
theorem stringsTrimSpace_speaker (name : GoString) :
    stringsTrimSpace (B "Speaker:" ++ name) = B "Speaker:" ++ stringsTrimRightSpace name := by
  have hlabel : B "Speaker:" = [83, 112, 101, 97, 107, 101, 114] ++ [58] := by decide
  unfold stringsTrimSpace
  rw [trimLeft_none]
  · rw [hlabel, List.append_assoc, List.singleton_append]
    rw [trimRight_plain _ 58 (fun e he => (spaceRunes_plain e he).2) _ name rfl]
    simp
  · intro e he hp
    have h83 : (83 : Nat) ∈ e := by
      cases e with
      | nil => exact absurd rfl (spaceRunes_ne_nil [] he)
      | cons c e =>
        have hl : B "Speaker:" ++ name = 83 :: (B "peaker:" ++ name) := by
          have : B "Speaker:" = 83 :: B "peaker:" := by decide
          rw [this]; rfl
        rw [hl] at hp
        have := (List.cons_prefix_cons.1 hp).1
        rw [this]; exact List.mem_cons_self _ _
    exact (spaceRunes_plain e he).1 h83

/-- After trimming on the left no white-space rune starts the text. -/
theorem trimLeft_no_space : ∀ (n : Nat) (s : GoString), s.length = n →
    ∀ e ∈ spaceRunes, ¬ e <+: stringsTrimLeftSpace s := by
  intro n
  induction n using Nat.strong_induction_on with
  | _ n ih =>
    intro s hs
    rcases left_cases s with h | ⟨e, he, t, ht⟩
    · rw [trimLeft_none s h]; exact h
    · have hpos := spaceRunes_length_pos e he
      subst ht
      rw [trimLeft_append e t he]
      rw [List.length_append] at hs
      exact ih t.length (by omega) t rfl

theorem trimLeft_idem (s : GoString) :
    stringsTrimLeftSpace (stringsTrimLeftSpace s) = stringsTrimLeftSpace s :=
  trimLeft_none _ (trimLeft_no_space _ s rfl)

/-- What `strings.TrimSpace` returns is a piece of its argument. -/
theorem stringsTrimSpace_piece (s : GoString) : stringsTrimSpace s <:+: s :=
  (trimRight_isPrefix _ _ rfl).isInfix.trans (trimLeft_suffix _ s rfl).isInfix

/-- Trimming twice is trimming once. -/
theorem stringsTrimSpace_idem (s : GoString) :
    stringsTrimSpace (stringsTrimSpace s) = stringsTrimSpace s := by
  unfold stringsTrimSpace
  rw [trimLeft_trimRight_comm _ (stringsTrimLeftSpace s) rfl, trimLeft_idem, trimRight_idem]

/-- With Go's `strings.TrimSpace`: the label `Speaker:` in front of a name is
stripped, and what is left is the trimmed name. -/
theorem sanitizeLabelPrefix_speaker (lib : StringsPkg) (hlib : lib.TrimSpace = stringsTrimSpace)
    (name : GoString) :
    sanitizeLabelPrefix lib (B "Speaker:" ++ name) (B "Speaker:") = stringsTrimSpace name := by
  have htrim : lib.TrimSpace (B "Speaker:" ++ name)
      = B "Speaker:" ++ stringsTrimRightSpace name := by
    rw [hlib]; exact stringsTrimSpace_speaker name
  obtain ⟨r, hr, hres⟩ := (sanitizeLabelPrefix_eq lib (B "Speaker:" ++ name) (B "Speaker:")).1
    (by rw [htrim]; exact List.prefix_append _ _)
  rw [hres]
  rw [htrim] at hr
  have : r = stringsTrimRightSpace name := (List.append_cancel_left hr).symm
  rw [this, hlib]
  exact stringsTrimSpace_trimRight name


/-! ## The response sanitizer -/

/-- The loop over `rest` returns the first double quote that qualifies; `i` and
`prev` are the index reached and the byte before it. -/
theorem closingQuote_spec (rest : GoString) : ∀ (i prev : Nat),
    match closingQuote rest i prev with
    | some k => ∃ idx, k = i + idx ∧
        (rest[idx]? = some 34 ∧ ¬ (0 < i + idx ∧ (prev :: rest)[idx]? = some 92)) ∧
        ∀ j, j < idx →
          ¬ (rest[j]? = some 34 ∧ ¬ (0 < i + j ∧ (prev :: rest)[j]? = some 92))
    | none => ∀ idx,
        ¬ (rest[idx]? = some 34 ∧ ¬ (0 < i + idx ∧ (prev :: rest)[idx]? = some 92)) := by
  induction rest with
  | nil => intro i prev; simp [closingQuote]
  | cons c tail ih =>
    intro i prev
    rw [closingQuote]
    by_cases hq : c = 34 ∧ ¬ (0 < i ∧ prev = 92)
    · rw [if_pos hq.1, if_neg hq.2]
      refine ⟨0, rfl, ⟨by simp [hq.1], by simpa using hq.2⟩, fun j hj => absurd hj (Nat.not_lt_zero _)⟩
    · have hstep : (if c = 34 then
            if 0 < i ∧ prev = 92 then closingQuote tail (i + 1) c else some i
          else closingQuote tail (i + 1) c) = closingQuote tail (i + 1) c := by
        by_cases hc : c = 34
        · rw [if_pos hc, if_pos (by_contra fun h => hq ⟨hc, h⟩)]
        · rw [if_neg hc]
      rw [hstep]
      have h0 : ¬ ((c :: tail)[0]? = some 34 ∧ ¬ (0 < i + 0 ∧ (prev :: c :: tail)[0]? = some 92)) := by
        simpa using hq
      have hsucc : ∀ idx, ((c :: tail)[idx + 1]? = some 34 ∧
          ¬ (0 < i + (idx + 1) ∧ (prev :: c :: tail)[idx + 1]? = some 92)) ↔
          (tail[idx]? = some 34 ∧ ¬ (0 < i + 1 + idx ∧ (c :: tail)[idx]? = some 92)) := by
        intro idx
        simp only [List.getElem?_cons_succ]
        have : i + (idx + 1) = i + 1 + idx := by omega
        rw [this]
      have key := ih (i + 1) c
      revert key
      cases closingQuote tail (i + 1) c with
      | none =>
        intro key idx
        cases idx with
        | zero => exact h0
        | succ idx => rw [hsucc]; exact key idx
      | some k =>
        rintro ⟨idx, hk, hidx, hmin⟩
        refine ⟨idx + 1, by omega, (hsucc idx).2 hidx, ?_⟩
        intro j hj
        cases j with
        | zero => exact h0
        | succ j => rw [hsucc]; exact hmin j (by omega)

theorem closingQuote_top (rest : GoString) :
    match closingQuote rest 0 0 with
    | some k => specQuoteEnds rest k ∧ ∀ j, j < k → ¬ specQuoteEnds rest j
    | none => ∀ idx, ¬ specQuoteEnds rest idx := by
  have hiff : ∀ idx, (rest[idx]? = some 34 ∧ ¬ (0 < 0 + idx ∧ (0 :: rest)[idx]? = some 92))
      ↔ specQuoteEnds rest idx := by
    intro idx
    unfold specQuoteEnds
    cases idx with
    | zero => simp
    | succ idx => simp
  have key := closingQuote_spec rest 0 0
  revert key
  cases closingQuote rest 0 0 with
  | none => intro key idx; rw [← hiff]; exact key idx
  | some k =>
    rintro ⟨idx, hk, hidx, hmin⟩
    have : k = idx := by omega
    subst this
    exact ⟨(hiff _).1 hidx, fun j hj => by rw [← hiff]; exact hmin j hj⟩

theorem stringsLastIndex_of_last (text a pat rest : GoString) (htext : text = a ++ pat ++ rest)
    (hlast : ∀ j, a.length < j → j ≤ text.length → ¬ pat <+: text.drop j) :
    stringsLastIndex text pat = (a.length : Int) := by
  have hocc : pat <+: text.drop a.length := by
    rw [htext, List.append_assoc, List.drop_left]; exact List.prefix_append _ _
  rcases lastIndexFrom_spec pat text 0 with ⟨_, h2⟩ | ⟨k, h1, hk, h2, h3⟩
  · exact absurd ((infix_iff_prefix_drop pat text).2 ⟨_, hocc⟩) h2
  · have hle : a.length ≤ text.length := by rw [htext]; simp
    have : k = a.length := by
      rcases Nat.lt_trichotomy k a.length with h | h | h
      · exact absurd hocc (h3 _ h hle)
      · exact h
      · exact absurd h2 (hlast _ h hk)
    rw [stringsLastIndex, h1, this]; simp

/-- An unescaped pattern yields the specified value, when there is one. -/
theorem tryEmbeddedPattern_of_spec (lib : StringsPkg) (text pat v : GoString)
    (h : specEmbedded text pat v) :
    tryEmbeddedPattern lib text (pat, false) = some (lib.TrimSpace v) := by
  obtain ⟨a, rest, htext, hlast, hq, hmin, hv⟩ := h
  have hidx := stringsLastIndex_of_last text a pat rest htext hlast
  have hne : ¬ ((a.length : Int) = -1) := by omega
  have hdrop : text.drop (a.length + pat.length) = rest := by
    rw [htext, ← List.length_append, List.drop_left]
  simp only [tryEmbeddedPattern, hidx, hne, if_false, Int.toNat_ofNat, hdrop,
    Bool.false_eq_true]
  have key := closingQuote_top rest
  revert key
  cases closingQuote rest 0 0 with
  | none => intro key; exact absurd hq (key _)
  | some k =>
    rintro ⟨hk, hkmin⟩
    have : k = v.length := by
      rcases Nat.lt_trichotomy k v.length with h | h | h
      · exact absurd hk (hmin _ h)
      · exact h
      · exact absurd hq (hkmin _ h)
    subst this
    simp only []
    rw [← hv]

/-- An unescaped pattern that yields a value yields a specified one. -/
theorem tryEmbeddedPattern_some (lib : StringsPkg) (text pat r : GoString)
    (h : tryEmbeddedPattern lib text (pat, false) = some r) :
    ∃ v, specEmbedded text pat v := by
  unfold tryEmbeddedPattern at h
  simp only [Bool.false_eq_true, if_false] at h
  rcases lastIndexFrom_spec pat text 0 with ⟨h1, _⟩ | ⟨k, h1, hk, h2, h3⟩
  · rw [stringsLastIndex, h1] at h; simp at h
  · rw [stringsLastIndex, h1] at h
    have hne : ¬ (((0 + k : Nat) : Int) = -1) := by omega
    simp only [hne, if_false, Int.toNat_ofNat, Nat.zero_add] at h
    have key := closingQuote_top (text.drop (k + pat.length))
    revert key h
    cases closingQuote (text.drop (k + pat.length)) 0 0 with
    | none => intro h; simp at h
    | some i =>
      intro _ ⟨hi, himin⟩
      obtain ⟨b, hb⟩ := h2
      have hlt : i < (text.drop (k + pat.length)).length := by
        have := hi.1
        by_contra hge
        rw [List.getElem?_eq_none (by omega)] at this
        cases this
      refine ⟨(text.drop (k + pat.length)).take i, text.take k, text.drop (k + pat.length),
        ?_, ?_, ?_, ?_, ?_⟩
      · have h1 : text = text.take k ++ text.drop k := (List.take_append_drop k text).symm
        have h2 : text.drop k = pat ++ text.drop (k + pat.length) := by
          rw [← List.drop_drop, ← hb, List.drop_left]
        rw [List.append_assoc, ← h2, ← h1]
      · intro j hj hj2
        have : (text.take k).length = k := by simp; omega
        rw [this] at hj
        exact h3 j hj hj2
      · have : ((text.drop (k + pat.length)).take i).length = i := by
          rw [List.length_take]; omega
        rw [this]; exact hi
      · intro j hj
        have : ((text.drop (k + pat.length)).take i).length = i := by
          rw [List.length_take]; omega
        rw [this] at hj
        exact himin j hj
      · have : ((text.drop (k + pat.length)).take i).length = i := by
          rw [List.length_take]; omega
        rw [this]

/-- The embedded value of a key is what `extractEmbeddedJSONValue` returns. -/
theorem extractEmbeddedJSONValue_of_spec (lib : StringsPkg) (text key v : GoString)
    (h : specPreferred text key v) :
    extractEmbeddedJSONValue lib text key = (lib.TrimSpace v, true) := by
  unfold extractEmbeddedJSONValue embeddedPatterns
  rcases h with h | ⟨hno, h⟩
  · simp only [List.findSome?_cons, tryEmbeddedPattern_of_spec lib text _ v h]
  · have h1 : tryEmbeddedPattern lib text (B "\"" ++ key ++ B "\":\"", false) = none := by
      cases hc : tryEmbeddedPattern lib text (B "\"" ++ key ++ B "\":\"", false) with
      | none => rfl
      | some r => exact absurd (tryEmbeddedPattern_some lib text _ r hc) hno
    simp only [List.findSome?_cons, h1, tryEmbeddedPattern_of_spec lib text _ v h]

/-- The fields of `sanitizeStructuredQuote(q)`: each is the embedded value of
its key, when `raw` has one, and the field of `q` otherwise, passed through the
later steps. -/
theorem sanitizeStructuredQuote_fields (lib : StringsPkg) (q : StructuredQuote) :
    (sanitizeStructuredQuote lib q).Speaker
      = sanitizeLabelPrefix lib
          (if (extractEmbeddedJSONValue lib (rawOf q) (B "speaker")).2
            then (extractEmbeddedJSONValue lib (rawOf q) (B "speaker")).1 else q.Speaker)
          (B "Speaker:") ∧
    (sanitizeStructuredQuote lib q).Title
      = sanitizeBetweenLabels lib (trimAtJSONKey lib
          (if (extractEmbeddedJSONValue lib (rawOf q) (B "title")).2
            then (extractEmbeddedJSONValue lib (rawOf q) (B "title")).1 else q.Title)
          [B "conference", B "quote", B "headshot"]) (B "Title:")
          [B "Conference:", B "Quote:", B "Headshot:"] ∧
    (sanitizeStructuredQuote lib q).Conference
      = sanitizeBetweenLabels lib (trimAtJSONKey lib
          (if (extractEmbeddedJSONValue lib (rawOf q) (B "conference")).2
            then (extractEmbeddedJSONValue lib (rawOf q) (B "conference")).1 else q.Conference)
          [B "quote", B "headshot", B "title"]) (B "Conference:")
          [B "Quote:", B "Headshot:"] ∧
    (sanitizeStructuredQuote lib q).Quote
      = sanitizeQuoteText lib
          (if (extractEmbeddedJSONValue lib (rawOf q) (B "quote")).2
            then (extractEmbeddedJSONValue lib (rawOf q) (B "quote")).1 else q.Quote) ∧
    (sanitizeStructuredQuote lib q).Headshot
      = sanitizeLabelPrefix lib (trimAtJSONKey lib
          (if (extractEmbeddedJSONValue lib (rawOf q) (B "headshot")).2
            then (extractEmbeddedJSONValue lib (rawOf q) (B "headshot")).1 else q.Headshot)
          [B "conference", B "quote", B "title"]) (B "Headshot:") := by
  unfold sanitizeStructuredQuote rawOf
  simp only []
  cases (extractEmbeddedJSONValue lib
      (stringsJoin [q.Speaker, q.Title, q.Conference, q.Quote, q.Headshot] (B " "))
      (B "speaker")).2 <;>
  cases (extractEmbeddedJSONValue lib
      (stringsJoin [q.Speaker, q.Title, q.Conference, q.Quote, q.Headshot] (B " "))
      (B "title")).2 <;>
  cases (extractEmbeddedJSONValue lib
      (stringsJoin [q.Speaker, q.Title, q.Conference, q.Quote, q.Headshot] (B " "))
      (B "conference")).2 <;>
  cases (extractEmbeddedJSONValue lib
      (stringsJoin [q.Speaker, q.Title, q.Conference, q.Quote, q.Headshot] (B " "))
      (B "quote")).2 <;>
  cases (extractEmbeddedJSONValue lib
      (stringsJoin [q.Speaker, q.Title, q.Conference, q.Quote, q.Headshot] (B " "))
      (B "headshot")).2 <;>
  simp


theorem tryEmbeddedPattern_no_quote (lib : StringsPkg) (text : GoString) (h : 34 ∉ text)
    (pattern : GoString × Bool) (hp : 34 ∈ pattern.1) :
    tryEmbeddedPattern lib text pattern = none := by
  have hidx : stringsLastIndex text pattern.1 = -1 :=
    stringsLastIndex_eq_neg_one _ _ (fun hi => h (hi.mem hp))
  simp [tryEmbeddedPattern, hidx]

/-- A text without double quote has no embedded value. -/
theorem extractEmbeddedJSONValue_no_quote (lib : StringsPkg) (text key : GoString)
    (h : 34 ∉ text) : extractEmbeddedJSONValue lib text key = ([], false) := by
  have hq : (34 : Nat) ∈ B "\"" := by decide
  have hq2 : (34 : Nat) ∈ B "\\\\\"" := by decide
  unfold extractEmbeddedJSONValue embeddedPatterns
  simp only [List.findSome?_cons, List.findSome?_nil]
  rw [tryEmbeddedPattern_no_quote lib text h _
      (List.mem_append_left _ (List.mem_append_left _ hq)),
    tryEmbeddedPattern_no_quote lib text h _
      (List.mem_append_left _ (List.mem_append_left _ hq)),
    tryEmbeddedPattern_no_quote lib text h _
      (List.mem_append_left _ (List.mem_append_left _ hq2)),
    tryEmbeddedPattern_no_quote lib text h _
      (List.mem_append_left _ (List.mem_append_left _ hq2))]

theorem rawOf_eq (q : StructuredQuote) :
    rawOf q = q.Speaker ++ [32] ++ q.Title ++ [32] ++ q.Conference ++ [32] ++ q.Quote ++ [32]
      ++ q.Headshot := by
  have h32 : B " " = [32] := by decide
  simp [rawOf, stringsJoin, h32]

/-- A text without double quote holds none of the patterns of `trimAtJSONKey`. -/
theorem trimAtFirstPattern_plain (c key : GoString) (h : 34 ∉ c) :
    trimAtFirstPattern c (trimPatterns key) = c := by
  have hq : (34 : Nat) ∈ B "\", \"" := by decide
  have hq2 : (34 : Nat) ∈ B "\"" := by decide
  have hq3 : (34 : Nat) ∈ B "\", \\\"" := by decide
  have hno : ∀ p : GoString, 34 ∈ p → stringsIndex c p = -1 :=
    fun p hp => stringsIndex_eq_neg_one _ _ (fun hi => h (hi.mem hp))
  simp only [trimPatterns, trimAtFirstPattern]
  rw [hno _ (List.mem_append_left _ (List.mem_append_left _ hq)),
    hno _ (List.mem_append_left _ (List.mem_append_left _ hq)),
    hno _ (List.mem_append_left _ (List.mem_append_left _ hq2)),
    hno _ (List.mem_append_left _ (List.mem_append_left _ hq3)),
    hno _ (List.mem_append_left _ (List.mem_append_left _ hq3))]
  simp

/-- On a trimmed text without double quote `trimAtJSONKey` changes nothing. -/
theorem trimAtJSONKey_plain (lib : StringsPkg) (t : GoString) (keys : List GoString)
    (ht : lib.TrimSpace t = t) (h : 34 ∉ t) : trimAtJSONKey lib t keys = t := by
  have hfold : ∀ ks : List GoString,
      ks.foldl (fun cleaned key => trimAtFirstPattern cleaned (trimPatterns key)) t = t := by
    intro ks
    induction ks with
    | nil => rfl
    | cons k ks ih => rw [List.foldl_cons, trimAtFirstPattern_plain t k h, ih]
  have hsuf : stringsTrimSuffix t (B "\"") = t := by
    unfold stringsTrimSuffix
    cases hs : stringsHasSuffix t (B "\"") with
    | false => simp
    | true =>
      exfalso
      unfold stringsHasSuffix at hs
      rw [Bool.and_eq_true, decide_eq_true_iff, decide_eq_true_iff] at hs
      have hm : (34 : Nat) ∈ t.drop (t.length - (B "\"").length) := by
        rw [hs.2]; decide
      exact h (List.mem_of_mem_drop hm)
  simp only [trimAtJSONKey, ht, hfold, hsuf]

/-- On a trimmed text that holds neither the label nor a stop label
`sanitizeBetweenLabels` changes nothing. -/
theorem sanitizeBetweenLabels_plain (lib : StringsPkg) (t primary : GoString)
    (stops : List GoString) (ht : lib.TrimSpace t = t) (hp : ¬ primary <:+: t)
    (hs : ∀ st ∈ stops, ¬ st <:+: t) : sanitizeBetweenLabels lib t primary stops = t := by
  have hfold : ∀ ss : List GoString, (∀ st ∈ ss, ¬ st <:+: t) →
      ss.foldl (fun cleaned stop =>
        let idx := stringsIndex cleaned stop
        if idx ≠ -1 then cleaned.take idx.toNat else cleaned) t = t := by
    intro ss
    induction ss with
    | nil => intro _; rfl
    | cons st ss ih =>
      intro hss
      rw [List.foldl_cons]
      simp only [stringsIndex_eq_neg_one t st (hss st (List.mem_cons_self _ _)), ne_eq,
        not_true_eq_false, if_false]
      exact ih (fun x hx => hss x (List.mem_cons_of_mem _ hx))
  simp only [sanitizeBetweenLabels, ht, stringsLastIndex_eq_neg_one t primary hp, ne_eq,
    not_true_eq_false, if_false, hfold stops hs]

/-- On a trimmed text without double quote and without the labels `Quote:` and
`Headshot:`, `sanitizeQuoteText` changes nothing. -/
theorem sanitizeQuoteText_plain (lib : StringsPkg) (t : GoString) (ht : lib.TrimSpace t = t)
    (h : 34 ∉ t) (h1 : ¬ B "Quote:" <:+: t) (h2 : ¬ B "Headshot:" <:+: t) :
    sanitizeQuoteText lib t = t := by
  simp only [sanitizeQuoteText, ht, extractEmbeddedJSONValue_no_quote lib t _ h,
    stringsLastIndex_eq_neg_one t _ h1, stringsIndex_eq_neg_one t _ h2, ne_eq,
    not_true_eq_false, if_false, Bool.false_eq_true]

/-- An embedded value that, trimmed, holds no double quote and no label is the
field of the result. -/
theorem sanitizeStructuredQuote_plain (lib : StringsPkg)
    (hidem : ∀ s, lib.TrimSpace (lib.TrimSpace s) = lib.TrimSpace s)
    (q : StructuredQuote) (v : GoString) (hv : specPlainValue (lib.TrimSpace v)) :
    (specPreferred (rawOf q) (B "speaker") v →
      (sanitizeStructuredQuote lib q).Speaker = lib.TrimSpace v) ∧
    (specPreferred (rawOf q) (B "title") v →
      (sanitizeStructuredQuote lib q).Title = lib.TrimSpace v) ∧
    (specPreferred (rawOf q) (B "conference") v →
      (sanitizeStructuredQuote lib q).Conference = lib.TrimSpace v) ∧
    (specPreferred (rawOf q) (B "quote") v →
      (sanitizeStructuredQuote lib q).Quote = lib.TrimSpace v) ∧
    (specPreferred (rawOf q) (B "headshot") v →
      (sanitizeStructuredQuote lib q).Headshot = lib.TrimSpace v) := by
  have ht := hidem v
  have h34 : 34 ∉ lib.TrimSpace v := hv.1
  have hl : ∀ label ∈ [B "Speaker:", B "Title:", B "Conference:", B "Quote:", B "Headshot:"],
      ¬ label <:+: lib.TrimSpace v := hv.2
  have hSp := hl (B "Speaker:") (by simp)
  have hTi := hl (B "Title:") (by simp)
  have hCo := hl (B "Conference:") (by simp)
  have hQu := hl (B "Quote:") (by simp)
  have hHe := hl (B "Headshot:") (by simp)
  refine ⟨fun h => ?_, fun h => ?_, fun h => ?_, fun h => ?_, fun h => ?_⟩
  · rw [(sanitizeStructuredQuote_fields lib q).1, extractEmbeddedJSONValue_of_spec lib _ _ v h]
    simp only [if_true]
    rw [(sanitizeLabelPrefix_eq lib (lib.TrimSpace v) (B "Speaker:")).2
      (fun hp => hSp (by rw [ht] at hp; exact hp.isInfix)), ht]
  · rw [(sanitizeStructuredQuote_fields lib q).2.1, extractEmbeddedJSONValue_of_spec lib _ _ v h]
    simp only [if_true]
    rw [trimAtJSONKey_plain lib _ _ ht h34]
    apply sanitizeBetweenLabels_plain lib _ _ _ ht hTi
    intro st hst
    simp only [List.mem_cons, List.mem_singleton, List.not_mem_nil, or_false] at hst
    rcases hst with h | h | h <;> rw [h] <;> assumption
  · rw [(sanitizeStructuredQuote_fields lib q).2.2.1,
      extractEmbeddedJSONValue_of_spec lib _ _ v h]
    simp only [if_true]
    rw [trimAtJSONKey_plain lib _ _ ht h34]
    apply sanitizeBetweenLabels_plain lib _ _ _ ht hCo
    intro st hst
    simp only [List.mem_cons, List.mem_singleton, List.not_mem_nil, or_false] at hst
    rcases hst with h | h <;> rw [h] <;> assumption
  · rw [(sanitizeStructuredQuote_fields lib q).2.2.2.1,
      extractEmbeddedJSONValue_of_spec lib _ _ v h]
    simp only [if_true]
    exact sanitizeQuoteText_plain lib _ ht h34 hQu hHe
  · rw [(sanitizeStructuredQuote_fields lib q).2.2.2.2,
      extractEmbeddedJSONValue_of_spec lib _ _ v h]
    simp only [if_true]
    rw [trimAtJSONKey_plain lib _ _ ht h34,
      (sanitizeLabelPrefix_eq lib (lib.TrimSpace v) (B "Headshot:")).2
        (fun hp => hHe (by rw [ht] at hp; exact hp.isInfix)), ht]

/-- C15, as the code has it. When, in the space-joined text of the five fields
of `q`, the last occurrence of `"k":"` (or, when that pattern yields no value,
the last occurrence of `"k": "`) is followed by a double quote that no
backslash precedes, and `v` is the text between that occurrence and the first
such double quote, then `extractEmbeddedJSONValue` returns the trimmed `v`, and
`sanitizeStructuredQuote` computes field `k` from it and not from the value `q`
has for `k`: the later steps of the sanitizer are applied to the trimmed `v`,
and when the trimmed `v` holds no double quote and none of the labels
`Speaker:`, `Title:`, `Conference:`, `Quote:`, `Headshot:`, it is field `k` of
the result (for any `strings.TrimSpace` that changes no trimmed text, as Go's
does); this for each of speaker, title, conference, quote, headshot. With
Speaker `x` and Quote `{"speaker":"Jane Doe","quote":"Be kind"}` the result has
Speaker `Jane Doe` and Quote `Be kind`; a quote text that embeds all five
values gives a result whose five fields are those values. -/
theorem sanitizeStructuredQuote_embedded_values :
    (∀ (lib : StringsPkg) (text key v : GoString), specPreferred text key v →
      extractEmbeddedJSONValue lib text key = (lib.TrimSpace v, true)) ∧
    (∀ (lib : StringsPkg) (q : StructuredQuote) (v : GoString),
      specPreferred (rawOf q) (B "speaker") v →
      (sanitizeStructuredQuote lib q).Speaker
        = sanitizeLabelPrefix lib (lib.TrimSpace v) (B "Speaker:")) ∧
    (∀ (lib : StringsPkg) (q : StructuredQuote) (v : GoString),
      specPreferred (rawOf q) (B "title") v →
      (sanitizeStructuredQuote lib q).Title
        = sanitizeBetweenLabels lib
            (trimAtJSONKey lib (lib.TrimSpace v) [B "conference", B "quote", B "headshot"])
            (B "Title:") [B "Conference:", B "Quote:", B "Headshot:"]) ∧
    (∀ (lib : StringsPkg) (q : StructuredQuote) (v : GoString),
      specPreferred (rawOf q) (B "conference") v →
      (sanitizeStructuredQuote lib q).Conference
        = sanitizeBetweenLabels lib
            (trimAtJSONKey lib (lib.TrimSpace v) [B "quote", B "headshot", B "title"])
            (B "Conference:") [B "Quote:", B "Headshot:"]) ∧
    (∀ (lib : StringsPkg) (q : StructuredQuote) (v : GoString),
      specPreferred (rawOf q) (B "quote") v →
      (sanitizeStructuredQuote lib q).Quote = sanitizeQuoteText lib (lib.TrimSpace v)) ∧
    (∀ (lib : StringsPkg) (q : StructuredQuote) (v : GoString),
      specPreferred (rawOf q) (B "headshot") v →
      (sanitizeStructuredQuote lib q).Headshot
        = sanitizeLabelPrefix lib
            (trimAtJSONKey lib (lib.TrimSpace v) [B "conference", B "quote", B "title"])
            (B "Headshot:")) ∧
    (∀ (lib : StringsPkg), (∀ s, lib.TrimSpace (lib.TrimSpace s) = lib.TrimSpace s) →
      ∀ (q : StructuredQuote) (v : GoString), specPlainValue (lib.TrimSpace v) →
      (specPreferred (rawOf q) (B "speaker") v →
        (sanitizeStructuredQuote lib q).Speaker = lib.TrimSpace v) ∧
      (specPreferred (rawOf q) (B "title") v →
        (sanitizeStructuredQuote lib q).Title = lib.TrimSpace v) ∧
      (specPreferred (rawOf q) (B "conference") v →
        (sanitizeStructuredQuote lib q).Conference = lib.TrimSpace v) ∧
      (specPreferred (rawOf q) (B "quote") v →
        (sanitizeStructuredQuote lib q).Quote = lib.TrimSpace v) ∧
      (specPreferred (rawOf q) (B "headshot") v →
        (sanitizeStructuredQuote lib q).Headshot = lib.TrimSpace v)) ∧
    sanitizeStructuredQuote ⟨asciiToLower, stringsTrimSpace⟩
        ⟨B "x", [], [], B "\x7b\"speaker\":\"Jane Doe\",\"quote\":\"Be kind\"\x7d", []⟩
      = ⟨B "Jane Doe", [], [], B "Be kind", []⟩ ∧
    sanitizeStructuredQuote ⟨asciiToLower, stringsTrimSpace⟩
        ⟨B "x", B "y", B "z",
          B ("\x7b\"speaker\":\"Jane Doe\",\"title\":\"On Kindness\"," ++
            "\"conference\":\"April 2020\",\"quote\":\"Be kind\"," ++
            "\"headshot\":\"https://cdn.example/h/jane.webp\"\x7d"), B "w"⟩
      = ⟨B "Jane Doe", B "On Kindness", B "April 2020", B "Be kind",
          B "https://cdn.example/h/jane.webp"⟩ := by
  refine ⟨extractEmbeddedJSONValue_of_spec, ?_, ?_, ?_, ?_, ?_, sanitizeStructuredQuote_plain,
    by decide, by decide⟩
  · intro lib q v h
    rw [(sanitizeStructuredQuote_fields lib q).1, extractEmbeddedJSONValue_of_spec lib _ _ v h]
    rfl
  · intro lib q v h
    rw [(sanitizeStructuredQuote_fields lib q).2.1, extractEmbeddedJSONValue_of_spec lib _ _ v h]
    rfl
  · intro lib q v h
    rw [(sanitizeStructuredQuote_fields lib q).2.2.1,
      extractEmbeddedJSONValue_of_spec lib _ _ v h]
    rfl
  · intro lib q v h
    rw [(sanitizeStructuredQuote_fields lib q).2.2.2.1,
      extractEmbeddedJSONValue_of_spec lib _ _ v h]
    rfl
  · intro lib q v h
    rw [(sanitizeStructuredQuote_fields lib q).2.2.2.2,
      extractEmbeddedJSONValue_of_spec lib _ _ v h]
    rfl

/-- Witness of C15 as amended: Title `y`, Quote `"title":"T"`; the embedded
title `T` is the Title of the result, not `y`. -/
theorem sanitizeStructuredQuote_embedded_values_witness :
    specPreferred (rawOf ⟨B "x", B "y", [], B "\"title\":\"T\"", []⟩) (B "title") (B "T") ∧
    (sanitizeStructuredQuote ⟨asciiToLower, stringsTrimSpace⟩
        ⟨B "x", B "y", [], B "\"title\":\"T\"", []⟩).Title = stringsTrimSpace (B "T") ∧
    stringsTrimSpace (B "T") = B "T" :=
  have h : specPreferred (rawOf ⟨B "x", B "y", [], B "\"title\":\"T\"", []⟩) (B "title")
      (B "T") := by
    refine Or.inl ⟨B "x y  ", B "T\" ", by decide, ?_, by decide, ?_, by decide⟩
    · intro j h1 h2
      have h1' : 5 < j := h1
      have h2' : j ≤ 17 := h2
      interval_cases j <;> decide
    · intro j hj
      have hj' : j < 1 := hj
      interval_cases j
      decide
  ⟨h, (sanitizeStructuredQuote_embedded_values.2.2.2.2.2.2.1 ⟨asciiToLower, stringsTrimSpace⟩
    stringsTrimSpace_idem ⟨B "x", B "y", [], B "\"title\":\"T\"", []⟩
    (B "T") (by decide)).2.1 h, by decide⟩

/-- C15, as stated, fails. With Speaker `x` and Quote
`"speaker":"A" and "speaker":"B` the joined text holds the pattern `"speaker":"`
followed later by a double quote that no backslash precedes; yet no such double
quote follows the last occurrence of the pattern, no embedded value is found,
and the Speaker of the result is `x`, the value the quote has. -/
theorem sanitize_embedded_unterminated_counterexample :
    specFollowedByQuote
      (rawOf ⟨B "x", [], [], B "\"speaker\":\"A\" and \"speaker\":\"B", []⟩)
      (B "\"speaker\":\"") ∧
    (¬ ∃ v, specPreferred
      (rawOf ⟨B "x", [], [], B "\"speaker\":\"A\" and \"speaker\":\"B", []⟩) (B "speaker") v) ∧
    (∀ lib : StringsPkg, extractEmbeddedJSONValue lib
      (rawOf ⟨B "x", [], [], B "\"speaker\":\"A\" and \"speaker\":\"B", []⟩) (B "speaker")
        = ([], false)) ∧
    (∀ lib : StringsPkg, (sanitizeStructuredQuote lib
        ⟨B "x", [], [], B "\"speaker\":\"A\" and \"speaker\":\"B", []⟩).Speaker
      = sanitizeLabelPrefix lib (B "x") (B "Speaker:")) ∧
    (sanitizeStructuredQuote ⟨asciiToLower, stringsTrimSpace⟩
        ⟨B "x", [], [], B "\"speaker\":\"A\" and \"speaker\":\"B", []⟩).Speaker = B "x" := by
  have hex : ∀ lib : StringsPkg, extractEmbeddedJSONValue lib
      (rawOf ⟨B "x", [], [], B "\"speaker\":\"A\" and \"speaker\":\"B", []⟩) (B "speaker")
        = ([], false) := fun lib => rfl
  refine ⟨⟨B "x   ", B "A\" and \"speaker\":\"B ", 1, by decide, by decide⟩, ?_, hex, ?_,
    by decide⟩
  · rintro ⟨v, hv⟩
    have := extractEmbeddedJSONValue_of_spec asciiStrings _ _ v hv
    rw [hex asciiStrings] at this
    simp at this
  · intro lib
    rw [(sanitizeStructuredQuote_fields lib _).1, hex lib]
    rfl

/-- C16. `sanitizeLabelPrefix(text, label)`: when the trimmed text starts with
the label, the trimmed remainder after that one occurrence; otherwise the
trimmed text. For a quote whose fields hold no double quote the Speaker of
`sanitizeStructuredQuote` is `sanitizeLabelPrefix(q.Speaker, "Speaker:")`, and
when `q.Speaker` is `Speaker:` followed by a name, whatever its bytes, it is
the name as `strings.TrimSpace` trims it: without the white-space runes of
Unicode at its start and at its end. So `Speaker:`, U+00A0, `Jane Doe `
gives `Jane Doe`. -/
theorem sanitizeLabelPrefix_strips :
    (∀ (lib : StringsPkg) (text label : GoString),
      (label <+: lib.TrimSpace text →
        ∃ r, lib.TrimSpace text = label ++ r ∧
          sanitizeLabelPrefix lib text label = lib.TrimSpace r) ∧
      (¬ label <+: lib.TrimSpace text →
        sanitizeLabelPrefix lib text label = lib.TrimSpace text)) ∧
    (∀ (lib : StringsPkg) (q : StructuredQuote),
      34 ∉ q.Speaker → 34 ∉ q.Title → 34 ∉ q.Conference → 34 ∉ q.Quote → 34 ∉ q.Headshot →
      (sanitizeStructuredQuote lib q).Speaker
        = sanitizeLabelPrefix lib q.Speaker (B "Speaker:")) ∧
    (∀ (lib : StringsPkg) (q : StructuredQuote) (name : GoString),
      lib.TrimSpace = stringsTrimSpace →
      34 ∉ q.Speaker → 34 ∉ q.Title → 34 ∉ q.Conference → 34 ∉ q.Quote → 34 ∉ q.Headshot →
      q.Speaker = B "Speaker:" ++ name →
      (sanitizeStructuredQuote lib q).Speaker = stringsTrimSpace name) ∧
    (sanitizeStructuredQuote ⟨asciiToLower, stringsTrimSpace⟩
        ⟨B "Speaker:" ++ [0xC2, 0xA0] ++ B "Jane Doe ", B "t", B "c", B "q", []⟩).Speaker
      = B "Jane Doe" := by
  have hgen : ∀ (lib : StringsPkg) (q : StructuredQuote),
      34 ∉ q.Speaker → 34 ∉ q.Title → 34 ∉ q.Conference → 34 ∉ q.Quote → 34 ∉ q.Headshot →
      (sanitizeStructuredQuote lib q).Speaker
        = sanitizeLabelPrefix lib q.Speaker (B "Speaker:") := by
    intro lib q h1 h2 h3 h4 h5
    have hraw : 34 ∉ rawOf q := by
      rw [rawOf_eq]
      simp [h1, h2, h3, h4, h5]
    rw [(sanitizeStructuredQuote_fields lib q).1, extractEmbeddedJSONValue_no_quote lib _ _ hraw]
    rfl
  refine ⟨sanitizeLabelPrefix_eq, hgen, ?_, by decide⟩
  intro lib q name hlib h1 h2 h3 h4 h5 hsp
  rw [hgen lib q h1 h2 h3 h4 h5, hsp]
  exact sanitizeLabelPrefix_speaker lib hlib name

/-- Witness of C16: the Speaker `Speaker:`, U+2003, `Jane Doe`, U+00A0 and a
line feed gives the trimmed name, `Jane Doe`. -/
theorem sanitizeLabelPrefix_strips_witness :
    (sanitizeStructuredQuote ⟨asciiToLower, stringsTrimSpace⟩
        ⟨B "Speaker:" ++ ([0xE2, 0x80, 0x83] ++ B "Jane Doe" ++ [0xC2, 0xA0, 10]),
          B "t", B "c", B "q", []⟩).Speaker
      = stringsTrimSpace ([0xE2, 0x80, 0x83] ++ B "Jane Doe" ++ [0xC2, 0xA0, 10]) ∧
    stringsTrimSpace ([0xE2, 0x80, 0x83] ++ B "Jane Doe" ++ [0xC2, 0xA0, 10]) = B "Jane Doe" :=
  ⟨sanitizeLabelPrefix_strips.2.2.1 ⟨asciiToLower, stringsTrimSpace⟩
    ⟨B "Speaker:" ++ ([0xE2, 0x80, 0x83] ++ B "Jane Doe" ++ [0xC2, 0xA0, 10]),
      B "t", B "c", B "q", []⟩
    ([0xE2, 0x80, 0x83] ++ B "Jane Doe" ++ [0xC2, 0xA0, 10]) rfl
    (by decide) (by decide) (by decide) (by decide) (by decide) rfl,
    by decide⟩


/-! ## Truncation at labels -/

theorem afterLast_spec (c primary : GoString) :
    specAfterLast c primary
      (if stringsLastIndex c primary ≠ -1
        then c.drop ((stringsLastIndex c primary).toNat + primary.length) else c) := by
  rcases lastIndexFrom_spec primary c 0 with ⟨h1, h2⟩ | ⟨k, h1, hk, h2, h3⟩
  · left
    have : stringsLastIndex c primary = -1 := h1
    simp [this, h2]
  · right
    have hidx : stringsLastIndex c primary = (k : Int) := by
      rw [stringsLastIndex, h1]; simp
    have hne : ¬ ((k : Int) = -1) := by omega
    simp only [hidx, ne_eq, hne, not_false_eq_true, if_true, Int.toNat_ofNat]
    obtain ⟨b, hb⟩ := h2
    refine ⟨c.take k, ?_, ?_⟩
    · have e1 : c = c.take k ++ c.drop k := (List.take_append_drop k c).symm
      have e2 : c.drop k = primary ++ c.drop (k + primary.length) := by
        rw [← List.drop_drop, ← hb, List.drop_left]
      rw [List.append_assoc, ← e2, ← e1]
    · intro j hj hj2
      have : (c.take k).length = k := by simp; omega
      rw [this] at hj
      exact h3 j hj hj2

/-- No occurrence of `st` can start before the end of `cut` and run over it,
when the label that starts at the end of `cut` begins with a byte that `st`
does not hold after its first byte. -/
theorem occurrence_inside_cut (part cut st : GoString) (done : List GoString)
    (hP : specBeforeEarliest part done cut)
    (hno : ∀ st0 ∈ done, ∃ h, st0.head? = some h ∧ h ∉ st.tail)
    (j : Nat) (hj : j < cut.length) (hocc : st <+: part.drop j) : st <+: cut.drop j := by
  obtain ⟨⟨t, ht⟩, _, hend⟩ := hP
  have hdrop : part.drop j = cut.drop j ++ t := by
    rw [← ht, List.drop_append_of_le_length (by omega)]
  by_cases hlen : st.length ≤ (cut.drop j).length
  · exact List.prefix_of_prefix_length_le hocc (hdrop ▸ List.prefix_append _ _) hlen
  · exfalso
    have hlen' : (cut.drop j).length < st.length := by omega
    rcases hend with hcp | ⟨st0, hst0, hpre0⟩
    · have : t = [] := by
        have := congrArg List.length ht
        rw [hcp, List.length_append] at this
        exact List.length_eq_zero.1 (by omega)
      rw [hdrop, this, List.append_nil] at hocc
      exact absurd hocc.length_le (by omega)
    · obtain ⟨h, hh, hnot⟩ := hno st0 hst0
      have ht0 : part.drop cut.length = t := by rw [← ht, List.drop_left]
      rw [ht0] at hpre0
      have hthead : t[0]? = some h := by
        obtain ⟨u, hu⟩ := hpre0
        cases st0 with
        | nil => simp at hh
        | cons x xs =>
          simp only [List.head?_cons, Option.some.injEq] at hh
          rw [← hu, hh]; simp
      obtain ⟨u, hu⟩ := hocc
      have hget : st[(cut.drop j).length]? = some h := by
        have h1 : (st ++ u)[(cut.drop j).length]? = st[(cut.drop j).length]? :=
          List.getElem?_append_left hlen'
        rw [← h1, hu, hdrop, List.getElem?_append_right (le_refl _)]
        simpa using hthead
      have hpos : 0 < (cut.drop j).length := by
        rw [List.length_drop]; omega
      apply hnot
      cases st with
      | nil => simp at hlen'
      | cons x xs =>
        obtain ⟨d, hd⟩ := Nat.exists_eq_succ_of_ne_zero (Nat.pos_iff_ne_zero.1 hpos)
        rw [hd, List.getElem?_cons_succ] at hget
        exact List.getElem?_mem hget

/-- One pass of the loop over `stops` keeps the specification of the cut. -/
theorem cutAtStop_spec (part cut st : GoString) (done : List GoString)
    (hP : specBeforeEarliest part done cut)
    (hno : ∀ st0 ∈ done, ∃ h, st0.head? = some h ∧ h ∉ st.tail) :
    specBeforeEarliest part (done ++ [st]) (cutAtStop cut st) := by
  have hin := occurrence_inside_cut part cut st done hP hno
  obtain ⟨hpre, hmin, hend⟩ := hP
  unfold cutAtStop
  rcases indexFrom_spec st cut 0 with ⟨h1, h2⟩ | ⟨k, h1, h2, h3⟩
  · have hidx : stringsIndex cut st = -1 := h1
    simp only [hidx, ne_eq, not_true_eq_false, if_false]
    refine ⟨hpre, ?_, ?_⟩
    · intro j hj st' hst'
      rcases List.mem_append.1 hst' with h | h
      · exact hmin j hj st' h
      · rw [List.mem_singleton] at h
        subst h
        intro hocc
        exact h2 ((infix_iff_prefix_drop _ cut).2 ⟨j, hin j hj hocc⟩)
    · rcases hend with h | ⟨st0, hst0, h⟩
      · exact Or.inl h
      · exact Or.inr ⟨st0, List.mem_append_left _ hst0, h⟩
  · have hidx : stringsIndex cut st = (k : Int) := by
      rw [stringsIndex, h1]; simp
    have hne : ¬ ((k : Int) = -1) := by omega
    simp only [hidx, ne_eq, hne, not_false_eq_true, if_true, Int.toNat_ofNat]
    have hk : k ≤ cut.length := by
      by_contra hgt
      have hnil : cut.drop k = [] := List.drop_eq_nil_of_le (by omega)
      rw [hnil] at h2
      have hst : st = [] := List.prefix_nil.1 h2
      have hlt : 0 < k := by omega
      exact h3 0 hlt (by rw [hst]; exact List.nil_prefix)
    have hlen : (cut.take k).length = k := by simp; omega
    refine ⟨(List.take_prefix k cut).trans hpre, ?_, Or.inr ⟨st, by simp, ?_⟩⟩
    · intro j hj st' hst'
      rw [hlen] at hj
      rcases List.mem_append.1 hst' with h | h
      · exact hmin j (by omega) st' h
      · rw [List.mem_singleton] at h
        subst h
        intro hocc
        exact h3 j hj (hin j (by omega) hocc)
    · rw [hlen]
      obtain ⟨t, ht⟩ := hpre
      have : part.drop k = cut.drop k ++ t := by
        rw [← ht, List.drop_append_of_le_length hk]
      rw [this]
      exact h2.trans (List.prefix_append _ _)

theorem specBeforeEarliest_start (part : GoString) : specBeforeEarliest part [] part := by
  refine ⟨List.prefix_refl _, ?_, Or.inl rfl⟩
  intro j _ st hst
  cases hst

/-- No label of `stops` occurs in the cut, when the labels are not empty. -/
theorem no_stop_in_cut (part cut : GoString) (stops : List GoString)
    (hP : specBeforeEarliest part stops cut) (st : GoString) (hst : st ∈ stops)
    (hne : st ≠ []) : ¬ st <:+: cut := by
  intro hinf
  obtain ⟨j, hj⟩ := (infix_iff_prefix_drop st cut).1 hinf
  obtain ⟨⟨t, ht⟩, hmin, _⟩ := hP
  have hjlt : j < cut.length := by
    by_contra hge
    rw [List.drop_eq_nil_of_le (by omega)] at hj
    exact hne (List.prefix_nil.1 hj)
  apply hmin j hjlt st hst
  have : part.drop j = cut.drop j ++ t := by
    rw [← ht, List.drop_append_of_le_length (by omega)]
  rw [this]
  exact hj.trans (List.prefix_append _ _)

/-- The primary label does not occur after its last occurrence. -/
theorem no_primary_in_part (c primary part : GoString) (h : specAfterLast c primary part)
    (hne : primary ≠ []) : ¬ primary <:+: part := by
  rcases h with ⟨h1, h2⟩ | ⟨a, hc, hlast⟩
  · rw [h2]; exact h1
  · intro hinf
    obtain ⟨k, hk⟩ := (infix_iff_prefix_drop primary part).1 hinf
    have hkle : k ≤ part.length := by
      by_contra hgt
      rw [List.drop_eq_nil_of_le (by omega)] at hk
      exact hne (List.prefix_nil.1 hk)
    have hpos : 0 < primary.length := List.length_pos.2 hne
    apply hlast (a.length + primary.length + k) (by omega)
      (by rw [hc]; simp only [List.length_append]; omega)
    have : c.drop (a.length + primary.length + k) = part.drop k := by
      rw [hc, ← List.drop_drop, ← List.length_append, List.drop_left]
    rw [this]
    exact hk


theorem asciiTrimSpace_piece (s : GoString) : asciiTrimSpace s <:+: s := by
  rw [asciiTrimSpace_eq]
  have h1 : ((s.dropWhile asciiSpace).reverse.dropWhile asciiSpace) <:+:
      (s.dropWhile asciiSpace).reverse := (List.dropWhile_suffix asciiSpace).isInfix
  have h2 := List.reverse_infix.2 h1
  rw [List.reverse_reverse] at h2
  exact h2.trans (List.dropWhile_suffix asciiSpace).isInfix

/-- The loop over three stop labels, with the labels of `sanitizeStructuredQuote`. -/
theorem cut_three (part s1 s2 s3 : GoString)
    (h12 : ∃ h, s1.head? = some h ∧ h ∉ s2.tail)
    (h13 : ∃ h, s1.head? = some h ∧ h ∉ s3.tail)
    (h23 : ∃ h, s2.head? = some h ∧ h ∉ s3.tail) :
    specBeforeEarliest part [s1, s2, s3] (cutAtStop (cutAtStop (cutAtStop part s1) s2) s3) := by
  have a1 := cutAtStop_spec part part s1 [] (specBeforeEarliest_start part)
    (by intro st0 h; cases h)
  have a2 := cutAtStop_spec part _ s2 _ a1 (by
    intro st0 h
    simp only [List.nil_append, List.mem_singleton] at h
    subst h; exact h12)
  have a3 := cutAtStop_spec part _ s3 _ a2 (by
    intro st0 h
    simp only [List.nil_append, List.singleton_append, List.mem_cons, List.mem_singleton,
      List.not_mem_nil, or_false] at h
    rcases h with h | h
    · subst h; exact h13
    · subst h; exact h23)
  simpa using a3

theorem cut_two (part s1 s2 : GoString) (h12 : ∃ h, s1.head? = some h ∧ h ∉ s2.tail) :
    specBeforeEarliest part [s1, s2] (cutAtStop (cutAtStop part s1) s2) := by
  have a1 := cutAtStop_spec part part s1 [] (specBeforeEarliest_start part)
    (by intro st0 h; cases h)
  have a2 := cutAtStop_spec part _ s2 _ a1 (by
    intro st0 h
    simp only [List.nil_append, List.mem_singleton] at h
    subst h; exact h12)
  simpa using a2

theorem title_cut (lib : StringsPkg) (text : GoString) :
    ∃ part cut, specAfterLast (lib.TrimSpace text) (B "Title:") part ∧
      specBeforeEarliest part [B "Conference:", B "Quote:", B "Headshot:"] cut ∧
      sanitizeBetweenLabels lib text (B "Title:") [B "Conference:", B "Quote:", B "Headshot:"]
        = lib.TrimSpace cut :=
  ⟨_, _, afterLast_spec (lib.TrimSpace text) (B "Title:"),
    cut_three _ (B "Conference:") (B "Quote:") (B "Headshot:")
      ⟨67, by decide, by decide⟩ ⟨67, by decide, by decide⟩ ⟨81, by decide, by decide⟩, rfl⟩

theorem conference_cut (lib : StringsPkg) (text : GoString) :
    ∃ part cut, specAfterLast (lib.TrimSpace text) (B "Conference:") part ∧
      specBeforeEarliest part [B "Quote:", B "Headshot:"] cut ∧
      sanitizeBetweenLabels lib text (B "Conference:") [B "Quote:", B "Headshot:"]
        = lib.TrimSpace cut :=
  ⟨_, _, afterLast_spec (lib.TrimSpace text) (B "Conference:"),
    cut_two _ (B "Quote:") (B "Headshot:") ⟨81, by decide, by decide⟩, rfl⟩

theorem no_label_in_result (lib : StringsPkg) (hpiece : ∀ s, lib.TrimSpace s <:+: s)
    (c primary part cut : GoString) (stops : List GoString)
    (h1 : specAfterLast c primary part) (h2 : specBeforeEarliest part stops cut)
    (hp : primary ≠ []) :
    ¬ primary <:+: lib.TrimSpace cut ∧
      ∀ st ∈ stops, st ≠ [] → ¬ st <:+: lib.TrimSpace cut := by
  refine ⟨?_, ?_⟩
  · intro h
    exact no_primary_in_part c primary part h1 hp
      ((h.trans (hpiece cut)).trans h2.1.isInfix)
  · intro st hst hne h
    exact no_stop_in_cut part cut stops h2 st hst hne (h.trans (hpiece cut))

/-- C17. `sanitizeBetweenLabels(text, "Title:", "Conference:", "Quote:",
"Headshot:")` is the trimmed `cut`, where `part` is what lies in the trimmed
text after the last `Title:` (all of it when there is none) and `cut` is what
lies in `part` before the earliest occurrence of any of the three stop labels;
the same with primary label `Conference:` and stop labels `Quote:`,
`Headshot:`. As trimming returns a piece of its argument, the result contains
neither the primary label nor a stop label. -/
theorem sanitizeBetweenLabels_truncates :
    (∀ (lib : StringsPkg) (text : GoString),
      ∃ part cut, specAfterLast (lib.TrimSpace text) (B "Title:") part ∧
        specBeforeEarliest part [B "Conference:", B "Quote:", B "Headshot:"] cut ∧
        sanitizeBetweenLabels lib text (B "Title:")
          [B "Conference:", B "Quote:", B "Headshot:"] = lib.TrimSpace cut) ∧
    (∀ (lib : StringsPkg) (text : GoString),
      ∃ part cut, specAfterLast (lib.TrimSpace text) (B "Conference:") part ∧
        specBeforeEarliest part [B "Quote:", B "Headshot:"] cut ∧
        sanitizeBetweenLabels lib text (B "Conference:") [B "Quote:", B "Headshot:"]
          = lib.TrimSpace cut) ∧
    (∀ (lib : StringsPkg) (text : GoString), (∀ s, lib.TrimSpace s <:+: s) →
      ∀ label ∈ [B "Title:", B "Conference:", B "Quote:", B "Headshot:"],
        ¬ label <:+: sanitizeBetweenLabels lib text (B "Title:")
          [B "Conference:", B "Quote:", B "Headshot:"]) ∧
    (∀ (lib : StringsPkg) (text : GoString), (∀ s, lib.TrimSpace s <:+: s) →
      ∀ label ∈ [B "Conference:", B "Quote:", B "Headshot:"],
        ¬ label <:+: sanitizeBetweenLabels lib text (B "Conference:")
          [B "Quote:", B "Headshot:"]) := by
  refine ⟨title_cut, conference_cut, ?_, ?_⟩
  · intro lib text hpiece label hlabel
    obtain ⟨part, cut, h1, h2, h3⟩ := title_cut lib text
    have key := no_label_in_result lib hpiece _ _ part cut _ h1 h2 (by decide)
    rw [h3]
    simp only [List.mem_cons, List.mem_singleton, List.not_mem_nil, or_false] at hlabel
    rcases hlabel with h | h | h | h
    · subst h; exact key.1
    · subst h; exact key.2 _ (by simp) (by decide)
    · subst h; exact key.2 _ (by simp) (by decide)
    · subst h; exact key.2 _ (by simp) (by decide)
  · intro lib text hpiece label hlabel
    obtain ⟨part, cut, h1, h2, h3⟩ := conference_cut lib text
    have key := no_label_in_result lib hpiece _ _ part cut _ h1 h2 (by decide)
    rw [h3]
    simp only [List.mem_cons, List.mem_singleton, List.not_mem_nil, or_false] at hlabel
    rcases hlabel with h | h | h
    · subst h; exact key.1
    · subst h; exact key.2 _ (by simp) (by decide)
    · subst h; exact key.2 _ (by simp) (by decide)

/-- Witness of C17 on `Title: A Title: Be Kind Quote: x Conference: y`, whose
result is `Be Kind`. -/
theorem sanitizeBetweenLabels_truncates_witness :
    sanitizeBetweenLabels asciiStrings (B "Title: A Title: Be Kind Quote: x Conference: y")
        (B "Title:") [B "Conference:", B "Quote:", B "Headshot:"] = B "Be Kind" ∧
    ¬ B "Quote:" <:+: sanitizeBetweenLabels asciiStrings
        (B "Title: A Title: Be Kind Quote: x Conference: y")
        (B "Title:") [B "Conference:", B "Quote:", B "Headshot:"] :=
  ⟨by decide, sanitizeBetweenLabels_truncates.2.2.1 asciiStrings
    (B "Title: A Title: Be Kind Quote: x Conference: y") asciiTrimSpace_piece
    (B "Quote:") (by decide)⟩


/-! ## The stream consumer -/

/-- C14, as the code has it. `convertQuotesToSpeakers` displays, for every
quote of a section, the speaker, title, conference and quote text of
`sanitizeStructuredQuote(q)`; the accumulation compares the quotes as parsed,
so two parsed quotes with the same (speaker, title, conference, quote) leave
one record; `convertStructuredScriptures` copies volume, reference and text of
every scripture as they are. -/
theorem sanitize_at_display :
    (∀ (lib : StringsPkg) (assetsBaseURL : GoString) (lookup : GoString → GoString)
        (quotes : List StructuredQuote),
      (convertQuotesToSpeakers lib assetsBaseURL lookup quotes).map
          (fun s => (s.Name, s.TalkTitle, s.Conference, s.Quotes))
        = quotes.map (fun q =>
            ((sanitizeStructuredQuote lib q).Speaker, (sanitizeStructuredQuote lib q).Title,
              (sanitizeStructuredQuote lib q).Conference,
              [(sanitizeStructuredQuote lib q).Quote]))) ∧
    (∀ (accumulated : List StructuredQuote) (q1 q2 : StructuredQuote),
      specQuoteIdentity q1 = specQuoteIdentity q2 →
      accumulateQuotes (accumulateQuotes accumulated [q1]) [q2]
        = accumulateQuotes accumulated [q1]) ∧
    (∀ scriptures : List StructuredScripture,
      (convertStructuredScriptures scriptures).map (fun s => (s.Volume, s.Reference, s.Text))
        = scriptures.map (fun s => (s.Volume, s.Reference, s.Text))) := by
  refine ⟨?_, ?_, ?_⟩
  · intro lib base lookup quotes
    simp [convertQuotesToSpeakers, List.map_map, Function.comp_def]
  · intro acc q1 q2 h
    unfold accumulateQuotes
    rw [mergeUniqueQuotes_eq, mergeUniqueBy_eq quoteKey (mergeUniqueBy quoteKey acc [q1]) [q2],
      newRecords_eq_nil, List.append_nil]
    intro q hq
    rw [List.mem_singleton] at hq
    subst hq
    rw [mergeUniqueBy_keys, ← quoteKey_of_identity q1 q h]
    exact List.mem_map_of_mem _ (List.mem_append_right _ (List.mem_singleton_self _))
  · intro scriptures
    simp [convertStructuredScriptures, List.map_map, Function.comp_def]

/-- Witness of C14 as amended: the same parsed quote twice. -/
theorem sanitize_at_display_witness :
    accumulateQuotes (accumulateQuotes [] [⟨B "A", B "T", B "C", B "q", []⟩])
        [⟨B "A", B "T", B "C", B "q", B "h"⟩]
      = accumulateQuotes [] [⟨B "A", B "T", B "C", B "q", []⟩] :=
  sanitize_at_display.2.1 [] ⟨B "A", B "T", B "C", B "q", []⟩ ⟨B "A", B "T", B "C", B "q", B "h"⟩
    (by decide)

/-- C14, as stated, fails. The parsed quotes with Speaker `Speaker: A` and `A`
have the same sanitized (speaker, title, conference, quote), yet accumulating
one and then the other leaves two records in the section; and a scripture with
Volume ` Volume: Bible ` is handed to rendering unchanged. -/
theorem sanitize_before_dedup_counterexample :
    specQuoteIdentity (sanitizeStructuredQuote asciiStrings ⟨B "Speaker: A", B "T", B "C", B "q", []⟩)
      = specQuoteIdentity (sanitizeStructuredQuote asciiStrings ⟨B "A", B "T", B "C", B "q", []⟩) ∧
    accumulateQuotes (accumulateQuotes [] [⟨B "Speaker: A", B "T", B "C", B "q", []⟩])
        [⟨B "A", B "T", B "C", B "q", []⟩]
      = [⟨B "Speaker: A", B "T", B "C", B "q", []⟩, ⟨B "A", B "T", B "C", B "q", []⟩] ∧
    convertStructuredScriptures [⟨B " Volume: Bible ", B "John 3:16", B "t", none⟩]
      = [⟨B " Volume: Bible ", B "John 3:16", B "t", none⟩] := by
  refine ⟨by decide, by decide, by decide⟩


/-! ## The task-graph orchestrator -/

/-- C18. When initialisation succeeds and the Presidents orchestration returns
`safe = false`, `Run` sends exactly one result - agent name `orchestrator`,
empty content, error `blocked: <reason>` - and closes the channel; the only
calls made are `ensureInitialized` and the Presidents orchestration: no Leaders
or Scriptures keyword derivation and no task. -/
theorem run_blocked (env : RunEnv) (presOrch : PresidentsOrchestratorResponse)
    (hinit : env.initErr = none) (hpres : env.presidents = Except.ok presOrch)
    (hsafe : presOrch.Safe = false) :
    Run env = ⟨[⟨B "orchestrator", [], some (B "blocked: " ++ presOrch.Reason)⟩],
      [RunCall.ensureInitialized, RunCall.orchestratorPresidents], true⟩ ∧
    (Run env).results.length = 1 ∧
    (Run env).closed = true ∧
    RunCall.orchestratorLeaders ∉ (Run env).calls ∧
    RunCall.orchestratorScriptures ∉ (Run env).calls ∧
    (∀ name, RunCall.searchAgent name ∉ (Run env).calls) := by
  have h : Run env = ⟨[⟨B "orchestrator", [], some (B "blocked: " ++ presOrch.Reason)⟩],
      [RunCall.ensureInitialized, RunCall.orchestratorPresidents], true⟩ := by
    simp [Run, hinit, hpres, hsafe]
  rw [h]
  refine ⟨rfl, rfl, rfl, by simp, by simp, ?_⟩
  intro name
  simp

/-- Witness of C18: a question blocked with the reason `no`. -/
theorem run_blocked_witness :
    (Run ⟨none, Except.ok ⟨false, B "no", [], []⟩, (none, none), (none, none),
      fun _ => ([], none)⟩).results
      = [⟨B "orchestrator", [], some (B "blocked: no")⟩] :=
  congrArg RunTrace.results
    (run_blocked ⟨none, Except.ok ⟨false, B "no", [], []⟩, (none, none), (none, none),
      fun _ => ([], none)⟩ ⟨false, B "no", [], []⟩ rfl rfl rfl).1

theorem leadersStage_no_scriptures (env : RunEnv) (name : GoString)
    (h : name = B "scriptures_bible" ∨ name = B "scriptures_bom" ∨ name = B "scriptures_other") :
    RunCall.searchAgent name ∉ (leadersStage env).2 := by
  unfold leadersStage
  rcases h with h | h | h <;> subst h <;>
    rcases env.leaders with ⟨_ | l, _ | e⟩ <;> simp <;> decide

/-- C19 (the code departs from the claim for the Leaders orchestration). A
failure of the Presidents orchestration gives one error result and no further
call; a failure of the Scriptures orchestration gives one error result for it
and no Scriptures task; but after a failure of the Leaders orchestration, when
the Scriptures orchestration has succeeded, `Run` goes on: the three Scriptures
tasks are run and seven results are sent. -/
theorem run_leaders_failure_not_fatal :
    (∀ (env : RunEnv) (err : GoError), env.initErr = none →
      env.presidents = Except.error err →
      Run env = ⟨[⟨[], [], some (B "presidents orchestrator failed: " ++ err)⟩],
        [RunCall.ensureInitialized, RunCall.orchestratorPresidents], true⟩) ∧
    (∀ (env : RunEnv) (presOrch : PresidentsOrchestratorResponse) (err : GoError)
        (data : Option ScripturesOrchestratorResponse),
      env.initErr = none → env.presidents = Except.ok presOrch → presOrch.Safe = true →
      env.scriptures = (data, some err) →
      scripturesStage env
        = ([⟨[], [], some (B "scriptures orchestrator failed: " ++ err)⟩], []) ∧
      RunCall.searchAgent (B "scriptures_bible") ∉ (Run env).calls ∧
      RunCall.searchAgent (B "scriptures_bom") ∉ (Run env).calls ∧
      RunCall.searchAgent (B "scriptures_other") ∉ (Run env).calls) ∧
    (∀ (env : RunEnv) (presOrch : PresidentsOrchestratorResponse) (err : GoError)
        (data : Option LeadersOrchestratorResponse) (keywords : ScripturesOrchestratorResponse),
      env.initErr = none → env.presidents = Except.ok presOrch → presOrch.Safe = true →
      env.leaders = (data, some err) → env.scriptures = (some keywords, none) →
      (⟨[], [], some (B "leaders orchestrator failed: " ++ err)⟩ : AgentResult)
        ∈ (Run env).results ∧
      RunCall.searchAgent (B "scriptures_bible") ∈ (Run env).calls ∧
      RunCall.searchAgent (B "scriptures_bom") ∈ (Run env).calls ∧
      RunCall.searchAgent (B "scriptures_other") ∈ (Run env).calls ∧
      (Run env).results.length = 7) ∧
    (Run ⟨none, Except.ok ⟨true, [], B "k1", B "k2"⟩, (none, some (B "timeout")),
        (some ⟨B "b", B "m", B "o"⟩, none), fun name => (name, none)⟩).results
      = [⟨B "presidents_agent", B "presidents_oaks", none⟩,
          ⟨B "presidents_agent", B "presidents_nelson", none⟩,
          ⟨B "presidents_agent", B "presidents_general", none⟩,
          ⟨[], [], some (B "leaders orchestrator failed: timeout")⟩,
          ⟨B "scriptures_bible", B "scriptures_bible", none⟩,
          ⟨B "scriptures_bom", B "scriptures_bom", none⟩,
          ⟨B "scriptures_other", B "scriptures_other", none⟩] := by
  refine ⟨?_, ?_, ?_, by decide⟩
  · intro env err hinit hpres
    simp [Run, hinit, hpres]
  · intro env presOrch err data hinit hpres hsafe hscr
    have hstage : scripturesStage env
        = ([⟨[], [], some (B "scriptures orchestrator failed: " ++ err)⟩], []) := by
      unfold scripturesStage
      rw [hscr]
      cases data <;> rfl
    have hcalls : (Run env).calls = [RunCall.ensureInitialized, RunCall.orchestratorPresidents,
        RunCall.orchestratorLeaders, RunCall.orchestratorScriptures,
        RunCall.searchAgent (B "presidents_oaks"), RunCall.searchAgent (B "presidents_nelson"),
        RunCall.searchAgent (B "presidents_general")] ++ (leadersStage env).2 := by
      simp [Run, hinit, hpres, hsafe, hstage]
    refine ⟨hstage, ?_, ?_, ?_⟩
    · rw [hcalls, List.mem_append, not_or]
      exact ⟨by decide, leadersStage_no_scriptures env _ (Or.inl rfl)⟩
    · rw [hcalls, List.mem_append, not_or]
      exact ⟨by decide, leadersStage_no_scriptures env _ (Or.inr (Or.inl rfl))⟩
    · rw [hcalls, List.mem_append, not_or]
      exact ⟨by decide, leadersStage_no_scriptures env _ (Or.inr (Or.inr rfl))⟩
  · intro env presOrch err data keywords hinit hpres hsafe hlead hscr
    have hl : leadersStage env
        = ([⟨[], [], some (B "leaders orchestrator failed: " ++ err)⟩], []) := by
      unfold leadersStage
      rw [hlead]
      cases data <;> rfl
    have hs : scripturesStage env
        = ([taskResult env (B "scriptures_bible") (B "scriptures_bible"),
            taskResult env (B "scriptures_bom") (B "scriptures_bom"),
            taskResult env (B "scriptures_other") (B "scriptures_other")],
          [RunCall.searchAgent (B "scriptures_bible"), RunCall.searchAgent (B "scriptures_bom"),
            RunCall.searchAgent (B "scriptures_other")]) := by
      unfold scripturesStage
      rw [hscr]
    simp [Run, hinit, hpres, hsafe, hl, hs]

/-- The formatting loop of a task other than `presidents_general` makes one
call. -/
theorem formatAttempts_other (lib : StringsPkg) (name : GoString)
    (generate : Nat → GenerateOutcome) (hname : name ≠ B "presidents_general") :
    formatAttempts lib name generate 1 1 none
      = match generate 1 with
        | GenerateOutcome.failed err => ⟨[], some (B "format failed: " ++ err), 1⟩
        | GenerateOutcome.response text _ => ⟨text, none, 1⟩ := by
  rw [formatAttempts]
  cases generate 1 with
  | failed err => simp [formatAttempts]
  | response text fr => simp [hname]

/-- One pass of the formatting loop of `presidents_general`. -/
theorem formatAttempts_general (lib : StringsPkg) (generate : Nat → GenerateOutcome)
    (remaining attempt : Nat) (lastErr : Option GoError) :
    (specRetry lib (generate attempt) →
      ∃ e, formatAttempts lib (B "presidents_general") generate (remaining + 1) attempt lastErr
        = formatAttempts lib (B "presidents_general") generate remaining (attempt + 1)
            (some e)) ∧
    (¬ specRetry lib (generate attempt) →
      ∃ text fr, generate attempt = GenerateOutcome.response text fr ∧
        formatAttempts lib (B "presidents_general") generate (remaining + 1) attempt lastErr
          = ⟨text, none, attempt⟩) := by
  cases hg : generate attempt with
  | failed err =>
    refine ⟨fun _ => ⟨err, ?_⟩, fun h => absurd trivial h⟩
    rw [formatAttempts, hg]
  | response text fr =>
    simp only [specRetry]
    constructor
    · intro h
      refine ⟨B "empty or recitation output", ?_⟩
      rw [formatAttempts, hg]
      simp only [List.length_eq_zero, true_and]
      rw [if_pos h]
    · intro h
      refine ⟨text, fr, rfl, ?_⟩
      rw [formatAttempts, hg]
      simp only [List.length_eq_zero, true_and]
      rw [if_neg h]


theorem runSearchAgent_general_eq (lib : StringsPkg) (toolName : GoString)
    (generate : Nat → GenerateOutcome) :
    runSearchAgent lib (B "presidents_general") toolName true none none generate
      = formatAttempts lib (B "presidents_general") generate 3 1 none := by
  simp [runSearchAgent]

/-- C20. Once retrieval has succeeded: the task `presidents_general` makes at
least one and at most three formatting calls; it makes a further one exactly
after a call that failed, returned `RECITATION` or returned white space only,
as long as fewer than three have been made, and returns the text of the first
other response; after three such outcomes it returns an error. Every other
task makes exactly one formatting call and returns its text, empty or not,
without retry (or the error of the call). -/
theorem runSearchAgent_retry_policy :
    (∀ (lib : StringsPkg) (toolName : GoString) (generate : Nat → GenerateOutcome),
      1 ≤ (runSearchAgent lib (B "presidents_general") toolName true none none
        generate).formatCalls ∧
      (runSearchAgent lib (B "presidents_general") toolName true none none
        generate).formatCalls ≤ 3 ∧
      (¬ specRetry lib (generate 1) →
        ∃ text fr, generate 1 = GenerateOutcome.response text fr ∧
          runSearchAgent lib (B "presidents_general") toolName true none none generate
            = ⟨text, none, 1⟩) ∧
      (specRetry lib (generate 1) → ¬ specRetry lib (generate 2) →
        ∃ text fr, generate 2 = GenerateOutcome.response text fr ∧
          runSearchAgent lib (B "presidents_general") toolName true none none generate
            = ⟨text, none, 2⟩) ∧
      (specRetry lib (generate 1) → specRetry lib (generate 2) →
        ¬ specRetry lib (generate 3) →
        ∃ text fr, generate 3 = GenerateOutcome.response text fr ∧
          runSearchAgent lib (B "presidents_general") toolName true none none generate
            = ⟨text, none, 3⟩) ∧
      (specRetry lib (generate 1) → specRetry lib (generate 2) → specRetry lib (generate 3) →
        ∃ e, runSearchAgent lib (B "presidents_general") toolName true none none generate
          = ⟨[], some (B "format failed: " ++ e), 3⟩)) ∧
    (∀ (lib : StringsPkg) (name toolName : GoString) (generate : Nat → GenerateOutcome),
      name ≠ B "presidents_general" →
      (runSearchAgent lib name toolName true none none generate).formatCalls = 1 ∧
      (∀ text fr, generate 1 = GenerateOutcome.response text fr →
        runSearchAgent lib name toolName true none none generate = ⟨text, none, 1⟩) ∧
      (∀ err, generate 1 = GenerateOutcome.failed err →
        runSearchAgent lib name toolName true none none generate
          = ⟨[], some (B "format failed: " ++ err), 1⟩)) := by
  constructor
  · intro lib toolName generate
    rw [runSearchAgent_general_eq]
    have s1 := formatAttempts_general lib generate 2 1 none
    have c1 : ¬ specRetry lib (generate 1) →
        ∃ text fr, generate 1 = GenerateOutcome.response text fr ∧
          formatAttempts lib (B "presidents_general") generate 3 1 none = ⟨text, none, 1⟩ :=
      s1.2
    have c2 : specRetry lib (generate 1) → ¬ specRetry lib (generate 2) →
        ∃ text fr, generate 2 = GenerateOutcome.response text fr ∧
          formatAttempts lib (B "presidents_general") generate 3 1 none = ⟨text, none, 2⟩ := by
      intro h1 h2
      obtain ⟨e1, he1⟩ := s1.1 h1
      obtain ⟨text, fr, hg, hr⟩ := (formatAttempts_general lib generate 1 2 (some e1)).2 h2
      exact ⟨text, fr, hg, he1.trans hr⟩
    have c3 : specRetry lib (generate 1) → specRetry lib (generate 2) →
        ¬ specRetry lib (generate 3) →
        ∃ text fr, generate 3 = GenerateOutcome.response text fr ∧
          formatAttempts lib (B "presidents_general") generate 3 1 none = ⟨text, none, 3⟩ := by
      intro h1 h2 h3
      obtain ⟨e1, he1⟩ := s1.1 h1
      obtain ⟨e2, he2⟩ := (formatAttempts_general lib generate 1 2 (some e1)).1 h2
      obtain ⟨text, fr, hg, hr⟩ := (formatAttempts_general lib generate 0 3 (some e2)).2 h3
      exact ⟨text, fr, hg, (he1.trans he2).trans hr⟩
    have c4 : specRetry lib (generate 1) → specRetry lib (generate 2) →
        specRetry lib (generate 3) →
        ∃ e, formatAttempts lib (B "presidents_general") generate 3 1 none
          = ⟨[], some (B "format failed: " ++ e), 3⟩ := by
      intro h1 h2 h3
      obtain ⟨e1, he1⟩ := s1.1 h1
      obtain ⟨e2, he2⟩ := (formatAttempts_general lib generate 1 2 (some e1)).1 h2
      obtain ⟨e3, he3⟩ := (formatAttempts_general lib generate 0 3 (some e2)).1 h3
      exact ⟨e3, ((he1.trans he2).trans he3).trans rfl⟩
    refine ⟨?_, ?_, c1, c2, c3, c4⟩
    · by_cases h1 : specRetry lib (generate 1)
      · by_cases h2 : specRetry lib (generate 2)
        · by_cases h3 : specRetry lib (generate 3)
          · obtain ⟨e, he⟩ := c4 h1 h2 h3; rw [he]; simp
          · obtain ⟨t, f, _, he⟩ := c3 h1 h2 h3; rw [he]; simp
        · obtain ⟨t, f, _, he⟩ := c2 h1 h2; rw [he]; simp
      · obtain ⟨t, f, _, he⟩ := c1 h1; rw [he]
    · by_cases h1 : specRetry lib (generate 1)
      · by_cases h2 : specRetry lib (generate 2)
        · by_cases h3 : specRetry lib (generate 3)
          · obtain ⟨e, he⟩ := c4 h1 h2 h3; rw [he]
          · obtain ⟨t, f, _, he⟩ := c3 h1 h2 h3; rw [he]
        · obtain ⟨t, f, _, he⟩ := c2 h1 h2; rw [he]; simp
      · obtain ⟨t, f, _, he⟩ := c1 h1; rw [he]; simp
  · intro lib name toolName generate hname
    have h : runSearchAgent lib name toolName true none none generate
        = formatAttempts lib name generate 1 1 none := by
      simp [runSearchAgent, hname]
    rw [h, formatAttempts_other lib name generate hname]
    refine ⟨?_, ?_, ?_⟩
    · cases generate 1 <;> rfl
    · intro text fr hg; rw [hg]
    · intro err hg; rw [hg]

/-- Witness of C20: `presidents_general` gets a failure, then a `RECITATION`,
then the text `ok`; `leaders_q12_a` gets the empty text. -/
theorem runSearchAgent_retry_policy_witness :
    runSearchAgent asciiStrings (B "presidents_general") (B "get_presidents_talks") true none
        none (fun k => if k = 1 then GenerateOutcome.failed (B "500")
          else if k = 2 then GenerateOutcome.response (B "x") (B "RECITATION")
          else GenerateOutcome.response (B "ok") (B "STOP"))
      = ⟨B "ok", none, 3⟩ ∧
    runSearchAgent asciiStrings (B "leaders_q12_a") (B "get_leaders_talks") true none none
        (fun _ => GenerateOutcome.response [] (B "STOP"))
      = ⟨[], none, 1⟩ :=
  ⟨by
    obtain ⟨text, fr, hg, hr⟩ := (runSearchAgent_retry_policy.1 asciiStrings
      (B "get_presidents_talks") (fun k => if k = 1 then GenerateOutcome.failed (B "500")
          else if k = 2 then GenerateOutcome.response (B "x") (B "RECITATION")
          else GenerateOutcome.response (B "ok") (B "STOP"))).2.2.2.2.1
      trivial (Or.inl rfl) (by
        show ¬ (B "STOP" = B "RECITATION" ∨ asciiStrings.TrimSpace (B "ok") = [])
        decide)
    rw [hr]
    have : text = B "ok" := by
      have h3 : GenerateOutcome.response (B "ok") (B "STOP") = GenerateOutcome.response text fr :=
        hg
      injection h3 with h _
      exact h.symm
    rw [this],
   (runSearchAgent_retry_policy.2 asciiStrings (B "leaders_q12_a") (B "get_leaders_talks")
      (fun _ => GenerateOutcome.response [] (B "STOP")) (by decide)).2.1 [] (B "STOP") rfl⟩


/-! ## Failures of a task, the summary input, the capacity of the stream -/

theorem formatAttempts_error_content (lib : StringsPkg) (name : GoString)
    (generate : Nat → GenerateOutcome) : ∀ (remaining attempt : Nat) (lastErr : Option GoError),
    (formatAttempts lib name generate remaining attempt lastErr).err ≠ none →
    (formatAttempts lib name generate remaining attempt lastErr).content = [] := by
  intro remaining
  induction remaining with
  | zero =>
    intro attempt lastErr _
    cases lastErr <;> rfl
  | succ r ih =>
    intro attempt lastErr h
    rw [formatAttempts] at h ⊢
    cases hg : generate attempt with
    | failed err =>
      rw [hg] at h
      exact ih _ _ h
    | response text fr =>
      rw [hg] at h
      simp only [] at h ⊢
      split
      · rename_i hc
        rw [if_pos hc] at h
        exact ih _ _ h
      · rename_i hc
        rw [if_neg hc] at h
        exact absurd rfl h

/-- When every formatting attempt ends in a failure, or, for
`presidents_general`, in a retry, the loop returns an error. -/
theorem formatAttempts_exhausted (lib : StringsPkg) (name : GoString)
    (generate : Nat → GenerateOutcome) : ∀ (remaining attempt : Nat) (lastErr : Option GoError),
    (∀ k, attempt ≤ k → k < attempt + remaining →
      (∃ err, generate k = GenerateOutcome.failed err) ∨
      (name = B "presidents_general" ∧ specRetry lib (generate k))) →
    (formatAttempts lib name generate remaining attempt lastErr).err ≠ none ∧
    (formatAttempts lib name generate remaining attempt lastErr).formatCalls
      = attempt + remaining - 1 := by
  intro remaining
  induction remaining with
  | zero =>
    intro attempt lastErr _
    cases lastErr <;> exact ⟨by simp [formatAttempts], rfl⟩
  | succ r ih =>
    intro attempt lastErr h
    have hrest : ∀ k, attempt + 1 ≤ k → k < attempt + 1 + r →
        (∃ err, generate k = GenerateOutcome.failed err) ∨
        (name = B "presidents_general" ∧ specRetry lib (generate k)) :=
      fun k h1 h2 => h k (by omega) (by omega)
    have hnow := h attempt (le_refl _) (by omega)
    have hlen : attempt + 1 + r - 1 = attempt + (r + 1) - 1 := by omega
    rw [formatAttempts]
    cases hg : generate attempt with
    | failed err =>
      simp only []
      rw [← hlen]
      exact ih _ _ hrest
    | response text fr =>
      rw [hg] at hnow
      rcases hnow with ⟨err, he⟩ | ⟨hname, hretry⟩
      · cases he
      · simp only [specRetry] at hretry
        have hc : name = B "presidents_general" ∧
            (fr = B "RECITATION" ∨ (lib.TrimSpace text).length = 0) :=
          ⟨hname, hretry.imp id (fun h => by rw [h]; rfl)⟩
        simp only []
        rw [if_pos hc, ← hlen]
        exact ih _ _ hrest

/-- C21. Whatever the tool table, the retrieval, the marshalling and the
generation backend do, when `runSearchAgent` returns a non-nil error the
content it returns is the empty string; and when every formatting attempt is
used up (each of the 3 attempts of `presidents_general`, or the one attempt of
another task, ending in a failure or, for `presidents_general`, in an empty or
`RECITATION` response), the error returned is non-nil. -/
theorem runSearchAgent_error_empty_content :
    (∀ (lib : StringsPkg) (name toolName : GoString) (toolFound : Bool)
        (invokeErr marshalErr : Option GoError) (generate : Nat → GenerateOutcome),
      (runSearchAgent lib name toolName toolFound invokeErr marshalErr generate).err ≠ none →
      (runSearchAgent lib name toolName toolFound invokeErr marshalErr generate).content = []) ∧
    (∀ (lib : StringsPkg) (toolName : GoString) (generate : Nat → GenerateOutcome),
      specRetry lib (generate 1) → specRetry lib (generate 2) → specRetry lib (generate 3) →
      (runSearchAgent lib (B "presidents_general") toolName true none none generate).err
        ≠ none) ∧
    (∀ (lib : StringsPkg) (name toolName : GoString) (generate : Nat → GenerateOutcome)
        (err : GoError),
      name ≠ B "presidents_general" → generate 1 = GenerateOutcome.failed err →
      (runSearchAgent lib name toolName true none none generate).err ≠ none) ∧
    (∀ (lib : StringsPkg) (name toolName : GoString), toolName ≠ [] →
      (runSearchAgent lib name toolName false none none
        (fun _ => GenerateOutcome.response (B "x") (B "STOP"))).err ≠ none) := by
  refine ⟨?_, ?_, ?_, ?_⟩
  · intro lib name toolName toolFound invokeErr marshalErr generate h
    unfold runSearchAgent at h ⊢
    cases toolFound with
    | false => rfl
    | true =>
      cases invokeErr with
      | some e => rfl
      | none =>
        cases marshalErr with
        | some e => rfl
        | none =>
          simp only [Bool.not_true, Bool.false_eq_true, if_false] at h ⊢
          exact formatAttempts_error_content lib name generate _ _ _ h
  · intro lib toolName generate h1 h2 h3
    have hrun : runSearchAgent lib (B "presidents_general") toolName true none none generate
        = formatAttempts lib (B "presidents_general") generate 3 1 none := by
      simp [runSearchAgent]
    rw [hrun]
    refine (formatAttempts_exhausted lib _ generate 3 1 none ?_).1
    intro k hk1 hk2
    right
    refine ⟨rfl, ?_⟩
    have : k = 1 ∨ k = 2 ∨ k = 3 := by omega
    rcases this with h | h | h <;> subst h <;> assumption
  · intro lib name toolName generate err hname hg
    have hrun : runSearchAgent lib name toolName true none none generate
        = formatAttempts lib name generate 1 1 none := by
      simp [runSearchAgent, hname]
    rw [hrun]
    refine (formatAttempts_exhausted lib _ generate 1 1 none ?_).1
    intro k hk1 hk2
    left
    have : k = 1 := by omega
    subst this
    exact ⟨err, hg⟩
  · intro lib name toolName _
    simp [runSearchAgent]

/-- Witness of C21: the tool fails; the error is non-nil, the content empty. -/
theorem runSearchAgent_error_empty_content_witness :
    (runSearchAgent asciiStrings (B "leaders_q12_a") (B "get_leaders_talks") true
      (some (B "timeout")) none (fun _ => GenerateOutcome.response (B "x") (B "STOP"))).content
      = [] :=
  runSearchAgent_error_empty_content.1 asciiStrings (B "leaders_q12_a") (B "get_leaders_talks")
    true (some (B "timeout")) none (fun _ => GenerateOutcome.response (B "x") (B "STOP"))
    (by decide)

theorem limit_eq {α : Type} (inp : List α) (n : Int) (hn : 0 ≤ n) :
    limitQuotes inp n = some (inp.take n.toNat) := by
  unfold limitQuotes
  by_cases h : (inp.length : Int) ≤ n
  · rw [if_pos h, List.take_of_length_le (by omega)]
  · rw [if_neg h, if_neg (by omega)]

theorem limitScriptures_eq : @limitScriptures = @limitQuotes StructuredScripture := rfl

/-- C23. For every list and every `n >= 0`, `limitQuotes` and `limitScriptures`
return the first `min(len(in), n)` items of the list, in order: the whole list
when it has at most `n` items, never more than `n` items; and the payload of
`GenerateSummary` is made with `n = 3` for the Presidents quotes, `3` for the
Leaders quotes and `6` for the scriptures. -/
theorem limit_caps :
    (∀ (inp : List StructuredQuote) (n : Int), 0 ≤ n →
      limitQuotes inp n = some (inp.take n.toNat) ∧
      (inp.take n.toNat).length = min inp.length n.toNat ∧
      (inp.take n.toNat) <+: inp ∧
      ((inp.length : Int) ≤ n → limitQuotes inp n = some inp)) ∧
    (∀ (inp : List StructuredScripture) (n : Int), 0 ≤ n →
      limitScriptures inp n = some (inp.take n.toNat) ∧
      (inp.take n.toNat).length = min inp.length n.toNat ∧
      (inp.take n.toNat) <+: inp ∧
      ((inp.length : Int) ≤ n → limitScriptures inp n = some inp)) ∧
    (∀ (presidents leaders : List StructuredQuote) (scriptures : List StructuredScripture),
      summaryPayload presidents leaders scriptures
        = (some (presidents.take 3), some (leaders.take 3), some (scriptures.take 6))) := by
  refine ⟨?_, ?_, ?_⟩
  · intro inp n hn
    refine ⟨limit_eq inp n hn, ?_, List.take_prefix _ _, ?_⟩
    · rw [List.length_take, Nat.min_comm]
    · intro h
      simp [limitQuotes, h]
  · intro inp n hn
    rw [limitScriptures_eq]
    refine ⟨limit_eq inp n hn, ?_, List.take_prefix _ _, ?_⟩
    · rw [List.length_take, Nat.min_comm]
    · intro h
      simp [limitQuotes, h]
  · intro presidents leaders scriptures
    unfold summaryPayload
    rw [limitScriptures_eq, limit_eq _ 3 (by decide), limit_eq _ 3 (by decide),
      limit_eq _ 6 (by decide)]
    rfl

/-- Witness of C23: four quotes capped at 3. -/
theorem limit_caps_witness :
    limitQuotes ([⟨B "a", [], [], [], []⟩, ⟨B "b", [], [], [], []⟩, ⟨B "c", [], [], [], []⟩,
      ⟨B "d", [], [], [], []⟩] : List StructuredQuote) 3
      = some [⟨B "a", [], [], [], []⟩, ⟨B "b", [], [], [], []⟩, ⟨B "c", [], [], [], []⟩] :=
  (limit_caps.1 [⟨B "a", [], [], [], []⟩, ⟨B "b", [], [], [], []⟩, ⟨B "c", [], [], [], []⟩,
      ⟨B "d", [], [], [], []⟩] 3 (by decide)).1

theorem leadersStage_length (env : RunEnv) : (leadersStage env).1.length ≤ 6 := by
  unfold leadersStage
  rcases env.leaders with ⟨_ | l, _ | e⟩ <;> simp

theorem scripturesStage_length (env : RunEnv) : (scripturesStage env).1.length ≤ 3 := by
  unfold scripturesStage
  rcases env.scriptures with ⟨_ | l, _ | e⟩ <;> simp

/-- C24. Whatever the initialisation, the three orchestrations and the tasks
return, a run sends at most 12 results (3 Presidents, at most 6 for the Leaders
stage, at most 3 for the Scriptures stage; one when the run ends early), fewer
than the capacity 32 of the channel: the buffer is never full when a result is
sent. -/
theorem run_results_within_capacity (env : RunEnv) :
    (Run env).results.length ≤ 12 ∧ 12 < resultsCapacity ∧
    (Run env).results.length < resultsCapacity := by
  have h : (Run env).results.length ≤ 12 := by
    unfold Run
    cases env.initErr with
    | some e => simp
    | none =>
      cases env.presidents with
      | error e => simp
      | ok p =>
        cases hs : p.Safe with
        | false => simp [hs]
        | true =>
          have h1 := leadersStage_length env
          have h2 := scripturesStage_length env
          simp only [hs, Bool.not_true, Bool.false_eq_true, if_false, List.length_append,
            List.length_map, List.length_cons, List.length_nil]
          omega
  have hc : 12 < resultsCapacity := by decide
  exact ⟨h, hc, by omega⟩

/-! ## Frame of the session store -/

/-- C27. `claimSession(s)` and `markSessionDone(s)` leave the entry of every
other session ID as it was; a claim that reports duplicate leaves the whole
store as it was, and so does `markSessionDone("")`. -/
theorem session_store_frame :
    (∀ (store : SessionStore) (now : Int) (s other : GoString), other ≠ s →
      (claimSession store now s).2 other = store other ∧
      markSessionDone store now s other = store other) ∧
    (∀ (store : SessionStore) (now : Int) (s : GoString),
      (claimSession store now s).1 = true → (claimSession store now s).2 = store) ∧
    (∀ (store : SessionStore) (now : Int), markSessionDone store now [] = store) := by
  refine ⟨?_, ?_, fun store now => rfl⟩
  · intro store now s other hne
    refine ⟨?_, ?_⟩
    · unfold claimSession
      by_cases hs : s = []
      · rw [if_pos hs]
      · rw [if_neg hs]
        cases store s with
        | none => simp [mapSet, hne]
        | some exp =>
          by_cases h : now < exp
          · simp [h]
          · simp [h, mapSet, mapDelete, hne]
    · unfold markSessionDone
      by_cases hs : s = []
      · rw [if_pos hs]
      · rw [if_neg hs]; simp [mapSet, hne]
  · intro store now s h
    unfold claimSession at h ⊢
    by_cases hs : s = []
    · rw [if_pos hs]
    · rw [if_neg hs] at h ⊢
      cases hst : store s with
      | none => rw [hst] at h; simp at h
      | some exp =>
        rw [hst] at h
        by_cases hlt : now < exp
        · simp [hlt]
        · simp [hlt] at h

/-- Witness of C27: a claim of `b` leaves the entry of `a`; a rejected claim
of `a` leaves the store. -/
theorem session_store_frame_witness :
    (claimSession (mapSet (fun _ => none) (B "a") 100) 5 (B "b")).2 (B "a")
      = mapSet (fun _ => none) (B "a") 100 (B "a") ∧
    (claimSession (mapSet (fun _ => none) (B "a") 100) 5 (B "a")).2
      = mapSet (fun _ => none) (B "a") 100 :=
  ⟨(session_store_frame.1 (mapSet (fun _ => none) (B "a") 100) 5 (B "b") (B "a")
      (by decide)).1,
    session_store_frame.2.1 (mapSet (fun _ => none) (B "a") 100) 5 (B "a") (by decide)⟩


/-! ## `extractFirstJSON`: text around the object, idempotence, balance -/

theorem scanLoop_shift (rest : GoString) : ∀ (o k : Nat) (d : Int) (inS esc : Bool),
    scanLoop rest (o + k) d inS esc = (scanLoop rest o d inS esc).map (fun i => i + k) := by
  induction rest with
  | nil => intro o k d inS esc; simp [scanLoop]
  | cons c rest ih =>
    intro o k d inS esc
    rw [scanLoop_cons, scanLoop_cons]
    split
    · rfl
    · rw [show o + k + 1 = o + 1 + k by omega]
      exact ih _ _ _ _ _

theorem scanLoop_append (rest y : GoString) : ∀ (o : Nat) (d : Int) (inS esc : Bool) (i : Nat),
    scanLoop rest o d inS esc = some i → scanLoop (rest ++ y) o d inS esc = some i := by
  induction rest with
  | nil => intro o d inS esc i h; simp [scanLoop] at h
  | cons c rest ih =>
    intro o d inS esc i h
    rw [List.cons_append, scanLoop_cons]
    rw [scanLoop_cons] at h
    split
    · rename_i hc; rw [if_pos hc] at h; exact h
    · rename_i hc; rw [if_neg hc] at h; exact ih _ _ _ _ _ h

theorem scanLoop_take (rest : GoString) : ∀ (o : Nat) (d : Int) (inS esc : Bool) (i : Nat),
    scanLoop rest o d inS esc = some i →
    scanLoop (rest.take (i + 1 - o)) o d inS esc = some i := by
  induction rest with
  | nil => intro o d inS esc i h; simp [scanLoop] at h
  | cons c rest ih =>
    intro o d inS esc i h
    have hb := scanLoop_bounds _ _ _ _ _ _ h
    obtain ⟨m, hm⟩ : ∃ m, i + 1 - o = m + 1 := ⟨i - o, by omega⟩
    rw [hm, List.take_succ_cons, scanLoop_cons]
    rw [scanLoop_cons] at h
    split
    · rename_i hc; rw [if_pos hc] at h; exact h
    · rename_i hc
      rw [if_neg hc] at h
      have := ih _ _ _ _ _ h
      rw [show i + 1 - (o + 1) = m by omega] at this
      exact this

/-- A success of `extractFirstJSON`, taken apart: the text before the first
opening brace, the rest, and the offset of the closing brace. -/
theorem extractFirstJSON_ok_parts (x r : GoString) (h : extractFirstJSON x = Except.ok r) :
    ∃ q t j, x = q ++ 123 :: t ∧ 123 ∉ q ∧
      scanLoop (123 :: t) q.length 0 false false = some (q.length + j) ∧
      j < (123 :: t).length ∧ r = (123 :: t).take (j + 1) := by
  by_cases hb : 123 ∈ x
  · obtain ⟨q, t, rfl, hq⟩ := exists_first_split 123 x hb
    rw [extractFirstJSON_split q t hq] at h
    cases hs : scanLoop (123 :: t) q.length 0 false false with
    | none => rw [hs] at h; cases h
    | some i =>
      rw [hs] at h
      have hbd := scanLoop_bounds _ _ _ _ _ _ hs
      have hr : slice (q ++ 123 :: t) q.length (i + 1) = r := by simpa using h
      refine ⟨q, t, i - q.length, rfl, hq, ?_, by omega, ?_⟩
      · rw [show q.length + (i - q.length) = i by omega]
        exact hs
      · rw [← hr, slice, List.drop_left]
        congr 1
        omega
  · rw [extractFirstJSON_no_brace x hb] at h
    cases h

theorem extractFirstJSON_of_parts (q t : GoString) (j : Nat) (hq : 123 ∉ q)
    (hs : scanLoop (123 :: t) q.length 0 false false = some (q.length + j)) :
    extractFirstJSON (q ++ 123 :: t) = Except.ok ((123 :: t).take (j + 1)) := by
  rw [extractFirstJSON_split q t hq, hs]
  simp only [slice, List.drop_left]
  congr 2
  omega

/-- C28. Text after the first complete object does not change the extraction:
when `extractFirstJSON(x)` succeeds with `r`, so does `extractFirstJSON(x ++ y)`
for every `y`; and text without opening brace in front does not change it
either: `extractFirstJSON(p ++ x) = extractFirstJSON(x)`. -/
theorem extractFirstJSON_context :
    (∀ x r y : GoString, extractFirstJSON x = Except.ok r →
      extractFirstJSON (x ++ y) = Except.ok r) ∧
    (∀ p x : GoString, 123 ∉ p → extractFirstJSON (p ++ x) = extractFirstJSON x) := by
  constructor
  · intro x r y h
    obtain ⟨q, t, j, rfl, hq, hs, hj, rfl⟩ := extractFirstJSON_ok_parts x r h
    have hs' := scanLoop_append (123 :: t) y _ _ _ _ _ hs
    have hshape : q ++ 123 :: t ++ y = q ++ 123 :: (t ++ y) := by simp
    rw [hshape, extractFirstJSON_of_parts q (t ++ y) j hq hs']
    congr 1
    rw [show 123 :: (t ++ y) = (123 :: t) ++ y from rfl,
      List.take_append_of_le_length (by omega)]
  · intro p x hp
    by_cases hb : 123 ∈ x
    · obtain ⟨q, t, rfl, hq⟩ := exists_first_split 123 x hb
      have hpq : 123 ∉ p ++ q := by
        intro hm
        rcases List.mem_append.1 hm with h | h
        · exact hp h
        · exact hq h
      have hshape : p ++ (q ++ 123 :: t) = (p ++ q) ++ 123 :: t := by simp
      have hscan : scanLoop (123 :: t) (p ++ q).length 0 false false
          = (scanLoop (123 :: t) q.length 0 false false).map (fun i => i + p.length) := by
        rw [List.length_append, Nat.add_comm p.length q.length]
        exact scanLoop_shift _ _ _ _ _ _
      rw [hshape, extractFirstJSON_split (p ++ q) t hpq, extractFirstJSON_split q t hq, hscan]
      cases hs : scanLoop (123 :: t) q.length 0 false false with
      | none => rfl
      | some i =>
        have hbd := scanLoop_bounds _ _ _ _ _ _ hs
        simp only [Option.map_some', slice, List.drop_left]
        congr 2
        rw [List.length_append]
        omega
    · have hpx : 123 ∉ p ++ x := by
        intro hm
        rcases List.mem_append.1 hm with h | h
        · exact hp h
        · exact hb h
      rw [extractFirstJSON_no_brace _ hpx, extractFirstJSON_no_brace _ hb]

/-- Witness of C28 on `a{"k":1}`, followed by `}{` and preceded by `xy`. -/
theorem extractFirstJSON_context_witness :
    extractFirstJSON (B "a\x7b\"k\":1\x7d" ++ B "\x7d\x7b") = Except.ok (B "\x7b\"k\":1\x7d") ∧
    extractFirstJSON (B "xy" ++ B "a\x7b\"k\":1\x7d") = extractFirstJSON (B "a\x7b\"k\":1\x7d") :=
  ⟨extractFirstJSON_context.1 (B "a\x7b\"k\":1\x7d") (B "\x7b\"k\":1\x7d") (B "\x7d\x7b") rfl,
    extractFirstJSON_context.2 (B "xy") (B "a\x7b\"k\":1\x7d") (by decide)⟩


theorem specBraceDelta_take (w : GoString) (m k : Nat) (h : k < m) :
    specBraceDelta (w.take m) k = specBraceDelta w k := by
  have h1 : (w.take m).take k = w.take k := by
    rw [List.take_take, Nat.min_eq_left (by omega)]
  have h2 : (w.take m)[k]? = w[k]? := List.getElem?_take_of_lt h
  simp only [specBraceDelta, specOutside, h1, h2]

theorem specBraceDepth_take (w : GoString) (m : Nat) : ∀ n, n ≤ m →
    specBraceDepth (w.take m) n = specBraceDepth w n := by
  intro n
  induction n with
  | zero => intro _; rfl
  | succ n ih =>
    intro h
    rw [specBraceDepth_succ, specBraceDepth_succ, ih (by omega),
      specBraceDelta_take w m n (by omega)]

/-- Between the first opening brace and the first closing position the depth
stays at 1 or more. -/
theorem specBraceDepth_pos (t : GoString) (j : Nat)
    (hmin : ∀ k, k < j → ¬ specClosesAt (123 :: t) k) : ∀ n, 1 ≤ n → n ≤ j →
    1 ≤ specBraceDepth (123 :: t) n := by
  intro n
  induction n with
  | zero => intro h; omega
  | succ n ih =>
    intro _ hn
    rw [specBraceDepth_succ]
    cases n with
    | zero =>
      have h0 : specBraceDepth (123 :: t) 0 = 0 := rfl
      have h1 := specBraceDelta_at [] t 123
      simp only [List.nil_append, List.length_nil] at h1
      rw [h0, h1]
      have : specLexState [] = (false, false) := rfl
      simp [this]
    | succ n =>
      have hprev := ih (by omega) (by omega)
      by_contra hlt
      have hnot := hmin (n + 1) (by omega)
      apply hnot
      unfold specBraceDelta at hlt
      by_cases hout : specOutside (123 :: t) (n + 1)
      · rw [if_pos hout] at hlt
        by_cases h123 : (123 :: t)[n + 1]? = some 123
        · rw [if_pos h123] at hlt; omega
        · rw [if_neg h123] at hlt
          by_cases h125 : (123 :: t)[n + 1]? = some 125
          · rw [if_pos h125] at hlt
            refine ⟨h125, hout, ?_⟩
            rw [specBraceDepth_succ]
            unfold specBraceDelta
            rw [if_pos hout, if_neg h123, if_pos h125]
            omega
          · rw [if_neg h125] at hlt; omega
      · rw [if_neg hout] at hlt; omega

/-- C29. When `extractFirstJSON(x)` succeeds with `r`, `extractFirstJSON(r)`
succeeds with `r`; `r` starts with an opening brace and ends with a closing
brace; the depth of its braces outside string literals is 0 at its end and at
least 1 after every proper non-empty prefix, so it is never negative. -/
theorem extractFirstJSON_idempotent (x r : GoString) (h : extractFirstJSON x = Except.ok r) :
    extractFirstJSON r = Except.ok r ∧
    r.head? = some 123 ∧ r.getLast? = some 125 ∧
    specBraceDepth r r.length = 0 ∧
    (∀ n, 0 < n → n < r.length → 1 ≤ specBraceDepth r n) ∧
    (∀ n, n ≤ r.length → 0 ≤ specBraceDepth r n) := by
  obtain ⟨q, t, j, rfl, hq, hs, hj, rfl⟩ := extractFirstJSON_ok_parts x r h
  have hlen : ((123 :: t).take (j + 1)).length = j + 1 := by
    rw [List.length_take]; omega
  have htop := scanLoop_top t q.length
  rw [hs] at htop
  obtain ⟨i, hi, hcl, hmin⟩ := htop
  have hij : i = j := by omega
  subst hij
  have hzero : scanLoop (123 :: t) 0 0 false false = some i := by
    have := scanLoop_shift (123 :: t) 0 q.length 0 false false
    rw [Nat.zero_add, hs] at this
    cases hz : scanLoop (123 :: t) 0 0 false false with
    | none => rw [hz] at this; cases this
    | some k =>
      rw [hz] at this
      simp only [Option.map_some', Option.some.injEq] at this
      congr 1
      omega
  have htake := scanLoop_take (123 :: t) 0 0 false false i hzero
  have hdepth : ∀ n, 1 ≤ n → n ≤ i → 1 ≤ specBraceDepth ((123 :: t).take (i + 1)) n := by
    intro n h1 h2
    rw [specBraceDepth_take _ _ n (by omega)]
    exact specBraceDepth_pos t i hmin n h1 h2
  have hend : specBraceDepth ((123 :: t).take (i + 1)) (i + 1) = 0 := by
    rw [specBraceDepth_take _ _ _ (le_refl _)]
    exact hcl.2.2
  refine ⟨?_, ?_, ?_, ?_, ?_, ?_⟩
  · have hshape : (123 :: t).take (i + 1) = [] ++ 123 :: t.take i := by simp
    have hscan : scanLoop (123 :: t.take i) ([] : GoString).length 0 false false
        = some (([] : GoString).length + i) := by
      simpa using htake
    rw [hshape, extractFirstJSON_of_parts [] (t.take i) i (by simp) hscan]
    congr 1
    have : (123 :: t.take i).length ≤ i + 1 := by
      have := hlen
      simp only [List.take_succ_cons] at this
      omega
    exact List.take_of_length_le this
  · simp
  · rw [List.getLast?_eq_getElem?, hlen, Nat.add_sub_cancel,
      List.getElem?_take_of_lt (Nat.lt_succ_self i)]
    exact hcl.1
  · rw [hlen]; exact hend
  · intro n h1 h2
    rw [hlen] at h2
    exact hdepth n h1 (by omega)
  · intro n hn
    rw [hlen] at hn
    rcases Nat.eq_zero_or_pos n with h0 | hpos
    · subst h0; exact le_of_eq rfl
    · rcases Nat.lt_or_ge n (i + 1) with hlt | hge
      · have := hdepth n hpos (by omega); omega
      · have : n = i + 1 := by omega
        subst this; rw [hend]

/-- Witness of C29 on `x {"a":{"b":"}"}} y`. -/
theorem extractFirstJSON_idempotent_witness :
    extractFirstJSON (B "\x7b\"a\":\x7b\"b\":\"\x7d\"\x7d\x7d")
      = Except.ok (B "\x7b\"a\":\x7b\"b\":\"\x7d\"\x7d\x7d") ∧
    (B "\x7b\"a\":\x7b\"b\":\"\x7d\"\x7d\x7d").getLast? = some 125 :=
  have h := extractFirstJSON_idempotent (B "x \x7b\"a\":\x7b\"b\":\"\x7d\"\x7d\x7d y")
    (B "\x7b\"a\":\x7b\"b\":\"\x7d\"\x7d\x7d") rfl
  ⟨h.1, h.2.2.1⟩


/-! ## Headshot URLs -/

theorem stringsHasSuffix_iff (s suf : GoString) :
    stringsHasSuffix s suf = true ↔ suf <:+ s := by
  unfold stringsHasSuffix
  rw [Bool.and_eq_true, decide_eq_true_iff, decide_eq_true_iff]
  constructor
  · rintro ⟨_, h⟩
    exact List.suffix_iff_eq_drop.2 h.symm
  · intro h
    exact ⟨h.length_le, (List.suffix_iff_eq_drop.1 h).symm⟩

theorem stringsContainsAny_false_iff (s chars : GoString) :
    stringsContainsAny s chars = false ↔ ∀ c ∈ s, c ∉ chars := by
  unfold stringsContainsAny
  rw [List.any_eq_false]
  simp

/-- C30. `isValidHeadshotURL(url, prefix)` is true exactly when `url` is not
empty, starts with `prefix`, ends with `.webp` and holds none of space, tab, CR,
LF, double quote, single quote, `<`, `>`. `convertQuotesToSpeakers` returns one
record per quote, in the order of the quotes, whose Headshot is the table
lookup for the sanitized speaker when that is not empty, else the sanitized
headshot of the quote when it is valid under `assetsBaseURL + "/headshots/"`,
else the empty string. -/
theorem headshot_only_if_safe :
    (∀ url pre : GoString, isValidHeadshotURL url pre = true ↔
      (url ≠ [] ∧ pre <+: url ∧ B ".webp" <:+ url ∧
        ∀ c ∈ url, c ∉ ([32, 9, 13, 10, 34, 39, 60, 62] : List Nat))) ∧
    (∀ (lib : StringsPkg) (assetsBaseURL : GoString) (lookup : GoString → GoString)
        (quotes : List StructuredQuote),
      (convertQuotesToSpeakers lib assetsBaseURL lookup quotes).length = quotes.length ∧
      (convertQuotesToSpeakers lib assetsBaseURL lookup quotes).map (fun s => s.Headshot)
        = quotes.map (fun q => specHeadshot lookup (assetsBaseURL ++ B "/headshots/")
            (sanitizeStructuredQuote lib q)) ∧
      (∀ i : Nat, ((convertQuotesToSpeakers lib assetsBaseURL lookup quotes)[i]?).map
          (fun s : SpeakerQuote => (s.Name, s.Headshot))
        = (quotes[i]?).map (fun q => ((sanitizeStructuredQuote lib q).Speaker,
            specHeadshot lookup (assetsBaseURL ++ B "/headshots/")
              (sanitizeStructuredQuote lib q)))) ∧
      (∀ s ∈ convertQuotesToSpeakers lib assetsBaseURL lookup quotes,
        s.Headshot = [] ∨ s.Headshot = lookup s.Name ∨
          isValidHeadshotURL s.Headshot (assetsBaseURL ++ B "/headshots/") = true)) := by
  have hchars : B " \t\r\n\"'<>" = [32, 9, 13, 10, 34, 39, 60, 62] := by decide
  have hconv : ∀ (lib : StringsPkg) (assetsBaseURL : GoString) (lookup : GoString → GoString)
      (quotes : List StructuredQuote),
      convertQuotesToSpeakers lib assetsBaseURL lookup quotes
        = quotes.map (fun q =>
            { Name := (sanitizeStructuredQuote lib q).Speaker,
              TalkTitle := (sanitizeStructuredQuote lib q).Title,
              Conference := (sanitizeStructuredQuote lib q).Conference,
              Quotes := [(sanitizeStructuredQuote lib q).Quote],
              Headshot := specHeadshot lookup (assetsBaseURL ++ B "/headshots/")
                (sanitizeStructuredQuote lib q) }) := by
    intro lib base lookup quotes
    unfold convertQuotesToSpeakers
    apply List.map_congr_left
    intro q _
    simp only [specHeadshot, SpeakerQuote.mk.injEq, true_and]
    by_cases h1 : lookup (sanitizeStructuredQuote lib q).Speaker = []
    · by_cases h2 : isValidHeadshotURL (sanitizeStructuredQuote lib q).Headshot
          (base ++ B "/headshots/") = true
      · simp [h1, h2]
      · simp [h1, h2]
    · simp [h1]
  refine ⟨?_, ?_⟩
  · intro url pre
    unfold isValidHeadshotURL
    by_cases h0 : url = []
    · simp [h0]
    · rw [if_neg h0]
      by_cases h1 : stringsHasPrefix url pre = true
      · have h1' := (stringsHasPrefix_iff url pre).1 h1
        by_cases h2 : stringsHasSuffix url (B ".webp") = true
        · have h2' := (stringsHasSuffix_iff url _).1 h2
          cases h3 : stringsContainsAny url (B " \t\r\n\"'<>") with
          | true =>
            have : ¬ ∀ c ∈ url, c ∉ ([32, 9, 13, 10, 34, 39, 60, 62] : List Nat) := by
              rw [← hchars, ← stringsContainsAny_false_iff, h3]; simp
            simp only [h1, h2, Bool.not_true, Bool.false_eq_true, if_false, if_true]
            constructor
            · intro h; cases h
            · intro h; exact absurd h.2.2.2 this
          | false =>
            have : ∀ c ∈ url, c ∉ ([32, 9, 13, 10, 34, 39, 60, 62] : List Nat) := by
              rw [← hchars, ← stringsContainsAny_false_iff, h3]
            simp only [h1, h2, Bool.not_true, Bool.false_eq_true, if_false, true_iff]
            exact ⟨h0, h1', h2', this⟩
        · have h2' : ¬ B ".webp" <:+ url := fun h => h2 ((stringsHasSuffix_iff url _).2 h)
          simp [h1, h2, h2']
      · have h1' : ¬ pre <+: url := fun h => h1 ((stringsHasPrefix_iff url pre).2 h)
        simp [h1, h1']
  · intro lib base lookup quotes
    rw [hconv]
    refine ⟨by simp, by simp [List.map_map, Function.comp_def], ?_, ?_⟩
    · intro i
      rw [List.getElem?_map]
      cases quotes[i]? <;> rfl
    · intro s hs
      obtain ⟨q, _, rfl⟩ := List.mem_map.1 hs
      simp only [specHeadshot]
      by_cases h1 : lookup (sanitizeStructuredQuote lib q).Speaker = []
      · by_cases h2 : isValidHeadshotURL (sanitizeStructuredQuote lib q).Headshot
            (base ++ B "/headshots/") = true
        · right; right; simp [h1, h2]
        · left; simp [h1, h2]
      · right; left; simp [h1]

/-- Witness of C30: a URL with a double quote is not valid; one without is. -/
theorem headshot_only_if_safe_witness :
    isValidHeadshotURL (B "https://a/headshots/x.webp") (B "https://a/headshots/") = true ∧
    isValidHeadshotURL (B "https://a/headshots/x\".webp") (B "https://a/headshots/") = false :=
  ⟨(headshot_only_if_safe.1 (B "https://a/headshots/x.webp") (B "https://a/headshots/")).2
      (by decide),
    by
      cases h : isValidHeadshotURL (B "https://a/headshots/x\".webp") (B "https://a/headshots/")
      · rfl
      · exact absurd ((headshot_only_if_safe.1 _ _).1 h).2.2.2 (by decide)⟩


/-! ## `flushingResponseWriter` -/

/-- C26. `flushingResponseWriter` adds nothing of its own: `Write(b)` returns
the byte count and error of the wrapped writer and leaves the state the wrapped
`Write` (then the flusher, if any) leaves; over a recording writer the body
grows by exactly `b` and the result is `len(b)`, nil, so 9, nil for
`test data`; a header set through `Header()` is set on the wrapped writer and
read back from it; `WriteHeader(code)` is the wrapped `WriteHeader(code)`, which
sets the status of a fresh recorder to `code`; `Flush` is the flusher's `Flush`
and does nothing when there is no flusher. -/
theorem flushingResponseWriter_transparent :
    (∀ (frw : flushingResponseWriter) (st : WriterState) (b : GoString),
      (frw.Write st b).1 = (frw.w.Write st b).1 ∧
      (frw.Write st b).2 = (match frw.flusher with
        | some flush => flush (frw.w.Write st b).2
        | none => (frw.w.Write st b).2)) ∧
    (∀ (flusher : Option Flusher) (st : WriterState) (b : GoString),
      flusher = none ∨ flusher = some recorderFlush →
      ((⟨recorder, flusher⟩ : flushingResponseWriter).Write st b).1 = ((b.length : Int), none) ∧
      ((⟨recorder, flusher⟩ : flushingResponseWriter).Write st b).2.body = st.body ++ b) ∧
    ((⟨recorder, some recorderFlush⟩ : flushingResponseWriter).Write newRecorder
        (B "test data")).1 = (9, none) ∧
    (∀ (frw : flushingResponseWriter) (st : WriterState) (k v : GoString),
      frw.HeaderSet st k v = frw.w.HeaderSet st k v ∧
      frw.HeaderGet st k = frw.w.HeaderGet st k) ∧
    (∀ (flusher : Option Flusher) (st : WriterState) (k v : GoString),
      recorder.HeaderGet ((⟨recorder, flusher⟩ : flushingResponseWriter).HeaderSet st k v) k
        = v) ∧
    (∀ (frw : flushingResponseWriter) (st : WriterState) (code : Int),
      frw.WriteHeader st code = frw.w.WriteHeader st code) ∧
    (∀ (flusher : Option Flusher) (code : Int),
      ((⟨recorder, flusher⟩ : flushingResponseWriter).WriteHeader newRecorder code).status
        = code) ∧
    (∀ (w : ResponseWriter) (st : WriterState),
      (⟨w, none⟩ : flushingResponseWriter).Flush st = st) ∧
    (∀ (w : ResponseWriter) (flush : Flusher) (st : WriterState),
      (⟨w, some flush⟩ : flushingResponseWriter).Flush st = flush st) := by
  refine ⟨?_, ?_, by decide, fun _ _ _ _ => ⟨rfl, rfl⟩, ?_, fun _ _ _ => rfl, ?_,
    fun _ _ => rfl, fun _ _ _ => rfl⟩
  · intro frw st b
    unfold flushingResponseWriter.Write
    cases frw.flusher <;> exact ⟨rfl, rfl⟩
  · intro flusher st b h
    rcases h with h | h <;> subst h <;> exact ⟨rfl, rfl⟩
  · intro flusher st k v
    simp [flushingResponseWriter.HeaderSet, recorder]
  · intro flusher code
    rfl

/-- Witness of C26: writing `ab` through the wrapper, without flusher, on a
recorder whose body is `x`. -/
theorem flushingResponseWriter_transparent_witness :
    ((⟨recorder, none⟩ : flushingResponseWriter).Write ⟨[], 200, false, B "x", 0⟩ (B "ab")).2.body
      = B "x" ++ B "ab" :=
  (flushingResponseWriter_transparent.2.1 none ⟨[], 200, false, B "x", 0⟩ (B "ab")
    (Or.inl rfl)).2

/-! ## The cascade gate -/

theorem gate_invariant (events : List GateEvent) : ∀ st : GateState,
    (st.dispatched = if st.once then 1 else 0) → st.started ≤ st.dispatched →
    (st.started = 0 ∨ st.ready = true) →
    ((events.foldl gateStep st).dispatched = if (events.foldl gateStep st).once then 1 else 0) ∧
    (events.foldl gateStep st).started ≤ (events.foldl gateStep st).dispatched ∧
    ((events.foldl gateStep st).started = 0 ∨ (events.foldl gateStep st).ready = true) ∧
    ((st.once = true ∨ GateEvent.startLeaders ∈ events) →
      (events.foldl gateStep st).once = true) := by
  induction events with
  | nil =>
    intro st h1 h2 h3
    exact ⟨h1, h2, h3, fun h => h.elim id (fun h => by cases h)⟩
  | cons e events ih =>
    intro st h1 h2 h3
    rw [List.foldl_cons]
    have hstep : ((gateStep st e).dispatched = if (gateStep st e).once then 1 else 0) ∧
        (gateStep st e).started ≤ (gateStep st e).dispatched ∧
        ((gateStep st e).started = 0 ∨ (gateStep st e).ready = true) ∧
        ((st.once = true ∨ e = GateEvent.startLeaders) → (gateStep st e).once = true) := by
      cases e with
      | startLeaders =>
        cases ho : st.once with
        | true =>
          simp only [gateStep, ho, if_true]
          exact ⟨by rw [h1, ho]; rfl, h2, h3, fun _ => trivial⟩
        | false =>
          rw [ho] at h1
          simp only [gateStep, ho, Bool.false_eq_true, if_false, if_true]
          have h1' : st.dispatched = 0 := h1
          refine ⟨by omega, by omega, ?_, fun _ => trivial⟩
          left; omega
      | leadersReady =>
        exact ⟨h1, h2, Or.inr rfl, fun h => h.elim id (fun h => by cases h)⟩
      | proceed =>
        by_cases hc : st.ready = true ∧ st.started < st.dispatched
        · simp only [gateStep, hc, and_self, if_true]
          exact ⟨h1, hc.2, Or.inr trivial, fun h => h.elim id (fun h => by cases h)⟩
        · simp only [gateStep, hc, if_false]
          exact ⟨h1, h2, h3, fun h => h.elim id (fun h => by cases h)⟩
    obtain ⟨a1, a2, a3, a4⟩ := hstep
    obtain ⟨b1, b2, b3, b4⟩ := ih (gateStep st e) a1 a2 a3
    refine ⟨b1, b2, b3, ?_⟩
    intro h
    apply b4
    rcases h with h | h
    · exact Or.inl (a4 (Or.inl h))
    · rcases List.mem_cons.1 h with h | h
      · exact Or.inl (a4 (Or.inr h.symm))
      · exact Or.inr h

/-- C22. Whatever the order of the events at the gate - any number of
invocations of `startLeaders`, the end of the Leaders orchestration, a
dispatched body passing `<-leadersReady` - the body is dispatched at most once,
and exactly once when `startLeaders` has been invoked at least once, as it is
four times in a run that passes the safety check; an invocation of
`startLeaders` completes in every state, ready or not, and leaves `leadersReady`
as it is; only the dispatched body waits: it proceeds after `leadersReady` is
closed, and not before. -/
theorem cascade_gate_once :
    (∀ events : List GateEvent,
      (gateRun events).dispatched ≤ 1 ∧
      (GateEvent.startLeaders ∈ events → (gateRun events).dispatched = 1) ∧
      (GateEvent.startLeaders ∉ events → (gateRun events).dispatched = 0) ∧
      (gateRun events).started ≤ (gateRun events).dispatched ∧
      ((gateRun events).started = 1 → (gateRun events).ready = true)) ∧
    (∀ st : GateState,
      (gateStep st GateEvent.startLeaders).once = true ∧
      (gateStep st GateEvent.startLeaders).ready = st.ready ∧
      (gateStep st GateEvent.startLeaders).started = st.started) ∧
    (∀ st : GateState, st.ready = false →
      (gateStep st GateEvent.proceed).started = st.started) ∧
    (∀ first second third : List GateEvent,
      (gateRun (first ++ GateEvent.startLeaders :: second ++ GateEvent.startLeaders :: third
        ++ [GateEvent.startLeaders, GateEvent.startLeaders])).dispatched = 1) := by
  have hmain : ∀ events : List GateEvent,
      ((gateRun events).dispatched = if (gateRun events).once then 1 else 0) ∧
      (gateRun events).started ≤ (gateRun events).dispatched ∧
      ((gateRun events).started = 0 ∨ (gateRun events).ready = true) ∧
      (GateEvent.startLeaders ∈ events → (gateRun events).once = true) := by
    intro events
    obtain ⟨h1, h2, h3, h4⟩ := gate_invariant events ⟨false, 0, false, 0⟩ rfl (le_refl _)
      (Or.inl rfl)
    exact ⟨h1, h2, h3, fun h => h4 (Or.inr h)⟩
  have hnone : ∀ (events : List GateEvent) (st : GateState),
      GateEvent.startLeaders ∉ events →
      (events.foldl gateStep st).dispatched = st.dispatched := by
    intro events
    induction events with
    | nil => intro st _; rfl
    | cons e events ih =>
      intro st h
      rw [List.foldl_cons, ih _ (fun hm => h (List.mem_cons_of_mem _ hm))]
      cases e with
      | startLeaders => exact absurd (List.mem_cons_self _ _) h
      | leadersReady => rfl
      | proceed =>
        simp only [gateStep]
        split <;> rfl
  refine ⟨?_, ?_, ?_, ?_⟩
  · intro events
    obtain ⟨h1, h2, h3, h4⟩ := hmain events
    refine ⟨?_, ?_, ?_, h2, ?_⟩
    · rw [h1]; split <;> omega
    · intro h; rw [h1, h4 h]; rfl
    · intro h; exact hnone events _ h
    · intro h
      rcases h3 with h0 | hr
      · omega
      · exact hr
  · intro st
    cases ho : st.once <;> simp [gateStep, ho]
  · intro st h
    simp [gateStep, h]
  · intro first second third
    obtain ⟨h1, _, _, h4⟩ := hmain (first ++ GateEvent.startLeaders :: second
      ++ GateEvent.startLeaders :: third ++ [GateEvent.startLeaders, GateEvent.startLeaders])
    rw [h1, h4 (by simp)]
    rfl

/-- Witness of C22: three invocations, the orchestration ending between them,
one more invocation. -/
theorem cascade_gate_once_witness :
    (gateRun [GateEvent.startLeaders, GateEvent.proceed, GateEvent.startLeaders,
      GateEvent.leadersReady, GateEvent.proceed, GateEvent.startLeaders,
      GateEvent.startLeaders]).dispatched = 1 :=
  (cascade_gate_once.1 [GateEvent.startLeaders, GateEvent.proceed, GateEvent.startLeaders,
      GateEvent.leadersReady, GateEvent.proceed, GateEvent.startLeaders,
      GateEvent.startLeaders]).2.1 (by decide)


/-! ## Content safety -/

theorem matchFrom_append (re : Regex) (rest : GoString)
    (h : ∀ prev, (Regex.run re (prev, rest)).isEmpty = false) :
    ∀ (pre : GoString) (prev : Option Nat), matchFrom re prev (pre ++ rest) = true := by
  intro pre
  induction pre with
  | nil =>
    intro prev
    cases rest with
    | nil => simp [matchFrom, h]
    | cons c rest => simp [matchFrom, h]
  | cons c pre ih =>
    intro prev
    simp [matchFrom, ih]

theorem anyMatch_of_mem (re : Regex) (input : GoString) (h : MatchString re input = true) :
    ∀ table : List Regex, re ∈ table → anyMatch table input = true := by
  intro table
  induction table with
  | nil => intro hm; cases hm
  | cons r table ih =>
    intro hm
    rcases List.mem_cons.1 hm with hm | hm
    · subst hm
      simp [anyMatch, h]
    · simp only [anyMatch, ih hm]
      split <;> rfl

theorem classify_sex (pre post : GoString) (a b c : Nat) (ha : asciiLowerByte a = 115)
    (hb : asciiLowerByte b = 101) (hc : asciiLowerByte c = 120) :
    ClassifyContent (pre ++ a :: b :: c :: post) = ContentInappropriate := by
  have hrun : ∀ prev, (Regex.run (alts [L "porn", L "xxx", L "nude", L "naked", L "sex"])
      (prev, a :: b :: c :: post)).isEmpty = false := by
    intro prev
    have hmem : (some c, post) ∈ Regex.run (alts [L "porn", L "xxx", L "nude", L "naked", L "sex"])
        (prev, a :: b :: c :: post) := by
      simp only [alts, Regex.run, List.mem_append]
      right; right; right; right
      have e1 : asciiLowerByte 115 = 115 := by decide
      have e2 : asciiLowerByte 101 = 101 := by decide
      have e3 : asciiLowerByte 120 = 120 := by decide
      simp [ha, hb, hc, e1, e2, e3]
    cases hr : Regex.run (alts [L "porn", L "xxx", L "nude", L "naked", L "sex"])
        (prev, a :: b :: c :: post) with
    | nil => rw [hr] at hmem; cases hmem
    | cons x xs => rfl
  have hm : MatchString (alts [L "porn", L "xxx", L "nude", L "naked", L "sex"])
      (pre ++ a :: b :: c :: post) = true :=
    matchFrom_append _ _ hrun pre none
  have hany : anyMatch inappropriateRegexes (pre ++ a :: b :: c :: post) = true := by
    apply anyMatch_of_mem _ _ hm
    unfold inappropriateRegexes
    exact List.mem_cons_of_mem _ (List.mem_cons_self _ _)
  simp [ClassifyContent, hany]

/-- C25. The LGBTQ+ pattern is not what decides: `ClassifyContent` tries the
inappropriate patterns first, and `(?i)porn|xxx|nude|naked|sex` matches every
input that holds `sex` in any ASCII case, so every question that matches the
alternatives `same.?sex` or `homosexual` is classified inappropriate. For
`What does the Church teach about same sex marriage?` the LGBTQ+ pattern
matches, the classification is `ContentInappropriate` and not
`ContentControversial`, and the message of `GetRedirectResponse` is the one for
inappropriate content, which does not name the missionaries. Questions that
match only `gay.?marriage`, `lgbtq` or `transgender` are classified
controversial and get the message that names the missionaries. -/
theorem classifyContent_lgbtq_inappropriate :
    MatchString lgbtqRegex (B "What does the Church teach about same sex marriage?") = true ∧
    ClassifyContent (B "What does the Church teach about same sex marriage?")
      = ContentInappropriate ∧
    ClassifyContent (B "What does the Church teach about same sex marriage?")
      ≠ ContentControversial ∧
    (GetRedirectResponse
      (ClassifyContent (B "What does the Church teach about same sex marriage?"))).Message
      = inappropriateMessage ∧
    stringsContains inappropriateMessage (B "missionaries") = false ∧
    (GetRedirectResponse ContentControversial).Message = missionariesMessage ∧
    stringsContains missionariesMessage (B "missionaries") = true ∧
    (∀ (pre post : GoString) (a b c : Nat), asciiLowerByte a = 115 → asciiLowerByte b = 101 →
      asciiLowerByte c = 120 →
      ClassifyContent (pre ++ a :: b :: c :: post) = ContentInappropriate) ∧
    (MatchString lgbtqRegex (B "homosexual") = true ∧
      ClassifyContent (B "homosexual") = ContentInappropriate) ∧
    (MatchString lgbtqRegex (B "Same-Sex attraction") = true ∧
      ClassifyContent (B "Same-Sex attraction") = ContentInappropriate) ∧
    ClassifyContent (B "Is gay marriage allowed?") = ContentControversial ∧
    ClassifyContent (B "What about transgender members?") = ContentControversial ∧
    ClassifyContent (B "LGBTQ") = ContentControversial ∧
    ClassifyContent (B "What is faith?") = ContentSafe := by
  refine ⟨by decide, by decide, by decide, by decide, by decide, by decide, by decide,
    classify_sex, ⟨by decide, by decide⟩, ⟨by decide, by decide⟩, by decide, by decide,
    by decide, by decide⟩

end TempleSquare
